import Mathlib

/-!
Verification of the allocation-and-repair core of the Intelligent Study
Planner (src/App.py): `build_calendar_slots`, `allocate_hours_to_schedule`
and `detect_and_redistribute_clashes`.

Modelling conventions (shallow embedding):
- Calendar dates are integers (the proleptic ordinal used by
  `datetime.date.toordinal`, for which ordinal 1 is a Monday); hours are
  exact rationals.  Python's binary floating point is idealised as exact
  rational arithmetic, and `round(x, n)` is modelled as rounding
  `x * 10^n` to the nearest integer (ties do not occur in any concrete
  input used below, so the difference between Python's round-half-to-even
  on binary floats and rational rounding is immaterial).
- `OrderedDict` values are association lists in key-insertion order;
  assignment to an existing key preserves the order, which `modifyAt`
  reproduces.
- The Python loops are written as structural recursions over the
  association lists; `break` is a non-recursive return, `continue` is a
  recursive call on the tail with unchanged state.
- The mutable loop variables of `detect_and_redistribute_clashes`
  (`entry['hours']`, `move_amount`, `overload`) are threaded through the
  state records `MoveSt`/`EntrySt`.  `schedule[day].remove(entry)`
  removes the first list element equal to `entry`; since a removed entry
  has hours at most 0.0001 its exact position among equal-valued blocks
  is unobservable (every such block is pruned by the final cleanup and
  all intermediate reads are order-independent sums), so removal is
  modelled by dropping the current entry (`live := false`).
  `free_slots` in the source is written but never read, so it is omitted.
- `MoveSt.moved`/`EntrySt.moved` and the second component returned by
  `redisMain` are a ghost accumulator recording the block hours appended
  to earlier days; they do not influence the schedule computation.
-/

namespace StudyPlanner

/-- Model of Python `round(q, 2)`: round to the nearest multiple of 1/100. -/
def round2 (q : ℚ) : ℚ := (round (q * 100) : ℤ) / 100

/-- Model of Python `round(q, 6)`: round to the nearest multiple of 1/10^6. -/
def round6 (q : ℚ) : ℚ := (round (q * 1000000) : ℤ) / 1000000

/-- A schedule block `{'subject': ..., 'hours': ...}`. -/
structure Block where
  subject : String
  hours   : ℚ
  deriving DecidableEq, Repr

/-- A schedule: ordered mapping from date to its list of blocks. -/
abbrev Sched := List (ℤ × List Block)

/-- The availability table: mapping from weekday label to hours. -/
abbrev Avail := List (String × ℚ)

/-- The remainder map: mapping from subject name to leftover hours. -/
abbrev RemMap := List (String × ℚ)

/-- A task record as assembled by `generate_schedule` (the fields the
allocator reads; `difficulty` only feeds `priority` upstream). -/
structure Subject where
  deadline       : ℤ
  required_hours : ℚ
  priority       : ℤ
  deriving DecidableEq, Repr

def wdNames : List String := ["Mon", "Tue", "Wed", "Thu", "Fri", "Sat", "Sun"]

/-- Model of `d.strftime("%a")` for a date with ordinal `d`
(ordinal 1 is a Monday). -/
def weekdayName (d : ℤ) : String := wdNames.getD ((d - 1).emod 7).toNat "Mon"

/-- Model of `float(availability.get(weekday, 0))`: a missing weekday label
yields zero capacity. -/
def availGet (a : Avail) (w : String) : ℚ := (a.lookup w).getD 0

/-- Capacity of the weekday of date `d`, as recomputed throughout App.py. -/
def capOf (a : Avail) (d : ℤ) : ℚ := availGet a (weekdayName d)

/-- The dates from `start` to `endd` inclusive (the `while cur <= end_date`
loop of `build_calendar_slots`); empty when `endd < start`. -/
def dateList (start endd : ℤ) : List ℤ :=
  (List.range (endd + 1 - start).toNat).map (fun (i : ℕ) => start + (i : ℤ))

/-- Model of `build_calendar_slots` (App.py lines 207-215). -/
def build_calendar_slots (a : Avail) (start endd : ℤ) : List (ℤ × ℚ) :=
  (dateList start endd).map (fun d => (d, capOf a d))

/-- Hours used on a day: `sum(entry['hours'] for entry in blocks)`. -/
def used (bs : List Block) : ℚ := (bs.map Block.hours).sum

/-- First-pass day walk for a single task (App.py lines 226-239).
`req` is the running local `req`, `stored` the value currently recorded in
`remaining[name]`; the returned pair is the updated schedule and the final
recorded remainder.  Note `slots[day] = capOf a day` by construction of
`build_calendar_slots`, so the capacity function `cap` stands for the
`slots` lookup. -/
def allocDays1 (cap : ℤ → ℚ) (deadline : ℤ) (name : String) :
    Sched → ℚ → ℚ → Sched × ℚ
  | [], _req, stored => ([], stored)
  | (d, bs) :: rest, req, stored =>
    if deadline < d then ((d, bs) :: rest, stored)
    else
      let avail := cap d - used bs
      if avail ≤ 0 then
        let r := allocDays1 cap deadline name rest req stored
        ((d, bs) :: r.1, r.2)
      else
        let alloc := min avail req
        if 0 < alloc then
          let bs' := bs ++ [⟨name, round2 alloc⟩]
          let req' := req - alloc
          if req' ≤ 1/1000 then ((d, bs') :: rest, 0)
          else
            let r := allocDays1 cap deadline name rest req' (round2 req')
            ((d, bs') :: r.1, r.2)
        else
          let r := allocDays1 cap deadline name rest req stored
          ((d, bs) :: r.1, r.2)

/-- Second-pass day walk for a single task (App.py lines 243-254); identical
to the first pass except that the `alloc > 0` guard is absent: the block is
appended unconditionally once `avail > 0`. -/
def allocDays2 (cap : ℤ → ℚ) (deadline : ℤ) (name : String) :
    Sched → ℚ → ℚ → Sched × ℚ
  | [], _req, stored => ([], stored)
  | (d, bs) :: rest, req, stored =>
    if deadline < d then ((d, bs) :: rest, stored)
    else
      let avail := cap d - used bs
      if avail ≤ 0 then
        let r := allocDays2 cap deadline name rest req stored
        ((d, bs) :: r.1, r.2)
      else
        let alloc := min avail req
        let bs' := bs ++ [⟨name, round2 alloc⟩]
        let req' := req - alloc
        if req' ≤ 1/1000 then ((d, bs') :: rest, 0)
        else
          let r := allocDays2 cap deadline name rest req' (round2 req')
          ((d, bs') :: r.1, r.2)

def remLookup (m : RemMap) (n : String) : ℚ := (m.lookup n).getD 0

/-- Assignment `remaining[name] = v` on an existing key. -/
def setRem (m : RemMap) (n : String) (v : ℚ) : RemMap :=
  m.map (fun p => if p.1 = n then (p.1, v) else p)

/-- `max(v['deadline'] for v in subjects_input.values())` (nonempty input). -/
def maxDeadline : List (String × Subject) → ℤ
  | [] => 0
  | x :: xs => (xs.map (fun p => p.2.deadline)).foldl max x.2.deadline

/-- Python's sort key `(kv[1]['deadline'], -kv[1]['priority'])` compared
lexicographically. -/
def sortLe (a b : String × Subject) : Bool :=
  decide (a.2.deadline < b.2.deadline ∨
    (a.2.deadline = b.2.deadline ∧ -a.2.priority ≤ -b.2.priority))

/-- Stable insertion of `x` into a sorted list: `x` is placed before the
first element it compares less-or-equal to. -/
def insertSorted (le : α → α → Bool) (x : α) : List α → List α
  | [] => [x]
  | y :: ys => if le x y then x :: y :: ys else y :: insertSorted le x ys

/-- Model of Python's stable `sorted`: a stable insertion sort (every stable
sort with the same comparator computes the same list, so this coincides with
Timsort on the comparator `sortLe`). -/
def sortPairs (le : α → α → Bool) (l : List α) : List α :=
  l.foldr (insertSorted le) []

/-- First allocation pass over the sorted task list (App.py lines 225-239). -/
def pass1 (cap : ℤ → ℚ) : List (String × Subject) → Sched → RemMap → Sched × RemMap
  | [], s, rem => (s, rem)
  | (n, v) :: ts, s, rem =>
    let req := remLookup rem n
    let r := allocDays1 cap v.deadline n s req req
    pass1 cap ts r.1 (setRem rem n r.2)

/-- Second allocation pass over `list(remaining.items())`
(App.py lines 241-254). -/
def pass2 (cap : ℤ → ℚ) (subjects : List (String × Subject)) :
    RemMap → Sched → RemMap → Sched × RemMap
  | [], s, rem => (s, rem)
  | (n, q) :: ts, s, rem =>
    if 0 < q then
      let dl := ((subjects.lookup n).map Subject.deadline).getD 0
      let r := allocDays2 cap dl n s q q
      pass2 cap subjects ts r.1 (setRem rem n r.2)
    else pass2 cap subjects ts s rem

/-- Model of `allocate_hours_to_schedule` (App.py lines 217-255). -/
def allocate_hours_to_schedule (subjects : List (String × Subject)) (a : Avail)
    (start : ℤ) : Sched × RemMap :=
  if subjects.isEmpty then ([], [])
  else
    let maxdl := maxDeadline subjects
    let cap := capOf a
    let sched0 : Sched := (dateList start maxdl).map (fun d => (d, ([] : List Block)))
    let rem0 : RemMap := subjects.map (fun p => (p.1, p.2.required_hours))
    let sorted := sortPairs sortLe subjects
    let r1 := pass1 cap sorted sched0 rem0
    pass2 cap subjects r1.2 r1.1 r1.2

/-- Blocks currently stored for date `d` (`schedule[d]`). -/
def getBlocks (s : Sched) (d : ℤ) : List Block := (s.lookup d).getD []

/-- In-place update of the block list of the existing date `d`; all other
entries and the key order are untouched. -/
def modifyAt (s : Sched) (d : ℤ) (f : List Block → List Block) : Sched :=
  s.map (fun p => if p.1 = d then (p.1, f p.2) else p)

/-- State of the inner `for prev_day in reversed(...)` loop
(App.py lines 287-310): the schedule, the live `entry['hours']`, the
remaining `move_amount` and `overload`, whether the entry is still in
`schedule[day]`, and the ghost total of hours appended so far. -/
structure MoveSt where
  sched : Sched
  h     : ℚ
  ma    : ℚ
  ov    : ℚ
  live  : Bool
  moved : ℚ

/-- Inner loop over the earlier days (nearest first) for one entry
(App.py lines 287-310). -/
def moveLoop (cap : ℤ → ℚ) (subject : String) : List ℤ → MoveSt → MoveSt
  | [], st => st
  | p :: ps, st =>
    let pf := round6 (cap p - used (getBlocks st.sched p))
    if pf ≤ 1/10000 then moveLoop cap subject ps st
    else
      let take := min pf st.ma
      if take ≤ 0 then moveLoop cap subject ps st
      else
        let s' := modifyAt st.sched p (fun bs => bs ++ [⟨subject, round2 take⟩])
        let h' := round2 (st.h - take)
        let ma' := round2 (st.ma - take)
        let ov' := round2 (st.ov - take)
        let live' := st.live && ! decide (h' ≤ 1/10000)
        let st' : MoveSt := ⟨s', h', ma', ov', live', st.moved + round2 take⟩
        if ov' ≤ 0 then st'
        else moveLoop cap subject ps st'

/-- State of the `for entry in list(schedule[day])` loop: the schedule, the
running `overload`, the rebuilt live block list of the day (entries already
processed and still present), and the ghost moved total. -/
structure EntrySt where
  sched  : Sched
  ov     : ℚ
  blocks : List Block
  moved  : ℚ

/-- Loop over the snapshot of the overloaded day's entries
(App.py lines 279-310). -/
def entryLoop (cap : ℤ → ℚ) (prevs : List ℤ) : List Block → EntrySt → EntrySt
  | [], st => st
  | e :: es, st =>
    if st.ov ≤ 0 then ⟨st.sched, st.ov, st.blocks ++ (e :: es), st.moved⟩
    else if e.hours ≤ 1/1000 then
      entryLoop cap prevs es ⟨st.sched, st.ov, st.blocks ++ [e], st.moved⟩
    else
      let ma := min e.hours st.ov
      let r := moveLoop cap e.subject prevs ⟨st.sched, e.hours, ma, st.ov, true, st.moved⟩
      entryLoop cap prevs es
        ⟨r.sched, r.ov, st.blocks ++ (cond r.live [⟨e.subject, r.h⟩] []), r.moved⟩

/-- Handling of one (possibly overloaded) day of the outer loop
(App.py lines 272-310); returns the updated schedule and the hours moved. -/
def processDay (cap : ℤ → ℚ) (keys : List ℤ) (s : Sched) (day : ℤ) : Sched × ℚ :=
  let bs := getBlocks s day
  let ov := round6 (used bs - cap day)
  if ov ≤ 1/10000 then (s, 0)
  else
    let prevs := (keys.filter (fun p => decide (p < day))).reverse
    let r := entryLoop cap prevs bs ⟨s, ov, [], 0⟩
    (modifyAt r.sched day (fun _ => r.blocks), r.moved)

/-- The outer `for day in list(schedule.keys())` loop. -/
def redisMain (cap : ℤ → ℚ) (keys : List ℤ) : List ℤ → Sched → ℚ → Sched × ℚ
  | [], s, moved => (s, moved)
  | d :: ds, s, moved =>
    let r := processDay cap keys s d
    redisMain cap keys ds r.1 (moved + r.2)

/-- Final cleanup (App.py lines 311-317): prune entries with hours at most
0.001 and round the surviving hours to 2 decimal places. -/
def cleanup (s : Sched) : Sched :=
  s.map (fun p =>
    (p.1, (p.2.filter (fun e => decide ((1:ℚ)/1000 < e.hours))).map
      (fun e => ⟨e.subject, round2 e.hours⟩)))

/-- Model of `detect_and_redistribute_clashes` (App.py lines 260-318). -/
def detect_and_redistribute_clashes (s : Sched) (a : Avail) : Sched :=
  if s.isEmpty then s
  else
    let keys := s.map Prod.fst
    cleanup (redisMain (capOf a) keys keys s 0).1

/-- Ghost observable: the total block hours the redistribution pass appends
to earlier days (the hours moved). -/
def movedTotal (s : Sched) (a : Avail) : ℚ :=
  if s.isEmpty then 0
  else
    let keys := s.map Prod.fst
    (redisMain (capOf a) keys keys s 0).2

/-! ### The 0.01 grid

Rationals that are integer multiples of 1/100 (the grid of Python's
`round(x, 2)`).  On this grid the rounding operations of App.py are exact,
which is the hypothesis under which the quantitative spec properties hold. -/

/-- A rational is on the 0.01 grid when it is an integer multiple of 1/100. -/
def onGrid (q : ℚ) : Prop := ∃ k : ℤ, q = k / 100

/-! ### Schedule predicates and observables -/

/-- Every block hours figure of the schedule lies on the 0.01 grid. -/
def GridSched (s : Sched) : Prop := ∀ p ∈ s, ∀ b ∈ p.2, onGrid b.hours

/-- No block of the schedule has negative hours. -/
def NonnegSched (s : Sched) : Prop := ∀ p ∈ s, ∀ b ∈ p.2, 0 ≤ b.hours

/-- Every block sits on a date at most the deadline of its subject. -/
def DeadlineOK (dl : String → ℤ) (s : Sched) : Prop :=
  ∀ p ∈ s, ∀ b ∈ p.2, p.1 ≤ dl b.subject

/-- Every availability value lies on the 0.01 grid. -/
def GridAvail (a : Avail) : Prop := ∀ p ∈ a, onGrid p.2

/-- Hours allocated to subject `n` inside one block list. -/
def subjSum (n : String) (bs : List Block) : ℚ :=
  (bs.map (fun b => if b.subject = n then b.hours else 0)).sum

/-- Total hours allocated to subject `n` across the whole schedule. -/
def taskSum (s : Sched) (n : String) : ℚ := (s.map (fun p => subjSum n p.2)).sum

/-- Hours currently allocated on date `d`. -/
def dayUsed (s : Sched) (d : ℤ) : ℚ := used (getBlocks s d)

/-- Grid and sign facts about every value of a remainder map. -/
def GridRem (m : RemMap) : Prop := ∀ p ∈ m, onGrid p.2 ∧ 0 ≤ p.2

/-- Total positive free capacity over a list of days. -/
def prevFreeSum (cap : ℤ → ℚ) (P : List ℤ) (s : Sched) : ℚ :=
  (P.map (fun p => max (cap p - dayUsed s p) 0)).sum

/-- Total positive overload over a list of days. -/
def ovSum (cap : ℤ → ℚ) (ds : List ℤ) (s : Sched) : ℚ :=
  (ds.map (fun d => max (dayUsed s d - cap d) 0)).sum

/-- Day `d` is settled: it is within capacity, or every day of `keys`
earlier than it is full, so a further pass could not move anything more
off `d`. -/
def ResolvedAt (cap : ℤ → ℚ) (keys : List ℤ) (s : Sched) (d : ℤ) : Prop :=
  dayUsed s d - cap d ≤ 0 ∨ ∀ p ∈ keys, p < d → cap p - dayUsed s p ≤ 0

theorem onGrid_zero : onGrid 0 := ⟨0, by norm_num⟩

theorem onGrid_intCast (k : ℤ) : onGrid (k : ℚ) := ⟨100 * k, by push_cast; ring⟩

theorem onGrid_natCast (n : ℕ) : onGrid (n : ℚ) := by
  simpa using onGrid_intCast (n : ℤ)

theorem onGrid_add {a b : ℚ} (ha : onGrid a) (hb : onGrid b) : onGrid (a + b) := by
  obtain ⟨j, rfl⟩ := ha
  obtain ⟨k, rfl⟩ := hb
  exact ⟨j + k, by push_cast; ring⟩

theorem onGrid_neg {a : ℚ} (ha : onGrid a) : onGrid (-a) := by
  obtain ⟨j, rfl⟩ := ha
  exact ⟨-j, by push_cast; ring⟩

theorem onGrid_sub {a b : ℚ} (ha : onGrid a) (hb : onGrid b) : onGrid (a - b) := by
  simpa [sub_eq_add_neg] using onGrid_add ha (onGrid_neg hb)

theorem onGrid_min {a b : ℚ} (ha : onGrid a) (hb : onGrid b) : onGrid (min a b) := by
  rcases min_choice a b with h | h <;> rw [h] <;> assumption

theorem onGrid_max {a b : ℚ} (ha : onGrid a) (hb : onGrid b) : onGrid (max a b) := by
  rcases max_choice a b with h | h <;> rw [h] <;> assumption

theorem onGrid_sum {l : List ℚ} (h : ∀ x ∈ l, onGrid x) : onGrid l.sum := by
  induction l with
  | nil => simpa using onGrid_zero
  | cons x xs ih =>
    simp only [List.sum_cons]
    exact onGrid_add (h x (by simp)) (ih fun y hy => h y (by simp [hy]))

theorem round2_onGrid {q : ℚ} (h : onGrid q) : round2 q = q := by
  obtain ⟨k, rfl⟩ := h
  have h1 : (k : ℚ) / 100 * 100 = (k : ℚ) := by field_simp
  rw [round2, h1, round_intCast]

theorem round6_onGrid {q : ℚ} (h : onGrid q) : round6 q = q := by
  obtain ⟨k, rfl⟩ := h
  have h1 : (k : ℚ) / 100 * 1000000 = ((k * 10000 : ℤ) : ℚ) := by push_cast; ring
  rw [round6, h1, round_intCast]
  push_cast
  ring

theorem onGrid_round2 (q : ℚ) : onGrid (round2 q) := ⟨round (q * 100), rfl⟩

theorem round2_idem (q : ℚ) : round2 (round2 q) = round2 q :=
  round2_onGrid (onGrid_round2 q)

theorem round2_nonneg {q : ℚ} (h : 0 ≤ q) : 0 ≤ round2 q := by
  have h1 : (0 : ℤ) ≤ round (q * 100) := by
    rw [round_eq]
    exact Int.floor_nonneg.mpr (by linarith)
  rw [round2]
  positivity

theorem round2_le_round2 {a b : ℚ} (h : a ≤ b) : round2 a ≤ round2 b := by
  have h1 : round (a * 100) ≤ round (b * 100) := by
    rw [round_eq, round_eq]
    exact Int.floor_le_floor (by linarith)
  rw [round2, round2]
  have h2 : ((round (a * 100) : ℤ) : ℚ) ≤ ((round (b * 100) : ℤ) : ℚ) := by
    exact_mod_cast h1
  linarith

/-- On the grid, the 0.001 tolerance test is exactly a sign test. -/
theorem grid_le_milli {q : ℚ} (h : onGrid q) : q ≤ 1 / 1000 ↔ q ≤ 0 := by
  obtain ⟨k, rfl⟩ := h
  constructor
  · intro h1
    have h2 : (k : ℚ) < 1 := by linarith
    have h3 : k < 1 := by exact_mod_cast h2
    have h4 : (k : ℚ) ≤ 0 := by exact_mod_cast Int.lt_add_one_iff.mp (by omega)
    linarith
  · intro h1
    linarith

/-- On the grid, the 0.0001 tolerance test is exactly a sign test. -/
theorem grid_le_tenthou {q : ℚ} (h : onGrid q) : q ≤ 1 / 10000 ↔ q ≤ 0 := by
  obtain ⟨k, rfl⟩ := h
  constructor
  · intro h1
    have h2 : (k : ℚ) < 1 := by linarith
    have h3 : k < 1 := by exact_mod_cast h2
    have h4 : (k : ℚ) ≤ 0 := by exact_mod_cast Int.lt_add_one_iff.mp (by omega)
    linarith
  · intro h1
    linarith

theorem grid_milli_lt {q : ℚ} (h : onGrid q) : 1 / 1000 < q ↔ 0 < q := by
  have h1 := grid_le_milli h
  constructor
  · intro h2
    by_contra h3
    exact absurd (h1.mpr (le_of_not_lt h3)) (not_le.mpr h2)
  · intro h2
    by_contra h3
    exact absurd (h1.mp (le_of_not_lt h3)) (not_le.mpr h2)

theorem grid_tenthou_lt {q : ℚ} (h : onGrid q) : 1 / 10000 < q ↔ 0 < q := by
  have h1 := grid_le_tenthou h
  constructor
  · intro h2
    by_contra h3
    exact absurd (h1.mpr (le_of_not_lt h3)) (not_le.mpr h2)
  · intro h2
    by_contra h3
    exact absurd (h1.mp (le_of_not_lt h3)) (not_le.mpr h2)

theorem mem_of_lookup_eq_some {α β : Type} [BEq α] [LawfulBEq α]
    {l : List (α × β)} {k : α} {v : β} (h : l.lookup k = some v) : (k, v) ∈ l := by
  induction l with
  | nil => simp [List.lookup] at h
  | cons p rest ih =>
    obtain ⟨a, b⟩ := p
    by_cases hab : k = a
    · subst hab
      simp [List.lookup] at h
      subst h
      exact List.mem_cons_self _ _
    · have hb : (k == a) = false := beq_eq_false_iff_ne.mpr hab
      simp only [List.lookup, hb] at h
      exact List.mem_cons_of_mem _ (ih h)

theorem GridAvail.capOf {a : Avail} (h : GridAvail a) (d : ℤ) : onGrid (capOf a d) := by
  unfold StudyPlanner.capOf availGet
  cases hl : a.lookup (weekdayName d) with
  | none => simpa using onGrid_zero
  | some q =>
    have hm : (weekdayName d, q) ∈ a := mem_of_lookup_eq_some hl
    simpa using h _ hm

theorem used_nil : used [] = 0 := rfl

theorem used_cons (b : Block) (bs : List Block) : used (b :: bs) = b.hours + used bs := by
  simp [used]

theorem used_append (l1 l2 : List Block) : used (l1 ++ l2) = used l1 + used l2 := by
  simp [used]

theorem subjSum_nil (n : String) : subjSum n [] = 0 := rfl

theorem subjSum_cons (n : String) (b : Block) (bs : List Block) :
    subjSum n (b :: bs) = (if b.subject = n then b.hours else 0) + subjSum n bs := by
  simp [subjSum]

theorem subjSum_append (n : String) (l1 l2 : List Block) :
    subjSum n (l1 ++ l2) = subjSum n l1 + subjSum n l2 := by
  simp [subjSum]

theorem onGrid_used {bs : List Block} (h : ∀ b ∈ bs, onGrid b.hours) : onGrid (used bs) := by
  induction bs with
  | nil => simpa [used_nil] using onGrid_zero
  | cons b l ih =>
    rw [used_cons]
    exact onGrid_add (h b (by simp)) (ih fun x hx => h x (by simp [hx]))

theorem onGrid_subjSum {n : String} {bs : List Block} (h : ∀ b ∈ bs, onGrid b.hours) :
    onGrid (subjSum n bs) := by
  induction bs with
  | nil => simpa [subjSum_nil] using onGrid_zero
  | cons b l ih =>
    rw [subjSum_cons]
    refine onGrid_add ?_ (ih fun x hx => h x (by simp [hx]))
    split
    · exact h b (by simp)
    · exact onGrid_zero

theorem used_nonneg {bs : List Block} (h : ∀ b ∈ bs, 0 ≤ b.hours) : 0 ≤ used bs := by
  induction bs with
  | nil => simp [used_nil]
  | cons b l ih =>
    rw [used_cons]
    have h1 := h b (by simp)
    have h2 := ih fun x hx => h x (by simp [hx])
    linarith

/-! ### Association-list lemmas -/

theorem getBlocks_nil (d : ℤ) : getBlocks [] d = [] := rfl

theorem getBlocks_cons (k : ℤ) (bs : List Block) (s : Sched) (d : ℤ) :
    getBlocks ((k, bs) :: s) d = if k = d then bs else getBlocks s d := by
  simp only [getBlocks, List.lookup]
  rcases eq_or_ne k d with h | h
  · subst h
    simp
  · have hb : (d == k) = false := beq_eq_false_iff_ne.mpr (fun hc => h hc.symm)
    simp [hb, if_neg h]

theorem getBlocks_eq_nil_of_not_mem {s : Sched} {d : ℤ} (h : d ∉ s.map Prod.fst) :
    getBlocks s d = [] := by
  induction s with
  | nil => rfl
  | cons p rest ih =>
    obtain ⟨k, bs⟩ := p
    rw [List.map_cons, List.mem_cons] at h
    push_neg at h
    rw [getBlocks_cons, if_neg (fun he => h.1 he.symm)]
    exact ih h.2

theorem modifyAt_cons (k : ℤ) (bs : List Block) (s : Sched) (d : ℤ)
    (f : List Block → List Block) :
    modifyAt ((k, bs) :: s) d f
      = (if k = d then (k, f bs) else (k, bs)) :: modifyAt s d f := by
  by_cases h : k = d <;> simp [modifyAt, h]

theorem modifyAt_map_fst (s : Sched) (d : ℤ) (f : List Block → List Block) :
    (modifyAt s d f).map Prod.fst = s.map Prod.fst := by
  induction s with
  | nil => rfl
  | cons p rest ih =>
    obtain ⟨k, bs⟩ := p
    rw [modifyAt_cons, List.map_cons, List.map_cons, ih]
    congr 1
    split <;> rfl

theorem modifyAt_eq_self_of_not_mem {s : Sched} {d : ℤ} (f : List Block → List Block)
    (h : d ∉ s.map Prod.fst) : modifyAt s d f = s := by
  induction s with
  | nil => rfl
  | cons p rest ih =>
    obtain ⟨k, bs⟩ := p
    rw [List.map_cons, List.mem_cons] at h
    push_neg at h
    rw [modifyAt_cons, if_neg (fun he => h.1 he.symm), ih h.2]

theorem getBlocks_modifyAt_self {s : Sched} {d : ℤ} (f : List Block → List Block)
    (h : d ∈ s.map Prod.fst) : getBlocks (modifyAt s d f) d = f (getBlocks s d) := by
  induction s with
  | nil => simp at h
  | cons p rest ih =>
    obtain ⟨k, bs⟩ := p
    rw [List.map_cons, List.mem_cons] at h
    rw [modifyAt_cons]
    rcases eq_or_ne k d with he | he
    · rw [if_pos he, getBlocks_cons, if_pos he, getBlocks_cons, if_pos he]
    · rw [if_neg he, getBlocks_cons, if_neg he, getBlocks_cons, if_neg he]
      exact ih (h.resolve_left fun h1 => he h1.symm)

theorem getBlocks_modifyAt_ne {s : Sched} {d d' : ℤ} (f : List Block → List Block)
    (h : d' ≠ d) : getBlocks (modifyAt s d f) d' = getBlocks s d' := by
  induction s with
  | nil => rfl
  | cons p rest ih =>
    obtain ⟨k, bs⟩ := p
    rw [modifyAt_cons]
    rcases eq_or_ne k d with he | he
    · have hk : k ≠ d' := fun hc => h (hc.symm.trans he)
      rw [if_pos he, getBlocks_cons, if_neg hk, getBlocks_cons, if_neg hk]
      exact ih
    · rw [if_neg he, getBlocks_cons, getBlocks_cons]
      rcases eq_or_ne k d' with he2 | he2
      · rw [if_pos he2, if_pos he2]
      · rw [if_neg he2, if_neg he2]
        exact ih

theorem modifyAt_getBlocks_self {s : Sched} {d : ℤ} (hnd : (s.map Prod.fst).Nodup) :
    modifyAt s d (fun _ => getBlocks s d) = s := by
  induction s with
  | nil => rfl
  | cons p rest ih =>
    obtain ⟨k, bs⟩ := p
    rw [List.map_cons, List.nodup_cons] at hnd
    rw [modifyAt_cons]
    rcases eq_or_ne k d with he | he
    · have hg : getBlocks ((k, bs) :: rest) d = bs := by
        rw [getBlocks_cons, if_pos he]
      rw [if_pos he, hg]
      have h2 : modifyAt rest d (fun _ => bs) = rest :=
        modifyAt_eq_self_of_not_mem _ (he ▸ hnd.1)
      rw [h2]
    · have hg : getBlocks ((k, bs) :: rest) d = getBlocks rest d := by
        rw [getBlocks_cons, if_neg he]
      rw [if_neg he, hg, ih hnd.2]

theorem taskSum_nil (n : String) : taskSum [] n = 0 := rfl

theorem taskSum_cons (p : ℤ × List Block) (s : Sched) (n : String) :
    taskSum (p :: s) n = subjSum n p.2 + taskSum s n := by
  simp [taskSum]

theorem taskSum_modifyAt {s : Sched} {d : ℤ} (f : List Block → List Block)
    (hnd : (s.map Prod.fst).Nodup) (hd : d ∈ s.map Prod.fst) (n : String) :
    taskSum (modifyAt s d f) n =
      taskSum s n - subjSum n (getBlocks s d) + subjSum n (f (getBlocks s d)) := by
  induction s with
  | nil => simp at hd
  | cons p rest ih =>
    obtain ⟨k, bs⟩ := p
    rw [List.map_cons, List.nodup_cons] at hnd
    rw [List.map_cons, List.mem_cons] at hd
    rw [modifyAt_cons]
    rcases eq_or_ne k d with he | he
    · have hg : getBlocks ((k, bs) :: rest) d = bs := by
        rw [getBlocks_cons, if_pos he]
      have h2 : modifyAt rest d f = rest :=
        modifyAt_eq_self_of_not_mem _ (he ▸ hnd.1)
      rw [if_pos he, hg, h2, taskSum_cons, taskSum_cons]
      ring
    · have hg : getBlocks ((k, bs) :: rest) d = getBlocks rest d := by
        rw [getBlocks_cons, if_neg he]
      rw [if_neg he, hg, taskSum_cons, taskSum_cons,
        ih hnd.2 (hd.resolve_left fun h1 => he h1.symm)]
      ring

theorem dayUsed_modifyAt_self {s : Sched} {d : ℤ} (f : List Block → List Block)
    (h : d ∈ s.map Prod.fst) : dayUsed (modifyAt s d f) d = used (f (getBlocks s d)) := by
  rw [dayUsed, getBlocks_modifyAt_self f h]

theorem dayUsed_modifyAt_ne {s : Sched} {d d' : ℤ} (f : List Block → List Block)
    (h : d' ≠ d) : dayUsed (modifyAt s d f) d' = dayUsed s d' := by
  rw [dayUsed, getBlocks_modifyAt_ne f h, dayUsed]

/-! ### Remainder-map lemmas -/

theorem setRem_cons (k : String) (q : ℚ) (m : RemMap) (n : String) (v : ℚ) :
    setRem ((k, q) :: m) n v
      = (if k = n then (k, v) else (k, q)) :: setRem m n v := by
  by_cases h : k = n <;> simp [setRem, h]

theorem setRem_map_fst (m : RemMap) (n : String) (v : ℚ) :
    (setRem m n v).map Prod.fst = m.map Prod.fst := by
  induction m with
  | nil => rfl
  | cons p rest ih =>
    obtain ⟨k, q⟩ := p
    rw [setRem_cons, List.map_cons, List.map_cons, ih]
    congr 1
    split <;> rfl

theorem remLookup_cons (k : String) (q : ℚ) (m : RemMap) (n : String) :
    remLookup ((k, q) :: m) n = if k = n then q else remLookup m n := by
  simp only [remLookup, List.lookup]
  rcases eq_or_ne k n with h | h
  · subst h
    simp
  · have hb : (n == k) = false := beq_eq_false_iff_ne.mpr (fun hc => h hc.symm)
    simp [hb, if_neg h]

theorem remLookup_setRem_self {m : RemMap} {n : String} (v : ℚ)
    (h : n ∈ m.map Prod.fst) : remLookup (setRem m n v) n = v := by
  induction m with
  | nil => simp at h
  | cons p rest ih =>
    obtain ⟨k, q⟩ := p
    rw [List.map_cons, List.mem_cons] at h
    rw [setRem_cons]
    rcases eq_or_ne k n with he | he
    · rw [if_pos he, remLookup_cons, if_pos he]
    · rw [if_neg he, remLookup_cons, if_neg he]
      exact ih (h.resolve_left fun h1 => he h1.symm)

theorem remLookup_setRem_ne {m : RemMap} {n n' : String} (v : ℚ) (h : n' ≠ n) :
    remLookup (setRem m n v) n' = remLookup m n' := by
  induction m with
  | nil => rfl
  | cons p rest ih =>
    obtain ⟨k, q⟩ := p
    rw [setRem_cons]
    rcases eq_or_ne k n with he | he
    · have hk : k ≠ n' := fun hc => h (hc.symm.trans he)
      rw [if_pos he, remLookup_cons, if_neg hk, remLookup_cons, if_neg hk]
      exact ih
    · rw [if_neg he, remLookup_cons, remLookup_cons]
      rcases eq_or_ne k n' with he2 | he2
      · rw [if_pos he2, if_pos he2]
      · rw [if_neg he2, if_neg he2]
        exact ih


theorem GridRem.lookup {m : RemMap} (h : GridRem m) (n : String) :
    onGrid (remLookup m n) ∧ 0 ≤ remLookup m n := by
  unfold remLookup
  cases hl : m.lookup n with
  | none =>
    simp only [Option.getD_none]
    exact ⟨onGrid_zero, le_refl 0⟩
  | some q =>
    simp only [Option.getD_some]
    exact h _ (mem_of_lookup_eq_some hl)

theorem GridRem.setRem {m : RemMap} (h : GridRem m) {n : String} {v : ℚ}
    (hg : onGrid v) (hnn : 0 ≤ v) : GridRem (StudyPlanner.setRem m n v) := by
  intro p hp
  simp only [StudyPlanner.setRem, List.mem_map] at hp
  obtain ⟨q, hq, hqe⟩ := hp
  by_cases hc : q.1 = n
  · simp only [if_pos hc] at hqe
    rw [← hqe]
    exact ⟨hg, hnn⟩
  · simp only [if_neg hc] at hqe
    rw [← hqe]
    exact h q hq

theorem lookup_eq_some_of_mem_nodup {α β : Type} [BEq α] [LawfulBEq α]
    {l : List (α × β)} (hnd : (l.map Prod.fst).Nodup) {k : α} {v : β}
    (hm : (k, v) ∈ l) : l.lookup k = some v := by
  induction l with
  | nil => simp at hm
  | cons p rest ih =>
    obtain ⟨a, b⟩ := p
    rw [List.map_cons, List.nodup_cons] at hnd
    rw [List.mem_cons] at hm
    rcases hm with h1 | h1
    · cases h1
      simp [List.lookup]
    · have hk : a ≠ k := by
        intro he
        subst he
        exact hnd.1 (List.mem_map.mpr ⟨_, h1, rfl⟩)
      have hb : (k == a) = false := beq_eq_false_iff_ne.mpr (fun hc => hk hc.symm)
      simp only [List.lookup, hb]
      exact ih hnd.2 h1

/-! ### Stable-sort lemmas -/

theorem mem_insertSorted {α : Type} (le : α → α → Bool) (x a : α) (l : List α) :
    a ∈ insertSorted le x l ↔ a = x ∨ a ∈ l := by
  induction l with
  | nil => simp [insertSorted]
  | cons y ys ih =>
    simp only [insertSorted]
    split
    · simp
    · simp only [List.mem_cons, ih]
      tauto

theorem insertSorted_perm {α : Type} (le : α → α → Bool) (x : α) (l : List α) :
    (insertSorted le x l).Perm (x :: l) := by
  induction l with
  | nil => simp [insertSorted]
  | cons y ys ih =>
    simp only [insertSorted]
    split
    · exact List.Perm.refl _
    · exact ((ih.cons y).trans (List.Perm.swap x y ys))

theorem sortPairs_perm {α : Type} (le : α → α → Bool) (l : List α) :
    (sortPairs le l).Perm l := by
  induction l with
  | nil => simp [sortPairs]
  | cons y ys ih =>
    simp only [sortPairs, List.foldr_cons]
    exact (insertSorted_perm le y _).trans (ih.cons y)

theorem insertSorted_pairwise {α : Type} {le : α → α → Bool}
    (htrans : ∀ a b c, le a b = true → le b c = true → le a c = true)
    (htot : ∀ a b, le a b = true ∨ le b a = true) (x : α) {l : List α}
    (hl : l.Pairwise (fun a b => le a b = true)) :
    (insertSorted le x l).Pairwise (fun a b => le a b = true) := by
  induction l with
  | nil => simp [insertSorted]
  | cons y ys ih =>
    simp only [insertSorted]
    rw [List.pairwise_cons] at hl
    split
    · rename le x y = true => hxy
      refine List.Pairwise.cons ?_ (List.Pairwise.cons hl.1 hl.2)
      intro b hb
      rcases (by simpa using hb) with h1 | h1
      · subst h1
        exact hxy
      · exact htrans _ _ _ hxy (hl.1 b h1)
    · rename ¬ le x y = true => hxy
      have hyx : le y x = true := (htot x y).resolve_left hxy
      refine List.Pairwise.cons ?_ (ih hl.2)
      intro b hb
      rcases (mem_insertSorted le x b ys).mp hb with h1 | h1
      · subst h1
        exact hyx
      · exact hl.1 b h1

theorem sortPairs_pairwise {α : Type} {le : α → α → Bool}
    (htrans : ∀ a b c, le a b = true → le b c = true → le a c = true)
    (htot : ∀ a b, le a b = true ∨ le b a = true) (l : List α) :
    (sortPairs le l).Pairwise (fun a b => le a b = true) := by
  induction l with
  | nil => simp [sortPairs]
  | cons y ys ih =>
    simp only [sortPairs, List.foldr_cons]
    exact insertSorted_pairwise htrans htot y ih

theorem sortLe_trans (a b c : String × Subject) :
    sortLe a b = true → sortLe b c = true → sortLe a c = true := by
  simp only [sortLe, decide_eq_true_eq]
  omega

theorem sortLe_total (a b : String × Subject) :
    sortLe a b = true ∨ sortLe b a = true := by
  simp only [sortLe, decide_eq_true_eq]
  omega

/-! ### Allocator day-walk lemmas -/

theorem allocDays1_map_fst (cap : ℤ → ℚ) (dl : ℤ) (n : String) :
    ∀ (s : Sched) (req st : ℚ),
      (allocDays1 cap dl n s req st).1.map Prod.fst = s.map Prod.fst := by
  intro s
  induction s with
  | nil => intro req st; rfl
  | cons p rest ih =>
    intro req st
    obtain ⟨d, bs⟩ := p
    simp only [allocDays1]
    split_ifs <;> simp [ih]

theorem allocDays2_map_fst (cap : ℤ → ℚ) (dl : ℤ) (n : String) :
    ∀ (s : Sched) (req st : ℚ),
      (allocDays2 cap dl n s req st).1.map Prod.fst = s.map Prod.fst := by
  intro s
  induction s with
  | nil => intro req st; rfl
  | cons p rest ih =>
    intro req st
    obtain ⟨d, bs⟩ := p
    simp only [allocDays2]
    split_ifs <;> simp [ih]

/-- Preservation of a per-day block property through the first-pass walk:
old blocks keep it, and every appended block is `⟨n, round2 al⟩` with
`0 < al` on a day not beyond the deadline. -/
theorem allocDays1_pres (cap : ℤ → ℚ) (dl : ℤ) (n : String)
    (P : ℤ → Block → Prop)
    (hnew : ∀ d al, ¬ dl < d → 0 < al → P d ⟨n, round2 al⟩) :
    ∀ (s : Sched) (req st : ℚ), (∀ p ∈ s, ∀ b ∈ p.2, P p.1 b) →
      ∀ p ∈ (allocDays1 cap dl n s req st).1, ∀ b ∈ p.2, P p.1 b := by
  intro s
  induction s with
  | nil => intro req st hs; simp only [allocDays1]; exact hs
  | cons q rest ih =>
    intro req st hs
    obtain ⟨d, bs⟩ := q
    have hhead : ∀ b ∈ bs, P d b := hs (d, bs) (by simp)
    have htail : ∀ p ∈ rest, ∀ b ∈ p.2, P p.1 b :=
      fun p hp => hs p (List.mem_cons_of_mem _ hp)
    simp only [allocDays1]
    split_ifs with h1 h2 h3 h4
    · simpa using hs
    · intro p hp
      rcases (by simpa using hp) with h | h
      · intro b hb
        subst h
        exact hhead b hb
      · exact ih req st htail p h
    · intro p hp
      rcases (by simpa using hp) with h | h
      · intro b hb
        subst h
        rcases (by simpa using hb) with hb1 | hb1
        · exact hhead b hb1
        · subst hb1
          exact hnew d _ h1 h3
      · exact htail p h
    · intro p hp
      rcases (by simpa using hp) with h | h
      · intro b hb
        subst h
        rcases (by simpa using hb) with hb1 | hb1
        · exact hhead b hb1
        · subst hb1
          exact hnew d _ h1 h3
      · exact ih _ _ htail p h
    · intro p hp
      rcases (by simpa using hp) with h | h
      · intro b hb
        subst h
        exact hhead b hb
      · exact ih req st htail p h

/-- Preservation of a per-day block property through the second-pass walk
(the pass-2 appends are positive because the running remainder stays
positive). -/
theorem allocDays2_pres (cap : ℤ → ℚ) (dl : ℤ) (n : String)
    (P : ℤ → Block → Prop)
    (hnew : ∀ d al, ¬ dl < d → 0 < al → P d ⟨n, round2 al⟩) :
    ∀ (s : Sched) (req st : ℚ), 0 < req → (∀ p ∈ s, ∀ b ∈ p.2, P p.1 b) →
      ∀ p ∈ (allocDays2 cap dl n s req st).1, ∀ b ∈ p.2, P p.1 b := by
  intro s
  induction s with
  | nil => intro req st hreq hs; simp only [allocDays2]; exact hs
  | cons q rest ih =>
    intro req st hreq hs
    obtain ⟨d, bs⟩ := q
    have hhead : ∀ b ∈ bs, P d b := hs (d, bs) (by simp)
    have htail : ∀ p ∈ rest, ∀ b ∈ p.2, P p.1 b :=
      fun p hp => hs p (List.mem_cons_of_mem _ hp)
    simp only [allocDays2]
    split_ifs with h1 h2 h3
    · simpa using hs
    · intro p hp
      rcases (by simpa using hp) with h | h
      · intro b hb
        subst h
        exact hhead b hb
      · exact ih req st hreq htail p h
    · intro p hp
      have halloc : 0 < min (cap d - used bs) req := lt_min (by linarith) hreq
      rcases (by simpa using hp) with h | h
      · intro b hb
        subst h
        rcases (by simpa using hb) with hb1 | hb1
        · exact hhead b hb1
        · subst hb1
          exact hnew d _ h1 halloc
      · exact htail p h
    · intro p hp
      have halloc : 0 < min (cap d - used bs) req := lt_min (by linarith) hreq
      rcases (by simpa using hp) with h | h
      · intro b hb
        subst h
        rcases (by simpa using hb) with hb1 | hb1
        · exact hhead b hb1
        · subst hb1
          exact hnew d _ h1 halloc
      · refine ih _ _ (by linarith [h3]) htail p h

theorem subjSum_single (m n : String) (x : ℚ) :
    subjSum m [⟨n, x⟩] = if n = m then x else 0 := by
  simp [subjSum]

/-- Exact on-grid accounting for the first-pass walk called with
`stored = req` (as `allocate_hours_to_schedule` does): the recorded
remainder is the exact unallocated part of `req`, and the hours allocated
to `n` grow by exactly the allocated part. -/
theorem allocDays1_grid (cap : ℤ → ℚ) (dl : ℤ) (n : String)
    (hcap : ∀ d, onGrid (cap d)) :
    ∀ (s : Sched) (req : ℚ), GridSched s → onGrid req → 0 ≤ req →
      onGrid (allocDays1 cap dl n s req req).2 ∧
      0 ≤ (allocDays1 cap dl n s req req).2 ∧
      (allocDays1 cap dl n s req req).2 ≤ req ∧
      ∀ m, taskSum (allocDays1 cap dl n s req req).1 m
        = taskSum s m + (if m = n then req - (allocDays1 cap dl n s req req).2 else 0) := by
  intro s
  induction s with
  | nil =>
    intro req hs hg hnn
    refine ⟨hg, hnn, le_refl req, ?_⟩
    intro m
    by_cases hm : m = n <;> simp [allocDays1, hm]
  | cons q rest ih =>
    intro req hs hg hnn
    obtain ⟨d, bs⟩ := q
    by_cases h1 : dl < d
    · simp only [allocDays1, if_pos h1]
      refine ⟨hg, hnn, le_refl req, ?_⟩
      intro m
      by_cases hm : m = n <;> simp [hm]
    · have hbs : ∀ b ∈ bs, onGrid b.hours := hs (d, bs) (by simp)
      have htail : GridSched rest := fun p hp => hs p (List.mem_cons_of_mem _ hp)
      have hav : onGrid (cap d - used bs) := onGrid_sub (hcap d) (onGrid_used hbs)
      by_cases h2 : cap d - used bs ≤ 0
      · simp only [allocDays1, if_neg h1, if_pos h2]
        obtain ⟨ha, hb, hc, hsum⟩ := ih req htail hg hnn
        refine ⟨ha, hb, hc, ?_⟩
        intro m
        rw [taskSum_cons, taskSum_cons, hsum m]
        ring
      · have halg : onGrid (min (cap d - used bs) req) := onGrid_min hav hg
        have hreq' : onGrid (req - min (cap d - used bs) req) := onGrid_sub hg halg
        have halle : min (cap d - used bs) req ≤ req := min_le_right _ _
        by_cases h3 : 0 < min (cap d - used bs) req
        · by_cases h4 : req - min (cap d - used bs) req ≤ 1 / 1000
          · have hz : req - min (cap d - used bs) req = 0 :=
              le_antisymm ((grid_le_milli hreq').mp h4) (by linarith)
            simp only [allocDays1, if_neg h1, if_neg h2, if_pos h3, if_pos h4]
            refine ⟨onGrid_zero, le_refl 0, hnn, ?_⟩
            intro m
            rw [taskSum_cons, taskSum_cons, subjSum_append, subjSum_single,
              round2_onGrid halg]
            by_cases hm : m = n
            · subst hm
              rw [if_pos rfl, if_pos rfl]
              have : req = min (cap d - used bs) req := by linarith
              linarith
            · have hnm : ¬ (n = m) := fun hc => hm hc.symm
              simp only [if_neg hm, if_neg hnm]
              ring
          · have hpos' : 0 ≤ req - min (cap d - used bs) req := by
              have := (grid_le_milli hreq').not
              by_contra hne
              push_neg at hne
              linarith
            simp only [allocDays1, if_neg h1, if_neg h2, if_pos h3, if_neg h4]
            obtain ⟨ha, hb, hc, hsum⟩ :=
              ih (req - min (cap d - used bs) req) htail hreq' hpos'
            rw [round2_onGrid hreq'] at *
            refine ⟨ha, hb, by linarith, ?_⟩
            intro m
            rw [taskSum_cons, taskSum_cons, subjSum_append, subjSum_single,
              round2_onGrid halg, hsum m]
            by_cases hm : m = n
            · subst hm
              simp only [eq_self_iff_true, if_true]
              ring
            · have hnm : ¬ (n = m) := fun hc => hm hc.symm
              simp only [if_neg hm, if_neg hnm]
              ring
        · have hr0 : req = 0 := by
            rcases lt_or_le 0 req with hp | hp
            · exact absurd (lt_min (by linarith) hp) h3
            · linarith
          simp only [allocDays1, if_neg h1, if_neg h2, if_neg h3]
          obtain ⟨ha, hb, hc, hsum⟩ := ih req htail hg hnn
          refine ⟨ha, hb, hc, ?_⟩
          intro m
          rw [taskSum_cons, taskSum_cons, hsum m]
          ring

/-- Exact on-grid accounting for the second-pass walk called with
`stored = req` and a positive remainder. -/
theorem allocDays2_grid (cap : ℤ → ℚ) (dl : ℤ) (n : String)
    (hcap : ∀ d, onGrid (cap d)) :
    ∀ (s : Sched) (req : ℚ), GridSched s → onGrid req → 0 < req →
      onGrid (allocDays2 cap dl n s req req).2 ∧
      0 ≤ (allocDays2 cap dl n s req req).2 ∧
      (allocDays2 cap dl n s req req).2 ≤ req ∧
      ∀ m, taskSum (allocDays2 cap dl n s req req).1 m
        = taskSum s m + (if m = n then req - (allocDays2 cap dl n s req req).2 else 0) := by
  intro s
  induction s with
  | nil =>
    intro req hs hg hnn
    simp only [allocDays2]
    refine ⟨hg, by linarith, le_refl req, ?_⟩
    intro m
    by_cases hm : m = n <;> simp [hm]
  | cons q rest ih =>
    intro req hs hg hnn
    obtain ⟨d, bs⟩ := q
    by_cases h1 : dl < d
    · simp only [allocDays2, if_pos h1]
      refine ⟨hg, by linarith, le_refl req, ?_⟩
      intro m
      by_cases hm : m = n <;> simp [hm]
    · have hbs : ∀ b ∈ bs, onGrid b.hours := hs (d, bs) (by simp)
      have htail : GridSched rest := fun p hp => hs p (List.mem_cons_of_mem _ hp)
      have hav : onGrid (cap d - used bs) := onGrid_sub (hcap d) (onGrid_used hbs)
      by_cases h2 : cap d - used bs ≤ 0
      · simp only [allocDays2, if_neg h1, if_pos h2]
        obtain ⟨ha, hb, hc, hsum⟩ := ih req htail hg hnn
        refine ⟨ha, hb, hc, ?_⟩
        intro m
        rw [taskSum_cons, taskSum_cons, hsum m]
        ring
      · have halg : onGrid (min (cap d - used bs) req) := onGrid_min hav hg
        have hreq' : onGrid (req - min (cap d - used bs) req) := onGrid_sub hg halg
        have halle : min (cap d - used bs) req ≤ req := min_le_right _ _
        by_cases h4 : req - min (cap d - used bs) req ≤ 1 / 1000
        · have hz : req - min (cap d - used bs) req = 0 :=
            le_antisymm ((grid_le_milli hreq').mp h4) (by linarith)
          simp only [allocDays2, if_neg h1, if_neg h2, if_pos h4]
          refine ⟨onGrid_zero, le_refl 0, by linarith, ?_⟩
          intro m
          rw [taskSum_cons, taskSum_cons, subjSum_append, subjSum_single,
            round2_onGrid halg]
          by_cases hm : m = n
          · subst hm
            rw [if_pos rfl, if_pos rfl]
            have : req = min (cap d - used bs) req := by linarith
            linarith
          · have hnm : ¬ (n = m) := fun hc => hm hc.symm
            simp only [if_neg hm, if_neg hnm]
            ring
        · have hpos' : 0 < req - min (cap d - used bs) req := by
            have h5 := (grid_le_milli hreq').not
            by_contra hne
            push_neg at hne
            linarith
          simp only [allocDays2, if_neg h1, if_neg h2, if_neg h4]
          obtain ⟨ha, hb, hc, hsum⟩ :=
            ih (req - min (cap d - used bs) req) htail hreq' hpos'
          rw [round2_onGrid hreq'] at *
          have hmin0 : 0 ≤ min (cap d - used bs) req :=
            le_min (by linarith) (le_of_lt hnn)
          refine ⟨ha, hb, by linarith, ?_⟩
          intro m
          rw [taskSum_cons, taskSum_cons, subjSum_append, subjSum_single,
            round2_onGrid halg, hsum m]
          by_cases hm : m = n
          · subst hm
            simp only [eq_self_iff_true, if_true]
            ring
          · have hnm : ¬ (n = m) := fun hc => hm hc.symm
            simp only [if_neg hm, if_neg hnm]
            ring

/-! ### Allocation-pass lemmas -/

theorem pass1_map_fst (cap : ℤ → ℚ) :
    ∀ (ts : List (String × Subject)) (s : Sched) (rem : RemMap),
      (pass1 cap ts s rem).1.map Prod.fst = s.map Prod.fst := by
  intro ts
  induction ts with
  | nil => intro s rem; rfl
  | cons t rest ih =>
    intro s rem
    obtain ⟨n, v⟩ := t
    simp only [pass1]
    rw [ih, allocDays1_map_fst]

theorem pass2_map_fst (cap : ℤ → ℚ) (subj : List (String × Subject)) :
    ∀ (ts : RemMap) (s : Sched) (rem : RemMap),
      (pass2 cap subj ts s rem).1.map Prod.fst = s.map Prod.fst := by
  intro ts
  induction ts with
  | nil => intro s rem; rfl
  | cons t rest ih =>
    intro s rem
    obtain ⟨n, q⟩ := t
    simp only [pass2]
    split_ifs
    · rw [ih, allocDays2_map_fst]
    · exact ih s rem

theorem pass1_pres (cap : ℤ → ℚ) (P : ℤ → Block → Prop) :
    ∀ (ts : List (String × Subject)) (s : Sched) (rem : RemMap),
      (∀ t ∈ ts, ∀ (d : ℤ) (al : ℚ),
        ¬ t.2.deadline < d → 0 < al → P d ⟨t.1, round2 al⟩) →
      (∀ p ∈ s, ∀ b ∈ p.2, P p.1 b) →
      ∀ p ∈ (pass1 cap ts s rem).1, ∀ b ∈ p.2, P p.1 b := by
  intro ts
  induction ts with
  | nil => intro s rem _ hs; exact hs
  | cons t rest ih =>
    intro s rem hts hs
    obtain ⟨n, v⟩ := t
    simp only [pass1]
    refine ih _ _ (fun t ht => hts t (List.mem_cons_of_mem _ ht)) ?_
    exact allocDays1_pres cap v.deadline n P (hts (n, v) (by simp)) s _ _ hs

theorem pass2_pres (cap : ℤ → ℚ) (subj : List (String × Subject)) (P : ℤ → Block → Prop) :
    ∀ (ts : RemMap) (s : Sched) (rem : RemMap),
      (∀ t ∈ ts, ∀ (d : ℤ) (al : ℚ),
        ¬ ((subj.lookup t.1).map Subject.deadline).getD 0 < d → 0 < al →
          P d ⟨t.1, round2 al⟩) →
      (∀ p ∈ s, ∀ b ∈ p.2, P p.1 b) →
      ∀ p ∈ (pass2 cap subj ts s rem).1, ∀ b ∈ p.2, P p.1 b := by
  intro ts
  induction ts with
  | nil => intro s rem _ hs; exact hs
  | cons t rest ih =>
    intro s rem hts hs
    obtain ⟨n, q⟩ := t
    simp only [pass2]
    split_ifs with h1
    · refine ih _ _ (fun t ht => hts t (List.mem_cons_of_mem _ ht)) ?_
      exact allocDays2_pres cap _ n P (hts (n, q) (by simp)) s _ _ h1 hs
    · exact ih _ _ (fun t ht => hts t (List.mem_cons_of_mem _ ht)) hs

/-- Invariant-carrying lemma for the first pass: grids are preserved and
per-subject conservation `required = placed + recorded remainder` is kept
exactly. -/
theorem pass1_inv (cap : ℤ → ℚ) (hcap : ∀ d, onGrid (cap d))
    (subjects0 : List (String × Subject)) :
    ∀ (ts : List (String × Subject)) (s : Sched) (rem : RemMap),
      (∀ t ∈ ts, t ∈ subjects0) →
      GridSched s → GridRem rem →
      rem.map Prod.fst = subjects0.map Prod.fst →
      (∀ p ∈ subjects0, p.2.required_hours = taskSum s p.1 + remLookup rem p.1) →
      GridSched (pass1 cap ts s rem).1 ∧ GridRem (pass1 cap ts s rem).2 ∧
      (pass1 cap ts s rem).2.map Prod.fst = subjects0.map Prod.fst ∧
      (∀ p ∈ subjects0, p.2.required_hours
        = taskSum (pass1 cap ts s rem).1 p.1 + remLookup (pass1 cap ts s rem).2 p.1) := by
  intro ts
  induction ts with
  | nil =>
    intro s rem _ hgs hgr hk hcons
    exact ⟨hgs, hgr, hk, hcons⟩
  | cons t rest ih =>
    intro s rem hts hgs hgr hk hcons
    obtain ⟨n, v⟩ := t
    simp only [pass1]
    have hreq := hgr.lookup n
    obtain ⟨hst_g, hst_nn, hst_le, hsum⟩ :=
      allocDays1_grid cap v.deadline n hcap s (remLookup rem n) hgs hreq.1 hreq.2
    have hmemn : n ∈ rem.map Prod.fst := by
      rw [hk]
      exact List.mem_map.mpr ⟨(n, v), hts (n, v) (by simp), rfl⟩
    have hgs' : GridSched (allocDays1 cap v.deadline n s (remLookup rem n) (remLookup rem n)).1 := by
      refine allocDays1_pres cap v.deadline n (fun _ b => onGrid b.hours) ?_ s _ _ hgs
      intro d al _ _
      exact onGrid_round2 al
    refine ih _ _ (fun t ht => hts t (List.mem_cons_of_mem _ ht)) hgs'
      (hgr.setRem hst_g hst_nn) (by rw [setRem_map_fst, hk]) ?_
    intro p hp
    have hold := hcons p hp
    by_cases hpn : p.1 = n
    · rw [hsum p.1, if_pos hpn, hpn, remLookup_setRem_self _ hmemn]
      rw [hpn] at hold
      linarith
    · rw [hsum p.1, remLookup_setRem_ne _ hpn, if_neg hpn]
      linarith

/-- Invariant-carrying lemma for the second pass, iterating over the
snapshot `list(remaining.items())`. -/
theorem pass2_inv (cap : ℤ → ℚ) (hcap : ∀ d, onGrid (cap d))
    (subj subjects0 : List (String × Subject)) :
    ∀ (ts : RemMap) (s : Sched) (rem : RemMap),
      (ts.map Prod.fst).Nodup →
      (∀ t ∈ ts, remLookup rem t.1 = t.2) →
      (∀ t ∈ ts, t.1 ∈ subjects0.map Prod.fst) →
      GridSched s → GridRem rem →
      rem.map Prod.fst = subjects0.map Prod.fst →
      (∀ p ∈ subjects0, p.2.required_hours = taskSum s p.1 + remLookup rem p.1) →
      GridSched (pass2 cap subj ts s rem).1 ∧ GridRem (pass2 cap subj ts s rem).2 ∧
      (pass2 cap subj ts s rem).2.map Prod.fst = subjects0.map Prod.fst ∧
      (∀ p ∈ subjects0, p.2.required_hours
        = taskSum (pass2 cap subj ts s rem).1 p.1
          + remLookup (pass2 cap subj ts s rem).2 p.1) := by
  intro ts
  induction ts with
  | nil =>
    intro s rem _ _ _ hgs hgr hk hcons
    exact ⟨hgs, hgr, hk, hcons⟩
  | cons t rest ih =>
    intro s rem hnd hsnap hnames hgs hgr hk hcons
    obtain ⟨n, q⟩ := t
    rw [List.map_cons, List.nodup_cons] at hnd
    have hq : remLookup rem n = q := hsnap (n, q) (by simp)
    simp only [pass2]
    split_ifs with h1
    · have hqg : onGrid q := hq ▸ (hgr.lookup n).1
      obtain ⟨hst_g, hst_nn, hst_le, hsum⟩ :=
        allocDays2_grid cap (((subj.lookup n).map Subject.deadline).getD 0) n hcap
          s q hgs hqg h1
      have hmemn : n ∈ rem.map Prod.fst := by
        rw [hk]
        exact hnames (n, q) (by simp)
      have hgs' : GridSched (allocDays2 cap (((subj.lookup n).map Subject.deadline).getD 0)
          n s q q).1 := by
        refine allocDays2_pres cap _ n (fun _ b => onGrid b.hours) ?_ s _ _ h1 hgs
        intro d al _ _
        exact onGrid_round2 al
      refine ih _ _ hnd.2 ?_ (fun t ht => hnames t (List.mem_cons_of_mem _ ht)) hgs'
        (hgr.setRem hst_g hst_nn) (by rw [setRem_map_fst, hk]) ?_
      · intro t ht
        have hne : t.1 ≠ n := by
          intro he
          exact hnd.1 (he ▸ List.mem_map.mpr ⟨t, ht, rfl⟩)
        rw [remLookup_setRem_ne _ hne]
        exact hsnap t (List.mem_cons_of_mem _ ht)
      · intro p hp
        have hold := hcons p hp
        by_cases hpn : p.1 = n
        · rw [hsum p.1, if_pos hpn, hpn, remLookup_setRem_self _ hmemn]
          rw [hpn, hq] at hold
          linarith
        · rw [hsum p.1, remLookup_setRem_ne _ hpn, if_neg hpn]
          linarith
    · exact ih _ _ hnd.2 (fun t ht => hsnap t (List.mem_cons_of_mem _ ht))
        (fun t ht => hnames t (List.mem_cons_of_mem _ ht)) hgs hgr hk hcons

/-! ### Allocator-level lemmas -/

theorem taskSum_empty_days (l : List ℤ) (n : String) :
    taskSum (l.map fun d => (d, ([] : List Block))) n = 0 := by
  induction l with
  | nil => rfl
  | cons d rest ih =>
    rw [List.map_cons, taskSum_cons, ih, subjSum_nil, add_zero]

theorem mem_unique_of_nodup {α β : Type} [BEq α] [LawfulBEq α] {l : List (α × β)}
    (hnd : (l.map Prod.fst).Nodup) {k : α} {v w : β}
    (h1 : (k, v) ∈ l) (h2 : (k, w) ∈ l) : v = w := by
  have e1 := lookup_eq_some_of_mem_nodup hnd h1
  have e2 := lookup_eq_some_of_mem_nodup hnd h2
  rw [e1] at e2
  exact Option.some.inj e2

theorem remLookup_self_of_nodup {m : RemMap} (hnd : (m.map Prod.fst).Nodup) :
    ∀ p ∈ m, remLookup m p.1 = p.2 := by
  intro p hp
  have := lookup_eq_some_of_mem_nodup hnd (show (p.1, p.2) ∈ m by simpa using hp)
  rw [remLookup, this, Option.getD_some]

theorem isEmpty_false_of_ne_nil {α : Type} {l : List α} (h : l ≠ []) :
    l.isEmpty = false := by
  cases l
  · exact absurd rfl h
  · rfl

/-- The schedule produced by the allocator spans exactly the dates from the
start date through the maximum deadline, in order. -/
theorem allocate_sched_keys (subjects : List (String × Subject)) (a : Avail)
    (start : ℤ) (hne : subjects ≠ []) :
    (allocate_hours_to_schedule subjects a start).1.map Prod.fst
      = dateList start (maxDeadline subjects) := by
  have h := isEmpty_false_of_ne_nil hne
  simp only [allocate_hours_to_schedule, h, Bool.false_eq_true, if_false]
  rw [pass2_map_fst, pass1_map_fst, List.map_map]
  exact List.map_id _

/-- No block produced by the allocator has negative hours (no grid
hypothesis is needed: every appended block is a rounded positive amount). -/
theorem allocate_nonneg (subjects : List (String × Subject)) (a : Avail) (start : ℤ) :
    ∀ p ∈ (allocate_hours_to_schedule subjects a start).1, ∀ b ∈ p.2, 0 ≤ b.hours := by
  by_cases hne : subjects = []
  · subst hne
    intro p hp
    simp [allocate_hours_to_schedule] at hp
  · have h := isEmpty_false_of_ne_nil hne
    simp only [allocate_hours_to_schedule, h, Bool.false_eq_true, if_false]
    refine pass2_pres _ _ (fun _ b => 0 ≤ b.hours) _ _ _ ?_ ?_
    · intro t ht d al _ hal
      exact round2_nonneg (le_of_lt hal)
    · refine pass1_pres _ (fun _ b => 0 ≤ b.hours) _ _ _ ?_ ?_
      · intro t ht d al _ hal
        exact round2_nonneg (le_of_lt hal)
      · intro p hp b hb
        obtain ⟨d, _, he⟩ := List.mem_map.mp hp
        rw [← he] at hb
        simp at hb

/-- Every block hours figure produced by the allocator is a `round2` image,
hence on the 0.01 grid, whatever the inputs. -/
theorem allocate_gridSched (subjects : List (String × Subject)) (a : Avail) (start : ℤ) :
    GridSched (allocate_hours_to_schedule subjects a start).1 := by
  by_cases hne : subjects = []
  · subst hne
    intro p hp
    simp [allocate_hours_to_schedule] at hp
  · have h := isEmpty_false_of_ne_nil hne
    simp only [GridSched, allocate_hours_to_schedule, h, Bool.false_eq_true, if_false]
    refine pass2_pres _ _ (fun _ b => onGrid b.hours) _ _ _ ?_ ?_
    · intro t ht d al _ _
      exact onGrid_round2 al
    · refine pass1_pres _ (fun _ b => onGrid b.hours) _ _ _ ?_ ?_
      · intro t ht d al _ _
        exact onGrid_round2 al
      · intro p hp b hb
        obtain ⟨d, _, he⟩ := List.mem_map.mp hp
        rw [← he] at hb
        simp at hb

/-- Deadline respect for the allocator: with unique task names, every block
for a task sits on a date at most that task's deadline. -/
theorem allocate_deadline (subjects : List (String × Subject)) (a : Avail) (start : ℤ)
    (hnd : (subjects.map Prod.fst).Nodup) :
    ∀ p ∈ (allocate_hours_to_schedule subjects a start).1, ∀ b ∈ p.2,
      ∀ v, (b.subject, v) ∈ subjects → p.1 ≤ v.deadline := by
  by_cases hne : subjects = []
  · subst hne
    intro p hp
    simp [allocate_hours_to_schedule] at hp
  · have h := isEmpty_false_of_ne_nil hne
    simp only [allocate_hours_to_schedule, h, Bool.false_eq_true, if_false]
    refine pass2_pres _ _ (fun d b => ∀ v, (b.subject, v) ∈ subjects → d ≤ v.deadline)
      _ _ _ ?_ ?_
    · intro t ht d al hdl _ v hv
      have hl := lookup_eq_some_of_mem_nodup hnd hv
      rw [hl] at hdl
      simpa using hdl
    · refine pass1_pres _ (fun d b => ∀ v, (b.subject, v) ∈ subjects → d ≤ v.deadline)
        _ _ _ ?_ ?_
      · intro t ht d al hdl _ v hv
        have hts : t ∈ subjects := ((sortPairs_perm sortLe subjects).mem_iff).mp ht
        have hveq : v = t.2 :=
          mem_unique_of_nodup hnd hv (show (t.1, t.2) ∈ subjects by simpa using hts)
        rw [hveq]
        exact le_of_not_lt hdl
      · intro p hp b hb
        obtain ⟨d, _, he⟩ := List.mem_map.mp hp
        rw [← he] at hb
        simp at hb

/-- Exact conservation for the allocator on the 0.01 grid: for every task,
its required hours equal the hours placed for it plus its recorded
remainder. -/
theorem allocate_conservation (subjects : List (String × Subject)) (a : Avail)
    (start : ℤ) (hnd : (subjects.map Prod.fst).Nodup)
    (hgr : ∀ p ∈ subjects, onGrid p.2.required_hours ∧ 0 ≤ p.2.required_hours)
    (hga : GridAvail a) :
    ∀ p ∈ subjects, p.2.required_hours
      = taskSum (allocate_hours_to_schedule subjects a start).1 p.1
        + remLookup (allocate_hours_to_schedule subjects a start).2 p.1 := by
  by_cases hne : subjects = []
  · subst hne
    intro p hp
    simp at hp
  · have h := isEmpty_false_of_ne_nil hne
    simp only [allocate_hours_to_schedule, h, Bool.false_eq_true, if_false]
    have hcap : ∀ d, onGrid (capOf a d) := hga.capOf
    have hrem0keys : (subjects.map fun p => (p.1, p.2.required_hours)).map Prod.fst
        = subjects.map Prod.fst := by
      rw [List.map_map]
      rfl
    obtain ⟨hg1, hr1, hk1, hcons1⟩ := pass1_inv (capOf a) hcap subjects
      (sortPairs sortLe subjects)
      ((dateList start (maxDeadline subjects)).map fun d => (d, ([] : List Block)))
      (subjects.map fun p => (p.1, p.2.required_hours))
      (fun t ht => ((sortPairs_perm sortLe subjects).mem_iff).mp ht)
      (by
        intro p hp b hb
        obtain ⟨d, _, he⟩ := List.mem_map.mp hp
        rw [← he] at hb
        simp at hb)
      (by
        intro p hp
        obtain ⟨q, hq, he⟩ := List.mem_map.mp hp
        rw [← he]
        exact hgr q hq)
      hrem0keys
      (by
        intro p hp
        have hlk : (subjects.map fun p => (p.1, p.2.required_hours)).lookup p.1
            = some p.2.required_hours :=
          lookup_eq_some_of_mem_nodup (by rw [hrem0keys]; exact hnd)
            (List.mem_map.mpr ⟨p, hp, rfl⟩)
        rw [taskSum_empty_days, zero_add, remLookup, hlk, Option.getD_some])
    obtain ⟨hg2, hr2, hk2, hcons2⟩ := pass2_inv (capOf a) hcap subjects subjects
      (pass1 (capOf a) (sortPairs sortLe subjects)
        ((dateList start (maxDeadline subjects)).map fun d => (d, ([] : List Block)))
        (subjects.map fun p => (p.1, p.2.required_hours))).2
      (pass1 (capOf a) (sortPairs sortLe subjects)
        ((dateList start (maxDeadline subjects)).map fun d => (d, ([] : List Block)))
        (subjects.map fun p => (p.1, p.2.required_hours))).1
      (pass1 (capOf a) (sortPairs sortLe subjects)
        ((dateList start (maxDeadline subjects)).map fun d => (d, ([] : List Block)))
        (subjects.map fun p => (p.1, p.2.required_hours))).2
      (by rw [hk1]; exact hnd)
      (remLookup_self_of_nodup (by rw [hk1]; exact hnd))
      (fun t ht => by
        rw [← hk1]
        exact List.mem_map.mpr ⟨t, ht, rfl⟩)
      hg1 hr1 hk1 hcons1
    exact hcons2

/-! ### Redistribution: general structural lemmas -/

theorem mem_prevs {keys : List ℤ} {day p : ℤ}
    (h : p ∈ (keys.filter (fun p => decide (p < day))).reverse) :
    p ∈ keys ∧ p < day := by
  rw [List.mem_reverse, List.mem_filter] at h
  exact ⟨h.1, by simpa using h.2⟩

theorem dayUsed_append_le {s : Sched} {p : ℤ} {b : Block} (hb : 0 ≤ b.hours) (d : ℤ) :
    dayUsed s d ≤ dayUsed (modifyAt s p (fun bs => bs ++ [b])) d := by
  by_cases hmem : p ∈ s.map Prod.fst
  · rcases eq_or_ne d p with he | he
    · subst he
      rw [dayUsed_modifyAt_self _ hmem, used_append, used_cons, used_nil]
      simp only [dayUsed]
      linarith
    · rw [dayUsed_modifyAt_ne _ he]
  · rw [modifyAt_eq_self_of_not_mem _ hmem]

theorem deadlineOK_append {dl : String → ℤ} {s : Sched} {p : ℤ} {b : Block}
    (hs : DeadlineOK dl s) (hb : p ≤ dl b.subject) :
    DeadlineOK dl (modifyAt s p (fun bs => bs ++ [b])) := by
  intro q hq b' hb'
  simp only [modifyAt, List.mem_map] at hq
  obtain ⟨q0, hq0, hqe⟩ := hq
  by_cases hc : q0.1 = p
  · rw [if_pos hc] at hqe
    rw [← hqe] at hb' ⊢
    simp only at hb' ⊢
    rcases List.mem_append.mp hb' with h1 | h1
    · exact hs q0 hq0 b' h1
    · have : b' = b := by simpa using h1
      rw [this, hc]
      exact hb
  · rw [if_neg hc] at hqe
    rw [← hqe] at hb' ⊢
    exact hs q0 hq0 b' hb'

theorem deadlineOK_getBlocks {dl : String → ℤ} {s : Sched} (hs : DeadlineOK dl s)
    (d : ℤ) : ∀ b ∈ getBlocks s d, d ≤ dl b.subject := by
  intro b hb
  unfold getBlocks at hb
  cases hl : s.lookup d with
  | none => rw [hl] at hb; simp at hb
  | some bs =>
    rw [hl] at hb
    simp only [Option.getD_some] at hb
    exact hs (d, bs) (mem_of_lookup_eq_some hl) b hb

theorem moveLoop_map_fst (cap : ℤ → ℚ) (subject : String) :
    ∀ (P : List ℤ) (st : MoveSt),
      (moveLoop cap subject P st).sched.map Prod.fst = st.sched.map Prod.fst := by
  intro P
  induction P with
  | nil => intro st; rfl
  | cons p ps ih =>
    intro st
    simp only [moveLoop]
    split_ifs <;> simp [ih, modifyAt_map_fst]

theorem moveLoop_getBlocks_not_mem (cap : ℤ → ℚ) (subject : String) :
    ∀ (P : List ℤ) (st : MoveSt) (d : ℤ), d ∉ P →
      getBlocks (moveLoop cap subject P st).sched d = getBlocks st.sched d := by
  intro P
  induction P with
  | nil => intro st d _; rfl
  | cons p ps ih =>
    intro st d hd
    rw [List.mem_cons] at hd
    push_neg at hd
    have h1 := hd.1
    have h2 := ih st d hd.2
    simp only [moveLoop]
    split_ifs <;>
      simp [ih, hd.1, hd.2, getBlocks_modifyAt_ne]

theorem moveLoop_dayUsed_mono (cap : ℤ → ℚ) (subject : String) :
    ∀ (P : List ℤ) (st : MoveSt) (d : ℤ),
      dayUsed st.sched d ≤ dayUsed (moveLoop cap subject P st).sched d := by
  intro P
  induction P with
  | nil => intro st d; exact le_refl _
  | cons p ps ih =>
    intro st d
    simp only [moveLoop]
    split_ifs with h1 h2 h3
    · exact ih st d
    · exact ih st d
    · exact dayUsed_append_le (round2_nonneg (by push_neg at h2; linarith)) d
    · refine le_trans (dayUsed_append_le (round2_nonneg (by push_neg at h2; linarith)) d)
        (ih _ d)

theorem moveLoop_deadlineOK (cap : ℤ → ℚ) (subject : String) (dl : String → ℤ) :
    ∀ (P : List ℤ) (st : MoveSt), (∀ p ∈ P, p ≤ dl subject) →
      DeadlineOK dl st.sched → DeadlineOK dl (moveLoop cap subject P st).sched := by
  intro P
  induction P with
  | nil => intro st _ hs; exact hs
  | cons p ps ih =>
    intro st hP hs
    have hp : p ≤ dl subject := hP p (by simp)
    have hps : ∀ q ∈ ps, q ≤ dl subject := fun q hq => hP q (List.mem_cons_of_mem _ hq)
    simp only [moveLoop]
    split_ifs
    · exact ih st hps hs
    · exact ih st hps hs
    · exact deadlineOK_append hs hp
    · exact ih _ hps (deadlineOK_append hs hp)

theorem entryLoop_map_fst (cap : ℤ → ℚ) (prevs : List ℤ) :
    ∀ (es : List Block) (st : EntrySt),
      (entryLoop cap prevs es st).sched.map Prod.fst = st.sched.map Prod.fst := by
  intro es
  induction es with
  | nil => intro st; rfl
  | cons e rest ih =>
    intro st
    simp only [entryLoop]
    split_ifs <;> simp [ih, moveLoop_map_fst]

theorem entryLoop_getBlocks_not_mem (cap : ℤ → ℚ) (prevs : List ℤ) :
    ∀ (es : List Block) (st : EntrySt) (d : ℤ), d ∉ prevs →
      getBlocks (entryLoop cap prevs es st).sched d = getBlocks st.sched d := by
  intro es
  induction es with
  | nil => intro st d _; rfl
  | cons e rest ih =>
    intro st d hd
    simp only [entryLoop]
    split_ifs
    · rfl
    · exact ih _ d hd
    · rw [ih _ d hd]
      simp only
      exact moveLoop_getBlocks_not_mem cap _ prevs _ d hd

theorem entryLoop_dayUsed_mono (cap : ℤ → ℚ) (prevs : List ℤ) :
    ∀ (es : List Block) (st : EntrySt) (d : ℤ),
      dayUsed st.sched d ≤ dayUsed (entryLoop cap prevs es st).sched d := by
  intro es
  induction es with
  | nil => intro st d; exact le_refl _
  | cons e rest ih =>
    intro st d
    simp only [entryLoop]
    split_ifs
    · exact le_refl _
    · exact ih _ d
    · refine le_trans (moveLoop_dayUsed_mono cap _ prevs _ d) (ih _ d)

theorem entryLoop_deadlineOK (cap : ℤ → ℚ) (prevs : List ℤ) (dl : String → ℤ) (D : ℤ)
    (hP : ∀ p ∈ prevs, p ≤ D) :
    ∀ (es : List Block) (st : EntrySt),
      (∀ b ∈ es, D ≤ dl b.subject) → (∀ b ∈ st.blocks, D ≤ dl b.subject) →
      DeadlineOK dl st.sched →
      DeadlineOK dl (entryLoop cap prevs es st).sched ∧
      (∀ b ∈ (entryLoop cap prevs es st).blocks, D ≤ dl b.subject) := by
  intro es
  induction es with
  | nil => intro st _ hbl hs; exact ⟨hs, hbl⟩
  | cons e rest ih =>
    intro st hes hbl hs
    have he : D ≤ dl e.subject := hes e (by simp)
    have hrest : ∀ b ∈ rest, D ≤ dl b.subject := fun b hb => hes b (by simp [hb])
    simp only [entryLoop]
    split_ifs
    · refine ⟨hs, ?_⟩
      intro b hb
      simp only at hb
      rcases List.mem_append.mp hb with h1 | h1
      · exact hbl b h1
      · rcases List.mem_cons.mp h1 with h2 | h2
        · rw [h2]; exact he
        · exact hrest b h2
    · refine ih _ hrest ?_ hs
      intro b hb
      simp only at hb
      rcases List.mem_append.mp hb with h1 | h1
      · exact hbl b h1
      · rw [List.mem_singleton.mp h1]
        exact he
    · have hmv : DeadlineOK dl (moveLoop cap e.subject prevs
          ⟨st.sched, e.hours, min e.hours st.ov, st.ov, true, st.moved⟩).sched :=
        moveLoop_deadlineOK cap e.subject dl prevs _
          (fun p hp => le_trans (hP p hp) he) hs
      refine ih _ hrest ?_ hmv
      intro b hb
      simp only at hb
      rcases List.mem_append.mp hb with h1 | h1
      · exact hbl b h1
      · cases hlive : (moveLoop cap e.subject prevs
            ⟨st.sched, e.hours, min e.hours st.ov, st.ov, true, st.moved⟩).live
        · rw [hlive, Bool.cond_false] at h1
          simp at h1
        · rw [hlive, Bool.cond_true, List.mem_singleton] at h1
          rw [h1]
          exact he

theorem processDay_map_fst (cap : ℤ → ℚ) (keys : List ℤ) (s : Sched) (day : ℤ) :
    (processDay cap keys s day).1.map Prod.fst = s.map Prod.fst := by
  simp only [processDay]
  split_ifs
  · rfl
  · simp only
    rw [modifyAt_map_fst, entryLoop_map_fst]

theorem processDay_dayUsed_mono (cap : ℤ → ℚ) (keys : List ℤ) (s : Sched) (day d : ℤ)
    (hne : d ≠ day) : dayUsed s d ≤ dayUsed (processDay cap keys s day).1 d := by
  simp only [processDay]
  split_ifs
  · exact le_refl _
  · simp only [dayUsed]
    rw [getBlocks_modifyAt_ne _ hne]
    exact entryLoop_dayUsed_mono cap _ _ _ d

theorem processDay_deadlineOK (cap : ℤ → ℚ) (keys : List ℤ) (s : Sched) (day : ℤ)
    (dl : String → ℤ) (hs : DeadlineOK dl s) :
    DeadlineOK dl (processDay cap keys s day).1 := by
  simp only [processDay]
  split_ifs
  · exact hs
  · simp only
    obtain ⟨h1, h2⟩ := entryLoop_deadlineOK cap
      ((keys.filter (fun p => decide (p < day))).reverse) dl day
      (fun p hp => le_of_lt (mem_prevs hp).2)
      (getBlocks s day) ⟨s, round6 (used (getBlocks s day) - cap day), [], 0⟩
      (deadlineOK_getBlocks hs day) (by simp) hs
    intro q hq b hb
    simp only [modifyAt, List.mem_map] at hq
    obtain ⟨q0, hq0, hqe⟩ := hq
    by_cases hc : q0.1 = day
    · rw [if_pos hc] at hqe
      rw [← hqe] at hb ⊢
      simp only at hb ⊢
      rw [hc]
      exact h2 b hb
    · rw [if_neg hc] at hqe
      rw [← hqe] at hb ⊢
      exact h1 q0 hq0 b hb

theorem redisMain_map_fst (cap : ℤ → ℚ) (keys : List ℤ) :
    ∀ (ds : List ℤ) (s : Sched) (m : ℚ),
      (redisMain cap keys ds s m).1.map Prod.fst = s.map Prod.fst := by
  intro ds
  induction ds with
  | nil => intro s m; rfl
  | cons d rest ih =>
    intro s m
    simp only [redisMain]
    rw [ih, processDay_map_fst]

theorem redisMain_dayUsed_mono (cap : ℤ → ℚ) (keys : List ℤ) :
    ∀ (ds : List ℤ) (s : Sched) (m : ℚ) (d : ℤ), d ∉ ds →
      dayUsed s d ≤ dayUsed (redisMain cap keys ds s m).1 d := by
  intro ds
  induction ds with
  | nil => intro s m d _; exact le_refl _
  | cons e rest ih =>
    intro s m d hd
    rw [List.mem_cons] at hd
    push_neg at hd
    simp only [redisMain]
    exact le_trans (processDay_dayUsed_mono cap keys s e d hd.1) (ih _ _ d hd.2)

theorem redisMain_deadlineOK (cap : ℤ → ℚ) (keys : List ℤ) (dl : String → ℤ) :
    ∀ (ds : List ℤ) (s : Sched) (m : ℚ), DeadlineOK dl s →
      DeadlineOK dl (redisMain cap keys ds s m).1 := by
  intro ds
  induction ds with
  | nil => intro s m hs; exact hs
  | cons e rest ih =>
    intro s m hs
    simp only [redisMain]
    exact ih _ _ (processDay_deadlineOK cap keys s e dl hs)

theorem cleanup_map_fst (s : Sched) : (cleanup s).map Prod.fst = s.map Prod.fst := by
  simp [cleanup]

/-- Every block of a cleaned-up schedule arises from a block with the same
subject whose pre-rounding hours exceeded the pruning threshold. -/
theorem cleanup_blocks {s : Sched} {q : ℤ × List Block} (hq : q ∈ cleanup s) :
    ∃ p ∈ s, q.1 = p.1 ∧ ∀ b ∈ q.2,
      ∃ e ∈ p.2, b.subject = e.subject ∧ b.hours = round2 e.hours ∧
        (1 : ℚ) / 1000 < e.hours := by
  simp only [cleanup, List.mem_map] at hq
  obtain ⟨p, hp, hpe⟩ := hq
  refine ⟨p, hp, by rw [← hpe], ?_⟩
  intro b hb
  rw [← hpe] at hb
  simp only [List.mem_map, List.mem_filter] at hb
  obtain ⟨e, ⟨he1, he2⟩, he3⟩ := hb
  exact ⟨e, he1, by rw [← he3], by rw [← he3], by simpa using he2⟩

theorem cleanup_deadlineOK {dl : String → ℤ} {s : Sched} (hs : DeadlineOK dl s) :
    DeadlineOK dl (cleanup s) := by
  intro q hq b hb
  obtain ⟨p, hp, he1, he2⟩ := cleanup_blocks hq
  obtain ⟨e, hep, hes, _, _⟩ := he2 b hb
  rw [he1, hes]
  exact hs p hp e hep

/-- App.py line 260: the keys of the schedule, and their order, are exactly
preserved by `detect_and_redistribute_clashes`. -/
theorem redistribute_map_fst (s : Sched) (a : Avail) :
    (detect_and_redistribute_clashes s a).map Prod.fst = s.map Prod.fst := by
  simp only [detect_and_redistribute_clashes]
  split_ifs
  · rfl
  · rw [cleanup_map_fst, redisMain_map_fst]

/-- Redistribution preserves deadline respect: it only moves hours to
strictly earlier days. -/
theorem redistribute_deadlineOK (s : Sched) (a : Avail) (dl : String → ℤ)
    (hs : DeadlineOK dl s) : DeadlineOK dl (detect_and_redistribute_clashes s a) := by
  simp only [detect_and_redistribute_clashes]
  split_ifs
  · exact hs
  · exact cleanup_deadlineOK (redisMain_deadlineOK _ _ dl _ s 0 hs)

/-! ### Redistribution: on-grid accounting -/


theorem prevFreeSum_nil (cap : ℤ → ℚ) (s : Sched) : prevFreeSum cap [] s = 0 := rfl

theorem prevFreeSum_cons (cap : ℤ → ℚ) (p : ℤ) (P : List ℤ) (s : Sched) :
    prevFreeSum cap (p :: P) s
      = max (cap p - dayUsed s p) 0 + prevFreeSum cap P s := by
  simp [prevFreeSum]

theorem prevFreeSum_nonneg (cap : ℤ → ℚ) (P : List ℤ) (s : Sched) :
    0 ≤ prevFreeSum cap P s := by
  induction P with
  | nil => simp [prevFreeSum_nil]
  | cons p ps ih =>
    rw [prevFreeSum_cons]
    have : (0 : ℚ) ≤ max (cap p - dayUsed s p) 0 := le_max_right _ _
    linarith

theorem prevFreeSum_congr {cap : ℤ → ℚ} {P : List ℤ} {s s' : Sched}
    (h : ∀ p ∈ P, dayUsed s' p = dayUsed s p) :
    prevFreeSum cap P s' = prevFreeSum cap P s := by
  induction P with
  | nil => rfl
  | cons p ps ih =>
    rw [prevFreeSum_cons, prevFreeSum_cons, h p (by simp),
      ih fun q hq => h q (List.mem_cons_of_mem _ hq)]

theorem gridSched_getBlocks {s : Sched} (hs : GridSched s) (d : ℤ) :
    ∀ b ∈ getBlocks s d, onGrid b.hours := by
  intro b hb
  unfold getBlocks at hb
  cases hl : s.lookup d with
  | none => rw [hl] at hb; simp at hb
  | some bs =>
    rw [hl] at hb
    simp only [Option.getD_some] at hb
    exact hs (d, bs) (mem_of_lookup_eq_some hl) b hb

theorem nonnegSched_getBlocks {s : Sched} (hs : NonnegSched s) (d : ℤ) :
    ∀ b ∈ getBlocks s d, 0 ≤ b.hours := by
  intro b hb
  unfold getBlocks at hb
  cases hl : s.lookup d with
  | none => rw [hl] at hb; simp at hb
  | some bs =>
    rw [hl] at hb
    simp only [Option.getD_some] at hb
    exact hs (d, bs) (mem_of_lookup_eq_some hl) b hb

theorem onGrid_dayUsed {s : Sched} (hs : GridSched s) (d : ℤ) : onGrid (dayUsed s d) :=
  onGrid_used (gridSched_getBlocks hs d)

theorem blockPres_modifyAt {Q : Block → Prop} {s : Sched} {d : ℤ}
    {f : List Block → List Block}
    (hf : ∀ bs, (∀ b ∈ bs, Q b) → ∀ b ∈ f bs, Q b)
    (hs : ∀ p ∈ s, ∀ b ∈ p.2, Q b) :
    ∀ p ∈ modifyAt s d f, ∀ b ∈ p.2, Q b := by
  intro q hq
  simp only [modifyAt, List.mem_map] at hq
  obtain ⟨q0, hq0, hqe⟩ := hq
  by_cases hc : q0.1 = d
  · rw [if_pos hc] at hqe
    rw [← hqe]
    exact hf q0.2 (hs q0 hq0)
  · rw [if_neg hc] at hqe
    rw [← hqe]
    exact hs q0 hq0

theorem dayUsed_append_self {s : Sched} {p : ℤ} (b : Block)
    (hmem : p ∈ s.map Prod.fst) :
    dayUsed (modifyAt s p (fun bs => bs ++ [b])) p = dayUsed s p + b.hours := by
  rw [dayUsed_modifyAt_self _ hmem, used_append, used_cons, used_nil, dayUsed]
  ring

theorem taskSum_append_block {s : Sched} {p : ℤ} (b : Block)
    (hnd : (s.map Prod.fst).Nodup) (hmem : p ∈ s.map Prod.fst) (m : String) :
    taskSum (modifyAt s p (fun bs => bs ++ [b])) m
      = taskSum s m + (if b.subject = m then b.hours else 0) := by
  rw [taskSum_modifyAt _ hnd hmem, subjSum_append, subjSum_single]
  ring

/-- On-grid accounting for the inner earlier-day loop.  The conjuncts state:
grid and sign invariants of the threaded quantities, exact per-subject
conservation, the identity `hours shed = overload shed = hours appended`,
the per-day bound `used ≤ max used₀ capacity`, and the conserved quantity
`overload - positive free capacity over the scanned days`. -/
theorem moveLoop_grid (cap : ℤ → ℚ) (subject : String) (hcap : ∀ d, onGrid (cap d)) :
    ∀ (P : List ℤ) (st : MoveSt),
      P.Nodup → (∀ p ∈ P, p ∈ st.sched.map Prod.fst) →
      (st.sched.map Prod.fst).Nodup →
      GridSched st.sched → NonnegSched st.sched →
      onGrid st.h → onGrid st.ma → onGrid st.ov →
      0 ≤ st.ma → st.ma ≤ st.h → st.ma ≤ st.ov →
      (st.live = false → st.h = 0) →
      GridSched (moveLoop cap subject P st).sched ∧
      NonnegSched (moveLoop cap subject P st).sched ∧
      onGrid (moveLoop cap subject P st).h ∧
      onGrid (moveLoop cap subject P st).ma ∧
      onGrid (moveLoop cap subject P st).ov ∧
      0 ≤ (moveLoop cap subject P st).ma ∧
      (moveLoop cap subject P st).ma ≤ (moveLoop cap subject P st).h ∧
      (moveLoop cap subject P st).ma ≤ (moveLoop cap subject P st).ov ∧
      ((moveLoop cap subject P st).live = false → (moveLoop cap subject P st).h = 0) ∧
      (∀ m, taskSum (moveLoop cap subject P st).sched m
        = taskSum st.sched m
          + (if m = subject then st.h - (moveLoop cap subject P st).h else 0)) ∧
      st.h - (moveLoop cap subject P st).h = st.ov - (moveLoop cap subject P st).ov ∧
      (moveLoop cap subject P st).ov ≤ st.ov ∧
      (moveLoop cap subject P st).moved
        = st.moved + (st.ov - (moveLoop cap subject P st).ov) ∧
      (∀ d, dayUsed (moveLoop cap subject P st).sched d
        ≤ max (dayUsed st.sched d) (cap d)) ∧
      (moveLoop cap subject P st).ov
          - prevFreeSum cap P (moveLoop cap subject P st).sched
        = st.ov - prevFreeSum cap P st.sched ∧
      st.ma - (moveLoop cap subject P st).ma
        = st.ov - (moveLoop cap subject P st).ov := by
  intro P
  induction P with
  | nil =>
    intro st _ _ _ hgs hns hh hma hov hma0 hmah hmao hlz
    simp only [moveLoop]
    refine ⟨hgs, hns, hh, hma, hov, hma0, hmah, hmao, hlz, ?_, by ring, le_refl _,
      by ring, fun d => le_max_left _ _, by ring, by ring⟩
    intro m
    by_cases hm : m = subject <;> simp [hm]
  | cons p ps ih =>
    intro st hnd hP hknd hgs hns hh hma hov hma0 hmah hmao hlz
    rw [List.nodup_cons] at hnd
    have hpmem : p ∈ st.sched.map Prod.fst := hP p (by simp)
    have hPs : ∀ q ∈ ps, q ∈ st.sched.map Prod.fst :=
      fun q hq => hP q (List.mem_cons_of_mem _ hq)
    have hgpf : onGrid (cap p - used (getBlocks st.sched p)) :=
      onGrid_sub (hcap p) (onGrid_used (gridSched_getBlocks hgs p))
    have hpfe : round6 (cap p - used (getBlocks st.sched p))
        = cap p - used (getBlocks st.sched p) := round6_onGrid hgpf
    simp only [moveLoop]
    rw [hpfe]
    by_cases h1 : cap p - used (getBlocks st.sched p) ≤ 1 / 10000
    · rw [if_pos h1]
      obtain ⟨g1, g2, g3, g4, g5, g6, g7, g8, g9, g10, g11, g12, g13, g14, g15, g16⟩ :=
        ih st hnd.2 hPs hknd hgs hns hh hma hov hma0 hmah hmao hlz
      refine ⟨g1, g2, g3, g4, g5, g6, g7, g8, g9, g10, g11, g12, g13, g14, ?_, g16⟩
      have hpun : dayUsed (moveLoop cap subject ps st).sched p = dayUsed st.sched p := by
        simp only [dayUsed]
        rw [moveLoop_getBlocks_not_mem _ _ _ _ _ hnd.1]
      rw [prevFreeSum_cons, prevFreeSum_cons, hpun]
      linarith
    · rw [if_neg h1]
      have htakeg : onGrid (min (cap p - used (getBlocks st.sched p)) st.ma) :=
        onGrid_min hgpf hma
      by_cases h2 : min (cap p - used (getBlocks st.sched p)) st.ma ≤ 0
      · rw [if_pos h2]
        obtain ⟨g1, g2, g3, g4, g5, g6, g7, g8, g9, g10, g11, g12, g13, g14, g15, g16⟩ :=
          ih st hnd.2 hPs hknd hgs hns hh hma hov hma0 hmah hmao hlz
        refine ⟨g1, g2, g3, g4, g5, g6, g7, g8, g9, g10, g11, g12, g13, g14, ?_, g16⟩
        have hpun : dayUsed (moveLoop cap subject ps st).sched p
            = dayUsed st.sched p := by
          simp only [dayUsed]
          rw [moveLoop_getBlocks_not_mem _ _ _ _ _ hnd.1]
        rw [prevFreeSum_cons, prevFreeSum_cons, hpun]
        linarith
      · rw [if_neg h2]
        push_neg at h2
        have hpf_pos : 1 / 10000 < cap p - used (getBlocks st.sched p) := not_le.mp h1
        have htake_le_pf : min (cap p - used (getBlocks st.sched p)) st.ma
            ≤ cap p - used (getBlocks st.sched p) := min_le_left _ _
        have htake_le_ma : min (cap p - used (getBlocks st.sched p)) st.ma ≤ st.ma :=
          min_le_right _ _
        rw [round2_onGrid htakeg, round2_onGrid (onGrid_sub hh htakeg),
          round2_onGrid (onGrid_sub hma htakeg), round2_onGrid (onGrid_sub hov htakeg)]
        have hdue : used (getBlocks st.sched p) = dayUsed st.sched p := rfl
        -- facts about the post-move state
        have hg1 : GridSched (modifyAt st.sched p (fun bs => bs ++
            [⟨subject, min (cap p - used (getBlocks st.sched p)) st.ma⟩])) := by
          refine blockPres_modifyAt ?_ hgs
          intro bs hbs b hb
          rcases List.mem_append.mp hb with hx | hx
          · exact hbs b hx
          · rw [List.mem_singleton.mp hx]
            exact htakeg
        have hg2 : NonnegSched (modifyAt st.sched p (fun bs => bs ++
            [⟨subject, min (cap p - used (getBlocks st.sched p)) st.ma⟩])) := by
          refine blockPres_modifyAt ?_ hns
          intro bs hbs b hb
          rcases List.mem_append.mp hb with hx | hx
          · exact hbs b hx
          · rw [List.mem_singleton.mp hx]
            exact le_of_lt h2
        have hkeq : (modifyAt st.sched p (fun bs => bs ++
            [⟨subject, min (cap p - used (getBlocks st.sched p)) st.ma⟩])).map Prod.fst
            = st.sched.map Prod.fst := modifyAt_map_fst _ _ _
        have hdu_self : dayUsed (modifyAt st.sched p (fun bs => bs ++
            [⟨subject, min (cap p - used (getBlocks st.sched p)) st.ma⟩])) p
            = dayUsed st.sched p + min (cap p - used (getBlocks st.sched p)) st.ma :=
          dayUsed_append_self _ hpmem
        have hdu_ne : ∀ d, d ≠ p → dayUsed (modifyAt st.sched p (fun bs => bs ++
            [⟨subject, min (cap p - used (getBlocks st.sched p)) st.ma⟩])) d
            = dayUsed st.sched d := fun d hd => dayUsed_modifyAt_ne _ hd
        have hts : ∀ m, taskSum (modifyAt st.sched p (fun bs => bs ++
            [⟨subject, min (cap p - used (getBlocks st.sched p)) st.ma⟩])) m
            = taskSum st.sched m + (if subject = m then
                min (cap p - used (getBlocks st.sched p)) st.ma else 0) :=
          fun m => taskSum_append_block _ hknd hpmem m
        have hdu9 : ∀ d, dayUsed (modifyAt st.sched p (fun bs => bs ++
            [⟨subject, min (cap p - used (getBlocks st.sched p)) st.ma⟩])) d
            ≤ max (dayUsed st.sched d) (cap d) := by
          intro d
          rcases eq_or_ne d p with he | he
          · subst he
            rw [hdu_self]
            refine le_trans ?_ (le_max_right _ _)
            simp only [dayUsed]
            linarith
          · rw [hdu_ne d he]
            exact le_max_left _ _
        have hlz' : (st.live && ! decide (st.h
            - min (cap p - used (getBlocks st.sched p)) st.ma ≤ 1 / 10000)) = false
            → st.h - min (cap p - used (getBlocks st.sched p)) st.ma = 0 := by
          intro hl
          by_cases hdec : st.h - min (cap p - used (getBlocks st.sched p)) st.ma
              ≤ 1 / 10000
          · have hge : 0 ≤ st.h - min (cap p - used (getBlocks st.sched p)) st.ma := by
              linarith
            have := (grid_le_tenthou (onGrid_sub hh htakeg)).mp hdec
            linarith
          · rw [Bool.and_eq_false_iff] at hl
            rcases hl with hl | hl
            · have := hlz hl
              linarith
            · rw [Bool.not_eq_false'] at hl
              exact absurd (of_decide_eq_true hl) hdec
        by_cases h3 : st.ov - min (cap p - used (getBlocks st.sched p)) st.ma ≤ 0
        · rw [if_pos h3]
          refine ⟨hg1, hg2, onGrid_sub hh htakeg, onGrid_sub hma htakeg,
            onGrid_sub hov htakeg, by linarith, by linarith, by linarith, hlz', ?_,
            by ring, by linarith, by ring, hdu9, ?_, by ring⟩
          · intro m
            rw [hts m]
            by_cases hm : m = subject
            · subst hm
              rw [if_pos rfl, if_pos rfl]
              ring
            · rw [if_neg hm, if_neg (fun hc => hm hc.symm)]
          · rw [prevFreeSum_cons, prevFreeSum_cons, hdu_self,
              prevFreeSum_congr (fun q hq => hdu_ne q (fun hc => hnd.1 (hc ▸ hq)))]
            have hmax1 : max (cap p - dayUsed st.sched p) 0
                = cap p - dayUsed st.sched p :=
              max_eq_left (by simp only [dayUsed]; linarith)
            have hmax2 : max (cap p - (dayUsed st.sched p
                + min (cap p - used (getBlocks st.sched p)) st.ma)) 0
                = cap p - dayUsed st.sched p
                  - min (cap p - used (getBlocks st.sched p)) st.ma := by
              rw [max_eq_left (by simp only [dayUsed]; linarith)]
              ring
            rw [hmax1, hmax2]
            ring
        · rw [if_neg h3]
          obtain ⟨g1, g2, g3, g4, g5, g6, g7, g8, g9, g10, g11, g12, g13, g14, g15, g16⟩ :=
            ih ⟨modifyAt st.sched p (fun bs => bs ++
                [⟨subject, min (cap p - used (getBlocks st.sched p)) st.ma⟩]),
              st.h - min (cap p - used (getBlocks st.sched p)) st.ma,
              st.ma - min (cap p - used (getBlocks st.sched p)) st.ma,
              st.ov - min (cap p - used (getBlocks st.sched p)) st.ma,
              st.live && ! decide (st.h
                - min (cap p - used (getBlocks st.sched p)) st.ma ≤ 1 / 10000),
              st.moved + min (cap p - used (getBlocks st.sched p)) st.ma⟩
              hnd.2 (by rw [hkeq]; exact hPs) (by rw [hkeq]; exact hknd)
              hg1 hg2 (onGrid_sub hh htakeg) (onGrid_sub hma htakeg)
              (onGrid_sub hov htakeg) (by simp only; linarith) (by simp only; linarith)
              (by simp only; linarith) hlz'
          refine ⟨g1, g2, g3, g4, g5, g6, g7, g8, g9, ?_, ?_, ?_, ?_, ?_, ?_, ?_⟩
          · intro m
            rw [g10 m, hts m]
            by_cases hm : m = subject
            · subst hm
              rw [if_pos rfl, if_pos rfl, if_pos rfl]
              simp only at g11 ⊢
              ring
            · rw [if_neg hm, if_neg hm, if_neg (fun hc => hm hc.symm)]
              ring
          · simp only at g11 ⊢
            linarith
          · simp only at g12 ⊢
            linarith
          · rw [g13]
            simp only
            ring_nf
          · intro d
            refine le_trans (g14 d) ?_
            exact max_le (hdu9 d) (le_max_right _ _)
          · have hpun : dayUsed (moveLoop cap subject ps
                (⟨modifyAt st.sched p (fun bs => bs ++
                    [⟨subject, min (cap p - used (getBlocks st.sched p)) st.ma⟩]),
                  st.h - min (cap p - used (getBlocks st.sched p)) st.ma,
                  st.ma - min (cap p - used (getBlocks st.sched p)) st.ma,
                  st.ov - min (cap p - used (getBlocks st.sched p)) st.ma,
                  st.live && ! decide (st.h
                    - min (cap p - used (getBlocks st.sched p)) st.ma ≤ 1 / 10000),
                  st.moved + min (cap p - used (getBlocks st.sched p)) st.ma⟩ : MoveSt)).sched p
                = dayUsed (modifyAt st.sched p (fun bs => bs ++
                  [⟨subject, min (cap p - used (getBlocks st.sched p)) st.ma⟩])) p := by
              simp only [dayUsed]
              rw [moveLoop_getBlocks_not_mem _ _ _ _ _ hnd.1]
            rw [prevFreeSum_cons, prevFreeSum_cons, hpun, hdu_self]
            have hps_eq : prevFreeSum cap ps (modifyAt st.sched p (fun bs => bs ++
                [⟨subject, min (cap p - used (getBlocks st.sched p)) st.ma⟩]))
                = prevFreeSum cap ps st.sched :=
              prevFreeSum_congr (fun q hq => hdu_ne q (fun hc => hnd.1 (hc ▸ hq)))
            have hmax1 : max (cap p - dayUsed st.sched p) 0
                = cap p - dayUsed st.sched p :=
              max_eq_left (by simp only [dayUsed]; linarith)
            have hmax2 : max (cap p - (dayUsed st.sched p
                + min (cap p - used (getBlocks st.sched p)) st.ma)) 0
                = cap p - dayUsed st.sched p
                  - min (cap p - used (getBlocks st.sched p)) st.ma := by
              rw [max_eq_left (by simp only [dayUsed]; linarith)]
              ring
            rw [hmax1, hmax2]
            simp only at g15 ⊢
            rw [hps_eq] at g15
            linarith
          · simp only at g16 ⊢
            linarith

/-- On-grid accounting for the loop over the snapshot of an overloaded
day's entries. -/
theorem entryLoop_grid (cap : ℤ → ℚ) (hcap : ∀ d, onGrid (cap d)) (P : List ℤ)
    (hPnd : P.Nodup) :
    ∀ (es : List Block) (st : EntrySt),
      (∀ p ∈ P, p ∈ st.sched.map Prod.fst) →
      (st.sched.map Prod.fst).Nodup →
      GridSched st.sched → NonnegSched st.sched →
      (∀ b ∈ es, onGrid b.hours ∧ 0 ≤ b.hours) →
      (∀ b ∈ st.blocks, onGrid b.hours ∧ 0 ≤ b.hours) →
      onGrid st.ov → 0 ≤ st.ov →
      GridSched (entryLoop cap P es st).sched ∧
      NonnegSched (entryLoop cap P es st).sched ∧
      (∀ b ∈ (entryLoop cap P es st).blocks, onGrid b.hours ∧ 0 ≤ b.hours) ∧
      onGrid (entryLoop cap P es st).ov ∧
      0 ≤ (entryLoop cap P es st).ov ∧
      (entryLoop cap P es st).ov ≤ st.ov ∧
      (∀ m, taskSum (entryLoop cap P es st).sched m
          + subjSum m (entryLoop cap P es st).blocks
        = taskSum st.sched m + subjSum m st.blocks + subjSum m es) ∧
      used (entryLoop cap P es st).blocks - (entryLoop cap P es st).ov
        = used st.blocks + used es - st.ov ∧
      (entryLoop cap P es st).moved = st.moved + (st.ov - (entryLoop cap P es st).ov) ∧
      (∀ d, dayUsed (entryLoop cap P es st).sched d
        ≤ max (dayUsed st.sched d) (cap d)) ∧
      (entryLoop cap P es st).ov - prevFreeSum cap P (entryLoop cap P es st).sched
        = st.ov - prevFreeSum cap P st.sched := by
  intro es
  induction es with
  | nil =>
    intro st hP hknd hgs hns hes hbl hovg hov0
    simp only [entryLoop]
    refine ⟨hgs, hns, hbl, hovg, hov0, le_refl _, ?_, by
      rw [used_nil]; ring, by ring, fun d => le_max_left _ _, by ring⟩
    intro m
    rw [subjSum_nil]
    ring
  | cons e rest ih =>
    intro st hP hknd hgs hns hes hbl hovg hov0
    have heg : onGrid e.hours := (hes e (by simp)).1
    have henn : 0 ≤ e.hours := (hes e (by simp)).2
    have hrest : ∀ b ∈ rest, onGrid b.hours ∧ 0 ≤ b.hours :=
      fun b hb => hes b (by simp [hb])
    simp only [entryLoop]
    by_cases h1 : st.ov ≤ 0
    · rw [if_pos h1]
      refine ⟨hgs, hns, ?_, hovg, hov0, le_refl _, ?_, ?_, by ring,
        fun d => le_max_left _ _, by ring⟩
      · intro b hb
        simp only at hb
        rcases List.mem_append.mp hb with hx | hx
        · exact hbl b hx
        · rcases List.mem_cons.mp hx with hx1 | hx1
          · rw [hx1]; exact ⟨heg, henn⟩
          · exact hrest b hx1
      · intro m
        rw [subjSum_append]
        ring
      · rw [used_append]
    · rw [if_neg h1]
      push_neg at h1
      by_cases h2 : e.hours ≤ 1 / 1000
      · rw [if_pos h2]
        obtain ⟨g1, g2, g3, g4, g5, g6, g7, g8, g9, g10, g11⟩ :=
          ih ⟨st.sched, st.ov, st.blocks ++ [e], st.moved⟩ hP hknd hgs hns hrest
            (by
              intro b hb
              simp only at hb
              rcases List.mem_append.mp hb with hx | hx
              · exact hbl b hx
              · rw [List.mem_singleton.mp hx]; exact ⟨heg, henn⟩)
            hovg hov0
        refine ⟨g1, g2, g3, g4, g5, g6, ?_, ?_, g9, g10, g11⟩
        · intro m
          rw [g7 m, subjSum_append]
          simp only [subjSum_cons, subjSum_nil]
          ring
        · rw [g8, used_append]
          simp only [used_cons, used_nil]
          ring
      · rw [if_neg h2]
        -- the entry is processed: run the inner loop
        have hma0 : 0 ≤ min e.hours st.ov := le_min henn (le_of_lt h1)
        obtain ⟨m1, m2, m3, m4, m5, m6, m7, m8, m9, m10, m11, m12, m13, m14, m15, m16⟩ :=
          moveLoop_grid cap e.subject hcap P
            ⟨st.sched, e.hours, min e.hours st.ov, st.ov, true, st.moved⟩
            hPnd hP hknd hgs hns heg (onGrid_min heg hovg) hovg hma0
            (min_le_left _ _) (min_le_right _ _) (by intro hc; exact absurd hc (by simp))
        have hkeq : (moveLoop cap e.subject P
            ⟨st.sched, e.hours, min e.hours st.ov, st.ov, true, st.moved⟩).sched.map
              Prod.fst = st.sched.map Prod.fst := moveLoop_map_fst _ _ _ _
        have hcondg : ∀ b ∈ (cond (moveLoop cap e.subject P
            ⟨st.sched, e.hours, min e.hours st.ov, st.ov, true, st.moved⟩).live
            [(⟨e.subject, (moveLoop cap e.subject P
              ⟨st.sched, e.hours, min e.hours st.ov, st.ov, true, st.moved⟩).h⟩ : Block)] []),
            onGrid b.hours ∧ 0 ≤ b.hours := by
          cases hlv : (moveLoop cap e.subject P
              ⟨st.sched, e.hours, min e.hours st.ov, st.ov, true, st.moved⟩).live
          · intro b hb
            rw [Bool.cond_false] at hb
            simp at hb
          · intro b hb
            rw [Bool.cond_true, List.mem_singleton] at hb
            rw [hb]
            exact ⟨m3, le_trans m6 m7⟩
        have hcond_sum : ∀ m, subjSum m (cond (moveLoop cap e.subject P
            ⟨st.sched, e.hours, min e.hours st.ov, st.ov, true, st.moved⟩).live
            [(⟨e.subject, (moveLoop cap e.subject P
              ⟨st.sched, e.hours, min e.hours st.ov, st.ov, true, st.moved⟩).h⟩ : Block)] [])
            = if e.subject = m then (moveLoop cap e.subject P
              ⟨st.sched, e.hours, min e.hours st.ov, st.ov, true, st.moved⟩).h else 0 := by
          intro m
          cases hlv : (moveLoop cap e.subject P
              ⟨st.sched, e.hours, min e.hours st.ov, st.ov, true, st.moved⟩).live
          · rw [Bool.cond_false, subjSum_nil, m9 hlv]
            simp
          · rw [Bool.cond_true, subjSum_single]
        have hcond_used : used (cond (moveLoop cap e.subject P
            ⟨st.sched, e.hours, min e.hours st.ov, st.ov, true, st.moved⟩).live
            [(⟨e.subject, (moveLoop cap e.subject P
              ⟨st.sched, e.hours, min e.hours st.ov, st.ov, true, st.moved⟩).h⟩ : Block)] [])
            = (moveLoop cap e.subject P
              ⟨st.sched, e.hours, min e.hours st.ov, st.ov, true, st.moved⟩).h := by
          cases hlv : (moveLoop cap e.subject P
              ⟨st.sched, e.hours, min e.hours st.ov, st.ov, true, st.moved⟩).live
          · rw [Bool.cond_false, used_nil, m9 hlv]
          · rw [Bool.cond_true, used_cons, used_nil, add_zero]
        obtain ⟨g1, g2, g3, g4, g5, g6, g7, g8, g9, g10, g11⟩ :=
          ih ⟨(moveLoop cap e.subject P
              ⟨st.sched, e.hours, min e.hours st.ov, st.ov, true, st.moved⟩).sched,
            (moveLoop cap e.subject P
              ⟨st.sched, e.hours, min e.hours st.ov, st.ov, true, st.moved⟩).ov,
            st.blocks ++ (cond (moveLoop cap e.subject P
              ⟨st.sched, e.hours, min e.hours st.ov, st.ov, true, st.moved⟩).live
              [(⟨e.subject, (moveLoop cap e.subject P
                ⟨st.sched, e.hours, min e.hours st.ov, st.ov, true, st.moved⟩).h⟩ : Block)] []),
            (moveLoop cap e.subject P
              ⟨st.sched, e.hours, min e.hours st.ov, st.ov, true, st.moved⟩).moved⟩
            (by rw [hkeq]; exact hP) (by rw [hkeq]; exact hknd) m1 m2 hrest
            (by
              intro b hb
              simp only at hb
              rcases List.mem_append.mp hb with hx | hx
              · exact hbl b hx
              · exact hcondg b hx)
            m5 (le_trans m6 m8)
        refine ⟨g1, g2, g3, g4, g5, le_trans g6 m12, ?_, ?_, ?_, ?_, ?_⟩
        · intro m
          rw [g7 m]
          simp only [subjSum_append, subjSum_cons]
          rw [hcond_sum m, m10 m]
          by_cases hm : m = e.subject
          · subst hm
            simp only [eq_self_iff_true, if_true]
            ring
          · rw [if_neg hm, if_neg (fun hc => hm hc.symm), if_neg (fun hc => hm hc.symm)]
            ring
        · rw [g8]
          simp only [used_append, used_cons]
          rw [hcond_used]
          simp only at m11 ⊢
          ring_nf
          linarith [m11]
        · rw [g9]
          simp only at m13 ⊢
          rw [m13]
          ring
        · intro d
          refine le_trans (g10 d) (max_le ?_ (le_max_right _ _))
          exact m14 d
        · simp only at g11 m15 ⊢
          linarith [g11, m15]

theorem max_sub_le_max_sub {a b c : ℚ} (h : a ≤ max b c) :
    max (a - c) 0 ≤ max (b - c) 0 := by
  rcases le_total b c with h1 | h1
  · rw [max_eq_right h1] at h
    have : a - c ≤ 0 := by linarith
    rw [max_eq_right this]
    exact le_max_right _ _
  · rw [max_eq_left h1] at h
    refine max_le ?_ (le_max_right _ _)
    refine le_trans ?_ (le_max_left _ _)
    linarith

/-- On-grid accounting for the handling of one day of the outer loop. -/
theorem processDay_grid (cap : ℤ → ℚ) (hcap : ∀ d, onGrid (cap d)) (keys : List ℤ)
    (hknodup : keys.Nodup) (s : Sched) (day : ℤ)
    (hsub : ∀ p ∈ keys, p ∈ s.map Prod.fst) (hday : day ∈ s.map Prod.fst)
    (hknd : (s.map Prod.fst).Nodup) (hgs : GridSched s) (hns : NonnegSched s) :
    GridSched (processDay cap keys s day).1 ∧
    NonnegSched (processDay cap keys s day).1 ∧
    (∀ m, taskSum (processDay cap keys s day).1 m = taskSum s m) ∧
    (∀ d, dayUsed (processDay cap keys s day).1 d ≤ max (dayUsed s d) (cap d)) ∧
    0 ≤ (processDay cap keys s day).2 ∧
    (processDay cap keys s day).2 ≤ max (dayUsed s day - cap day) 0 ∧
    (∀ d, max (cap d - dayUsed (processDay cap keys s day).1 d) 0
      ≤ max (cap d - dayUsed s d) 0) ∧
    dayUsed (processDay cap keys s day).1 day - cap day
      ≥ (dayUsed s day - cap day)
        - prevFreeSum cap ((keys.filter (fun p => decide (p < day))).reverse) s := by
  have hPnd : ((keys.filter (fun p => decide (p < day))).reverse).Nodup :=
    List.nodup_reverse.mpr (hknodup.filter _)
  have hPsub : ∀ p ∈ (keys.filter (fun p => decide (p < day))).reverse,
      p ∈ s.map Prod.fst := fun p hp => hsub p (mem_prevs hp).1
  have hdaynot : day ∉ (keys.filter (fun p => decide (p < day))).reverse := by
    intro hc
    exact absurd (mem_prevs hc).2 (lt_irrefl day)
  have hbsg : ∀ b ∈ getBlocks s day, onGrid b.hours ∧ 0 ≤ b.hours :=
    fun b hb => ⟨gridSched_getBlocks hgs day b hb, nonnegSched_getBlocks hns day b hb⟩
  have hovg : onGrid (used (getBlocks s day) - cap day) :=
    onGrid_sub (onGrid_used (gridSched_getBlocks hgs day)) (hcap day)
  have hrov : round6 (used (getBlocks s day) - cap day)
      = used (getBlocks s day) - cap day := round6_onGrid hovg
  have hpfs0 : 0 ≤ prevFreeSum cap ((keys.filter (fun p => decide (p < day))).reverse) s :=
    prevFreeSum_nonneg _ _ _
  simp only [processDay]
  rw [hrov]
  by_cases h1 : used (getBlocks s day) - cap day ≤ 1 / 10000
  · rw [if_pos h1]
    refine ⟨hgs, hns, fun m => rfl, fun d => le_max_left _ _, le_refl 0,
      le_max_right _ _, fun d => le_refl _, ?_⟩
    simp only [dayUsed]
    linarith
  · rw [if_neg h1]
    have hovpos : 0 < used (getBlocks s day) - cap day := by
      have := (grid_tenthou_lt hovg).mp (not_le.mp h1)
      exact this
    obtain ⟨e1, e2, e3, e4, e5, e6, e7, e8, e9, e10, e11⟩ :=
      entryLoop_grid cap hcap ((keys.filter (fun p => decide (p < day))).reverse) hPnd
        (getBlocks s day)
        ⟨s, used (getBlocks s day) - cap day, [], 0⟩ hPsub hknd hgs hns hbsg
        (by intro b hb; simp at hb) hovg (le_of_lt hovpos)
    have hkeq : (entryLoop cap ((keys.filter (fun p => decide (p < day))).reverse)
        (getBlocks s day)
        ⟨s, used (getBlocks s day) - cap day, [], 0⟩).sched.map Prod.fst
        = s.map Prod.fst := entryLoop_map_fst _ _ _ _
    have hgbday : getBlocks (entryLoop cap
        ((keys.filter (fun p => decide (p < day))).reverse) (getBlocks s day)
        ⟨s, used (getBlocks s day) - cap day, [], 0⟩).sched day = getBlocks s day :=
      entryLoop_getBlocks_not_mem _ _ _ _ day hdaynot
    have hdaymem : day ∈ (entryLoop cap
        ((keys.filter (fun p => decide (p < day))).reverse) (getBlocks s day)
        ⟨s, used (getBlocks s day) - cap day, [], 0⟩).sched.map Prod.fst := by
      rw [hkeq]
      exact hday
    have hknd2 : ((entryLoop cap ((keys.filter (fun p => decide (p < day))).reverse)
        (getBlocks s day)
        ⟨s, used (getBlocks s day) - cap day, [], 0⟩).sched.map Prod.fst).Nodup := by
      rw [hkeq]
      exact hknd
    have hduday : dayUsed (modifyAt (entryLoop cap
        ((keys.filter (fun p => decide (p < day))).reverse) (getBlocks s day)
        ⟨s, used (getBlocks s day) - cap day, [], 0⟩).sched day
        (fun _ => (entryLoop cap ((keys.filter (fun p => decide (p < day))).reverse)
          (getBlocks s day)
          ⟨s, used (getBlocks s day) - cap day, [], 0⟩).blocks)) day
        = used (entryLoop cap ((keys.filter (fun p => decide (p < day))).reverse)
          (getBlocks s day)
          ⟨s, used (getBlocks s day) - cap day, [], 0⟩).blocks := by
      rw [dayUsed_modifyAt_self _ hdaymem]
    simp only [used_nil, subjSum_nil] at e7 e8
    dsimp only at e6 e9 e11
    refine ⟨?_, ?_, ?_, ?_, ?_, ?_, ?_, ?_⟩
    · intro q hq b hb
      exact blockPres_modifyAt (fun bs0 _ b hb => (e3 b hb).1) e1 q hq b hb
    · intro q hq b hb
      exact blockPres_modifyAt (fun bs0 _ b hb => (e3 b hb).2) e2 q hq b hb
    · intro m
      rw [taskSum_modifyAt _ hknd2 hdaymem, hgbday]
      have := e7 m
      linarith
    · intro d
      rcases eq_or_ne d day with he | he
      · subst he
        rw [hduday]
        refine le_trans ?_ (le_max_left _ _)
        simp only [dayUsed]
        linarith [e6, e8]
      · rw [dayUsed_modifyAt_ne _ he]
        exact e10 d
    · simp only
      linarith [e6, e9]
    · simp only
      refine le_trans ?_ (le_max_left _ _)
      simp only [dayUsed]
      linarith [e5, e6, e9]
    · intro d
      rcases eq_or_ne d day with he | he
      · subst he
        rw [hduday]
        refine max_le ?_ (le_max_right _ _)
        refine le_trans ?_ (le_max_right _ _)
        linarith [e5, e8]
      · rw [dayUsed_modifyAt_ne _ he]
        have hmono : dayUsed s d ≤ dayUsed (entryLoop cap
            ((keys.filter (fun p => decide (p < day))).reverse) (getBlocks s day)
            ⟨s, used (getBlocks s day) - cap day, [], 0⟩).sched d :=
          entryLoop_dayUsed_mono _ _ _ _ d
        refine max_le ?_ (le_max_right _ _)
        refine le_trans ?_ (le_max_left _ _)
        linarith
    · rw [hduday]
      have hpfs2 : 0 ≤ prevFreeSum cap
          ((keys.filter (fun p => decide (p < day))).reverse)
          (entryLoop cap ((keys.filter (fun p => decide (p < day))).reverse)
            (getBlocks s day)
            ⟨s, used (getBlocks s day) - cap day, [], 0⟩).sched :=
        prevFreeSum_nonneg _ _ _
      simp only [dayUsed] at e11 ⊢
      linarith [e8, e11, hpfs2]

theorem ovSum_nil (cap : ℤ → ℚ) (s : Sched) : ovSum cap [] s = 0 := rfl

theorem ovSum_cons (cap : ℤ → ℚ) (d : ℤ) (ds : List ℤ) (s : Sched) :
    ovSum cap (d :: ds) s = max (dayUsed s d - cap d) 0 + ovSum cap ds s := by
  simp [ovSum]

theorem ovSum_mono {cap : ℤ → ℚ} {ds : List ℤ} {s s' : Sched}
    (h : ∀ d ∈ ds, max (dayUsed s' d - cap d) 0 ≤ max (dayUsed s d - cap d) 0) :
    ovSum cap ds s' ≤ ovSum cap ds s := by
  induction ds with
  | nil => simp [ovSum]
  | cons d rest ih =>
    rw [ovSum_cons, ovSum_cons]
    have h1 := h d (List.mem_cons_self d rest)
    have h2 := ih (fun e he => h e (List.mem_cons_of_mem d he))
    linarith

/-- On-grid accounting for the outer redistribution loop: block hours stay
on the grid and nonnegative, per-subject totals are preserved, no day gets
worse than `max used cap`, and the moved accumulator grows by at most the
total initial overload of the processed days. -/
theorem redisMain_grid (cap : ℤ → ℚ) (hcap : ∀ d, onGrid (cap d)) (keys : List ℤ)
    (hknodup : keys.Nodup) :
    ∀ (ds : List ℤ) (s : Sched) (mv : ℚ),
      (∀ p ∈ keys, p ∈ s.map Prod.fst) →
      (∀ d ∈ ds, d ∈ s.map Prod.fst) →
      ((s.map Prod.fst).Nodup) →
      GridSched s → NonnegSched s →
      GridSched (redisMain cap keys ds s mv).1 ∧
      NonnegSched (redisMain cap keys ds s mv).1 ∧
      (∀ m, taskSum (redisMain cap keys ds s mv).1 m = taskSum s m) ∧
      (∀ d, dayUsed (redisMain cap keys ds s mv).1 d ≤ max (dayUsed s d) (cap d)) ∧
      mv ≤ (redisMain cap keys ds s mv).2 ∧
      (redisMain cap keys ds s mv).2 ≤ mv + ovSum cap ds s := by
  intro ds
  induction ds with
  | nil =>
    intro s mv _ _ _ hgs hns
    exact ⟨hgs, hns, fun m => rfl, fun d => le_max_left _ _, le_refl mv,
      by simp only [redisMain, ovSum_nil]; linarith⟩
  | cons d rest ih =>
    intro s mv hkeys hds hnd hgs hns
    obtain ⟨p1, p2, p3, p4, p5, p6, p7, p8⟩ :=
      processDay_grid cap hcap keys hknodup s d hkeys
        (hds d (List.mem_cons_self d rest)) hnd hgs hns
    have hmfst := processDay_map_fst cap keys s d
    have hkeys' : ∀ p ∈ keys, p ∈ (processDay cap keys s d).1.map Prod.fst := by
      intro p hp
      rw [hmfst]
      exact hkeys p hp
    have hds' : ∀ e ∈ rest, e ∈ (processDay cap keys s d).1.map Prod.fst := by
      intro e he
      rw [hmfst]
      exact hds e (List.mem_cons_of_mem d he)
    have hnd' : ((processDay cap keys s d).1.map Prod.fst).Nodup := by
      rw [hmfst]
      exact hnd
    obtain ⟨q1, q2, q3, q4, q5, q6⟩ :=
      ih (processDay cap keys s d).1 (mv + (processDay cap keys s d).2) hkeys' hds' hnd' p1 p2
    have hovm : ovSum cap rest (processDay cap keys s d).1 ≤ ovSum cap rest s :=
      ovSum_mono (fun e _ => max_sub_le_max_sub (p4 e))
    simp only [redisMain]
    refine ⟨q1, q2, ?_, ?_, ?_, ?_⟩
    · intro m
      rw [q3 m, p3 m]
    · intro e
      exact le_trans (q4 e) (max_le (p4 e) (le_max_right _ _))
    · linarith [p5, q5]
    · rw [ovSum_cons]
      linarith [p6, q6, hovm]

theorem prevFreeSum_mono {cap : ℤ → ℚ} {P : List ℤ} {s s' : Sched}
    (h : ∀ p ∈ P, max (cap p - dayUsed s' p) 0 ≤ max (cap p - dayUsed s p) 0) :
    prevFreeSum cap P s' ≤ prevFreeSum cap P s := by
  induction P with
  | nil => rw [prevFreeSum_nil, prevFreeSum_nil]
  | cons p rest ih =>
    rw [prevFreeSum_cons, prevFreeSum_cons]
    have h1 := h p (List.mem_cons_self p rest)
    have h2 := ih (fun q hq => h q (List.mem_cons_of_mem p hq))
    linarith

/-- Residual overload through the outer loop: the overload a day keeps after
the whole redistribution pass is at least its initial overload minus the
initial positive free capacity of the days earlier than it. -/
theorem redisMain_resid (cap : ℤ → ℚ) (hcap : ∀ d, onGrid (cap d)) (keys : List ℤ)
    (hknodup : keys.Nodup) :
    ∀ (ds : List ℤ) (s : Sched) (mv : ℚ) (d : ℤ),
      d ∈ ds → ds.Nodup →
      (∀ p ∈ keys, p ∈ s.map Prod.fst) →
      (∀ e ∈ ds, e ∈ s.map Prod.fst) →
      ((s.map Prod.fst).Nodup) →
      GridSched s → NonnegSched s →
      dayUsed (redisMain cap keys ds s mv).1 d - cap d
        ≥ (dayUsed s d - cap d)
          - prevFreeSum cap ((keys.filter (fun p => decide (p < d))).reverse) s := by
  intro ds
  induction ds with
  | nil =>
    intro s mv d hd
    exact absurd hd (List.not_mem_nil d)
  | cons e rest ih =>
    intro s mv d hd hnd2 hkeys hds hnd hgs hns
    obtain ⟨p1, p2, p3, p4, p5, p6, p7, p8⟩ :=
      processDay_grid cap hcap keys hknodup s e hkeys
        (hds e (List.mem_cons_self e rest)) hnd hgs hns
    have hmfst := processDay_map_fst cap keys s e
    have hkeys' : ∀ p ∈ keys, p ∈ (processDay cap keys s e).1.map Prod.fst := by
      intro p hp
      rw [hmfst]
      exact hkeys p hp
    have hds' : ∀ q ∈ rest, q ∈ (processDay cap keys s e).1.map Prod.fst := by
      intro q hq
      rw [hmfst]
      exact hds q (List.mem_cons_of_mem e hq)
    have hnd' : ((processDay cap keys s e).1.map Prod.fst).Nodup := by
      rw [hmfst]
      exact hnd
    simp only [redisMain]
    rcases List.mem_cons.mp hd with he | hdr
    · subst he
      have hnotin : d ∉ rest := (List.nodup_cons.mp hnd2).1
      have hmono := redisMain_dayUsed_mono cap keys rest (processDay cap keys s d).1
        (mv + (processDay cap keys s d).2) d hnotin
      linarith [p8, hmono]
    · have hnd2' : rest.Nodup := (List.nodup_cons.mp hnd2).2
      have hne : d ≠ e := fun hc => (List.nodup_cons.mp hnd2).1 (hc ▸ hdr)
      have ihh := ih (processDay cap keys s e).1 (mv + (processDay cap keys s e).2)
        d hdr hnd2' hkeys' hds' hnd' p1 p2
      have hmono := processDay_dayUsed_mono cap keys s e d hne
      have hpf : prevFreeSum cap ((keys.filter (fun p => decide (p < d))).reverse)
            (processDay cap keys s e).1
          ≤ prevFreeSum cap ((keys.filter (fun p => decide (p < d))).reverse) s :=
        prevFreeSum_mono (fun p _ => p7 p)
      linarith [ihh, hmono, hpf]


theorem cleanBlocks_used {bs : List Block}
    (h : ∀ b ∈ bs, onGrid b.hours ∧ 0 ≤ b.hours) :
    used ((bs.filter (fun e => decide ((1:ℚ)/1000 < e.hours))).map
      (fun e => ⟨e.subject, round2 e.hours⟩)) = used bs := by
  induction bs with
  | nil => rfl
  | cons b rest ih =>
    have hb := h b (List.mem_cons_self b rest)
    have hrest := ih (fun x hx => h x (List.mem_cons_of_mem b hx))
    by_cases hc : (1:ℚ)/1000 < b.hours
    · rw [List.filter_cons_of_pos (by simpa using hc), List.map_cons, used_cons, used_cons]
      simp only
      rw [round2_onGrid hb.1, hrest]
    · have h0 : b.hours = 0 :=
        le_antisymm ((grid_le_milli hb.1).mp (not_lt.mp hc)) hb.2
      rw [List.filter_cons_of_neg (by simpa using hc), used_cons, hrest, h0]
      ring

theorem cleanBlocks_subjSum {bs : List Block} (m : String)
    (h : ∀ b ∈ bs, onGrid b.hours ∧ 0 ≤ b.hours) :
    subjSum m ((bs.filter (fun e => decide ((1:ℚ)/1000 < e.hours))).map
      (fun e => ⟨e.subject, round2 e.hours⟩)) = subjSum m bs := by
  induction bs with
  | nil => rfl
  | cons b rest ih =>
    have hb := h b (List.mem_cons_self b rest)
    have hrest := ih (fun x hx => h x (List.mem_cons_of_mem b hx))
    by_cases hc : (1:ℚ)/1000 < b.hours
    · rw [List.filter_cons_of_pos (by simpa using hc), List.map_cons, subjSum_cons,
        subjSum_cons]
      simp only
      rw [round2_onGrid hb.1, hrest]
    · have h0 : b.hours = 0 :=
        le_antisymm ((grid_le_milli hb.1).mp (not_lt.mp hc)) hb.2
      rw [List.filter_cons_of_neg (by simpa using hc), subjSum_cons, hrest, h0]
      simp

theorem cleanup_cons (k : ℤ) (bs : List Block) (s : Sched) :
    cleanup ((k, bs) :: s)
      = (k, (bs.filter (fun e => decide ((1:ℚ)/1000 < e.hours))).map
          (fun e => ⟨e.subject, round2 e.hours⟩)) :: cleanup s := rfl

theorem getBlocks_cleanup (s : Sched) (d : ℤ) :
    getBlocks (cleanup s) d
      = ((getBlocks s d).filter (fun e => decide ((1:ℚ)/1000 < e.hours))).map
          (fun e => ⟨e.subject, round2 e.hours⟩) := by
  induction s with
  | nil => rfl
  | cons p rest ih =>
    obtain ⟨k, bs⟩ := p
    rw [cleanup_cons, getBlocks_cons, getBlocks_cons]
    rcases eq_or_ne k d with h | h
    · rw [if_pos h, if_pos h]
    · rw [if_neg h, if_neg h, ih]

theorem cleanup_dayUsed {s : Sched} (hgs : GridSched s) (hns : NonnegSched s)
    (d : ℤ) : dayUsed (cleanup s) d = dayUsed s d := by
  simp only [dayUsed]
  rw [getBlocks_cleanup]
  exact cleanBlocks_used
    (fun b hb => ⟨gridSched_getBlocks hgs d b hb, nonnegSched_getBlocks hns d b hb⟩)

theorem cleanup_taskSum {s : Sched} (hgs : GridSched s) (hns : NonnegSched s)
    (m : String) : taskSum (cleanup s) m = taskSum s m := by
  induction s with
  | nil => rfl
  | cons p rest ih =>
    obtain ⟨k, bs⟩ := p
    rw [cleanup_cons, taskSum_cons, taskSum_cons]
    have hbs : ∀ b ∈ bs, onGrid b.hours ∧ 0 ≤ b.hours := fun b hb =>
      ⟨hgs (k, bs) (List.mem_cons_self _ rest) b hb,
       hns (k, bs) (List.mem_cons_self _ rest) b hb⟩
    rw [ih (fun q hq => hgs q (List.mem_cons_of_mem _ hq))
        (fun q hq => hns q (List.mem_cons_of_mem _ hq))]
    simp only
    rw [cleanBlocks_subjSum m hbs]

theorem cleanup_blocks_grid {s : Sched} (hgs : GridSched s) :
    ∀ p ∈ cleanup s, ∀ b ∈ p.2,
      onGrid b.hours ∧ (1:ℚ)/1000 < b.hours ∧ round2 b.hours = b.hours := by
  intro p hp b hb
  simp only [cleanup, List.mem_map] at hp
  obtain ⟨q, hq, hqe⟩ := hp
  rw [← hqe] at hb
  simp only [List.mem_map, List.mem_filter] at hb
  obtain ⟨e, ⟨he1, he2⟩, he3⟩ := hb
  have heg : onGrid e.hours := hgs q hq e he1
  have hegt : (1:ℚ)/1000 < e.hours := by simpa using he2
  rw [← he3]
  simp only
  rw [round2_onGrid heg]
  exact ⟨heg, hegt, round2_onGrid heg⟩


theorem moveLoop_ma_nonpos (cap : ℤ → ℚ) (subject : String) :
    ∀ (P : List ℤ) (st : MoveSt), st.ma ≤ 0 → moveLoop cap subject P st = st := by
  intro P
  induction P with
  | nil =>
    intro st _
    rfl
  | cons p ps ih =>
    intro st hma
    simp only [moveLoop]
    by_cases h1 : round6 (cap p - used (getBlocks st.sched p)) ≤ 1/10000
    · rw [if_pos h1]
      exact ih st hma
    · rw [if_neg h1]
      have hm : min (round6 (cap p - used (getBlocks st.sched p))) st.ma ≤ 0 :=
        le_trans (min_le_right _ _) hma
      rw [if_pos hm]
      exact ih st hma

theorem moveLoop_noop (cap : ℤ → ℚ) (subject : String) (hcap : ∀ d, onGrid (cap d)) :
    ∀ (P : List ℤ) (st : MoveSt), GridSched st.sched →
      (∀ p ∈ P, cap p - dayUsed st.sched p ≤ 0) →
      moveLoop cap subject P st = st := by
  intro P
  induction P with
  | nil =>
    intro st _ _
    rfl
  | cons p ps ih =>
    intro st hgs hfull
    have hgpf : onGrid (cap p - used (getBlocks st.sched p)) :=
      onGrid_sub (hcap p) (onGrid_used (gridSched_getBlocks hgs p))
    have hle : round6 (cap p - used (getBlocks st.sched p)) ≤ 1/10000 := by
      rw [round6_onGrid hgpf]
      have hf := hfull p (List.mem_cons_self p ps)
      simp only [dayUsed] at hf
      linarith
    simp only [moveLoop]
    rw [if_pos hle]
    exact ih st hgs (fun q hq => hfull q (List.mem_cons_of_mem p hq))

theorem entryLoop_ov_nonpos (cap : ℤ → ℚ) (P : List ℤ) :
    ∀ (es : List Block) (st : EntrySt), st.ov ≤ 0 →
      entryLoop cap P es st = ⟨st.sched, st.ov, st.blocks ++ es, st.moved⟩ := by
  intro es
  induction es with
  | nil =>
    intro st hov
    cases st
    simp [entryLoop]
  | cons e es ih =>
    intro st hov
    simp only [entryLoop]
    rw [if_pos hov]

theorem entryLoop_noop (cap : ℤ → ℚ) (hcap : ∀ d, onGrid (cap d)) (P : List ℤ) :
    ∀ (es : List Block) (st : EntrySt), GridSched st.sched →
      (∀ p ∈ P, cap p - dayUsed st.sched p ≤ 0) →
      entryLoop cap P es st = ⟨st.sched, st.ov, st.blocks ++ es, st.moved⟩ := by
  intro es
  induction es with
  | nil =>
    intro st _ _
    cases st
    simp [entryLoop]
  | cons e es ih =>
    intro st hgs hfull
    simp only [entryLoop]
    by_cases h1 : st.ov ≤ 0
    · rw [if_pos h1]
    · rw [if_neg h1]
      by_cases h2 : e.hours ≤ 1/1000
      · rw [if_pos h2]
        rw [ih ⟨st.sched, st.ov, st.blocks ++ [e], st.moved⟩ hgs hfull]
        simp [List.append_assoc]
      · rw [if_neg h2]
        rw [moveLoop_noop cap e.subject hcap P
          ⟨st.sched, e.hours, min e.hours st.ov, st.ov, true, st.moved⟩ hgs hfull]
        have hbe : (⟨e.subject, e.hours⟩ : Block) = e := rfl
        simp only [Bool.cond_true, hbe]
        rw [ih ⟨st.sched, st.ov, st.blocks ++ [e], st.moved⟩ hgs hfull]
        simp [List.append_assoc]

theorem processDay_noop (cap : ℤ → ℚ) (hcap : ∀ d, onGrid (cap d)) (keys : List ℤ)
    (s : Sched) (day : ℤ) (hnd : (s.map Prod.fst).Nodup) (hgs : GridSched s)
    (hres : ResolvedAt cap keys s day) :
    processDay cap keys s day = (s, 0) := by
  have hovg : onGrid (used (getBlocks s day) - cap day) :=
    onGrid_sub (onGrid_used (gridSched_getBlocks hgs day)) (hcap day)
  simp only [processDay]
  rw [round6_onGrid hovg]
  rcases hres with hres | hres
  · rw [if_pos (by simp only [dayUsed] at hres; linarith)]
  · by_cases h1 : used (getBlocks s day) - cap day ≤ 1/10000
    · rw [if_pos h1]
    · rw [if_neg h1]
      have hfull : ∀ p ∈ (keys.filter (fun p => decide (p < day))).reverse,
          cap p - dayUsed s p ≤ 0 :=
        fun p hp => hres p (mem_prevs hp).1 (mem_prevs hp).2
      rw [entryLoop_noop cap hcap _ (getBlocks s day)
        ⟨s, used (getBlocks s day) - cap day, [], 0⟩ hgs hfull]
      simp only [List.nil_append]
      rw [modifyAt_getBlocks_self hnd]

theorem redisMain_noop (cap : ℤ → ℚ) (hcap : ∀ d, onGrid (cap d)) (keys : List ℤ) :
    ∀ (ds : List ℤ) (s : Sched) (mv : ℚ),
      (s.map Prod.fst).Nodup → GridSched s →
      (∀ d ∈ ds, ResolvedAt cap keys s d) →
      redisMain cap keys ds s mv = (s, mv) := by
  intro ds
  induction ds with
  | nil =>
    intro s mv _ _ _
    rfl
  | cons d rest ih =>
    intro s mv hnd hgs hres
    simp only [redisMain]
    rw [processDay_noop cap hcap keys s d hnd hgs (hres d (List.mem_cons_self d rest))]
    simp only [add_zero]
    exact ih s mv hnd hgs (fun e he => hres e (List.mem_cons_of_mem d he))

theorem map_round2_id : ∀ {bs : List Block},
    (∀ b ∈ bs, round2 b.hours = b.hours) →
    bs.map (fun e => (⟨e.subject, round2 e.hours⟩ : Block)) = bs := by
  intro bs
  induction bs with
  | nil =>
    intro _
    rfl
  | cons b bt ih =>
    intro h
    rw [List.map_cons, h b (List.mem_cons_self b bt),
      ih (fun x hx => h x (List.mem_cons_of_mem b hx))]

theorem cleanup_id {s : Sched}
    (h : ∀ p ∈ s, ∀ b ∈ p.2, (1:ℚ)/1000 < b.hours ∧ round2 b.hours = b.hours) :
    cleanup s = s := by
  induction s with
  | nil => rfl
  | cons p rest ih =>
    obtain ⟨k, bs⟩ := p
    rw [cleanup_cons]
    have hbs := h (k, bs) (List.mem_cons_self _ rest)
    have hfe : bs.filter (fun e => decide ((1:ℚ)/1000 < e.hours)) = bs :=
      List.filter_eq_self.mpr (fun b hb => decide_eq_true (hbs b hb).1)
    rw [hfe, map_round2_id (fun b hb => (hbs b hb).2),
      ih (fun q hq => h q (List.mem_cons_of_mem _ hq))]


/-- After the inner loop, if overload remains then either the entry is
exhausted or every candidate earlier day ends up full. -/
theorem moveLoop_post (cap : ℤ → ℚ) (subject : String) (hcap : ∀ d, onGrid (cap d)) :
    ∀ (P : List ℤ) (st : MoveSt),
      (∀ p ∈ P, p ∈ st.sched.map Prod.fst) →
      GridSched st.sched → onGrid st.h → onGrid st.ma → onGrid st.ov →
      0 < (moveLoop cap subject P st).ov →
      (moveLoop cap subject P st).ma ≤ 0 ∨
        ∀ p ∈ P, cap p - dayUsed (moveLoop cap subject P st).sched p ≤ 0 := by
  intro P
  induction P with
  | nil =>
    intro st _ _ _ _ _ _
    exact Or.inr (fun p hp => absurd hp (List.not_mem_nil p))
  | cons p ps ih =>
    intro st hP hgs hh hma hov hpos
    have hpmem : p ∈ st.sched.map Prod.fst := hP p (by simp)
    have hPs : ∀ q ∈ ps, q ∈ st.sched.map Prod.fst :=
      fun q hq => hP q (List.mem_cons_of_mem _ hq)
    have hgpf : onGrid (cap p - used (getBlocks st.sched p)) :=
      onGrid_sub (hcap p) (onGrid_used (gridSched_getBlocks hgs p))
    have hpfe : round6 (cap p - used (getBlocks st.sched p))
        = cap p - used (getBlocks st.sched p) := round6_onGrid hgpf
    simp only [moveLoop] at hpos ⊢
    rw [hpfe] at hpos ⊢
    by_cases h1 : cap p - used (getBlocks st.sched p) ≤ 1 / 10000
    · rw [if_pos h1] at hpos ⊢
      rcases ih st hPs hgs hh hma hov hpos with hl | hr
      · exact Or.inl hl
      · refine Or.inr ?_
        intro q hq
        rcases List.mem_cons.mp hq with he | hq2
        · subst he
          have hfree : cap q - used (getBlocks st.sched q) ≤ 0 :=
            (grid_le_tenthou hgpf).mp h1
          have hmono := moveLoop_dayUsed_mono cap subject ps st q
          simp only [dayUsed] at hmono ⊢
          linarith
        · exact hr q hq2
    · rw [if_neg h1] at hpos ⊢
      have htakeg : onGrid (min (cap p - used (getBlocks st.sched p)) st.ma) :=
        onGrid_min hgpf hma
      by_cases h2 : min (cap p - used (getBlocks st.sched p)) st.ma ≤ 0
      · rw [if_pos h2] at hpos ⊢
        have hma0 : st.ma ≤ 0 := by
          rcases le_total (cap p - used (getBlocks st.sched p)) st.ma with hc | hc
          · rw [min_eq_left hc] at h2
            linarith [not_le.mp h1]
          · rw [min_eq_right hc] at h2
            exact h2
        rw [moveLoop_ma_nonpos cap subject ps st hma0] at hpos ⊢
        exact Or.inl hma0
      · rw [if_neg h2] at hpos ⊢
        rw [round2_onGrid htakeg, round2_onGrid (onGrid_sub hh htakeg),
          round2_onGrid (onGrid_sub hma htakeg), round2_onGrid (onGrid_sub hov htakeg)]
          at hpos ⊢
        by_cases h3 : st.ov - min (cap p - used (getBlocks st.sched p)) st.ma ≤ 0
        · rw [if_pos h3] at hpos ⊢
          simp only at hpos
          linarith
        · rw [if_neg h3] at hpos ⊢
          rcases le_total st.ma (cap p - used (getBlocks st.sched p)) with hc | hc
          · have hmz : (st.ma - min (cap p - used (getBlocks st.sched p)) st.ma) ≤ 0 := by
              rw [min_eq_right hc]
              linarith
            rw [moveLoop_ma_nonpos cap subject ps
              ⟨modifyAt st.sched p (fun bs => bs ++
                  [(⟨subject, min (cap p - used (getBlocks st.sched p)) st.ma⟩ : Block)]),
                st.h - min (cap p - used (getBlocks st.sched p)) st.ma,
                st.ma - min (cap p - used (getBlocks st.sched p)) st.ma,
                st.ov - min (cap p - used (getBlocks st.sched p)) st.ma,
                st.live && ! decide (st.h
                  - min (cap p - used (getBlocks st.sched p)) st.ma ≤ 1 / 10000),
                st.moved + min (cap p - used (getBlocks st.sched p)) st.ma⟩ hmz]
              at hpos ⊢
            exact Or.inl hmz
          · have htke : min (cap p - used (getBlocks st.sched p)) st.ma
                = cap p - used (getBlocks st.sched p) := min_eq_left hc
            have hg1 : GridSched (modifyAt st.sched p (fun bs => bs ++
                [⟨subject, min (cap p - used (getBlocks st.sched p)) st.ma⟩])) := by
              refine blockPres_modifyAt ?_ hgs
              intro bs hbs b hb
              rcases List.mem_append.mp hb with hx | hx
              · exact hbs b hx
              · rw [List.mem_singleton.mp hx]
                exact htakeg
            have hkeq : (modifyAt st.sched p (fun bs => bs ++
                [⟨subject, min (cap p - used (getBlocks st.sched p)) st.ma⟩])).map Prod.fst
                = st.sched.map Prod.fst := modifyAt_map_fst _ _ _
            rcases ih ⟨modifyAt st.sched p (fun bs => bs ++
                  [⟨subject, min (cap p - used (getBlocks st.sched p)) st.ma⟩]),
                st.h - min (cap p - used (getBlocks st.sched p)) st.ma,
                st.ma - min (cap p - used (getBlocks st.sched p)) st.ma,
                st.ov - min (cap p - used (getBlocks st.sched p)) st.ma,
                st.live && ! decide (st.h
                  - min (cap p - used (getBlocks st.sched p)) st.ma ≤ 1 / 10000),
                st.moved + min (cap p - used (getBlocks st.sched p)) st.ma⟩
                (by rw [hkeq]; exact hPs) hg1 (onGrid_sub hh htakeg)
                (onGrid_sub hma htakeg) (onGrid_sub hov htakeg) hpos with hl | hr
            · exact Or.inl hl
            · refine Or.inr ?_
              intro q hq
              rcases List.mem_cons.mp hq with he | hq2
              · subst he
                have hdu : dayUsed (modifyAt st.sched q (fun bs => bs ++
                    [⟨subject, min (cap q - used (getBlocks st.sched q)) st.ma⟩])) q
                    = dayUsed st.sched q
                      + min (cap q - used (getBlocks st.sched q)) st.ma :=
                  dayUsed_append_self _ hpmem
                have hmono := moveLoop_dayUsed_mono cap subject ps
                  ⟨modifyAt st.sched q (fun bs => bs ++
                      [⟨subject, min (cap q - used (getBlocks st.sched q)) st.ma⟩]),
                    st.h - min (cap q - used (getBlocks st.sched q)) st.ma,
                    st.ma - min (cap q - used (getBlocks st.sched q)) st.ma,
                    st.ov - min (cap q - used (getBlocks st.sched q)) st.ma,
                    st.live && ! decide (st.h
                      - min (cap q - used (getBlocks st.sched q)) st.ma ≤ 1 / 10000),
                    st.moved + min (cap q - used (getBlocks st.sched q)) st.ma⟩ q
                simp only at hmono
                rw [hdu] at hmono
                simp only [dayUsed] at hmono ⊢
                linarith [htke]
              · exact hr q hq2


set_option maxHeartbeats 1000000 in
/-- After the loop over a day's entries, if overload remains (and the
entries could in principle absorb it), every candidate earlier day is full. -/
theorem entryLoop_post (cap : ℤ → ℚ) (hcap : ∀ d, onGrid (cap d)) (P : List ℤ)
    (hPnd : P.Nodup) :
    ∀ (es : List Block) (st : EntrySt),
      (∀ p ∈ P, p ∈ st.sched.map Prod.fst) →
      (st.sched.map Prod.fst).Nodup →
      GridSched st.sched → NonnegSched st.sched →
      (∀ b ∈ es, onGrid b.hours ∧ 0 ≤ b.hours) →
      onGrid st.ov →
      st.ov ≤ used es →
      0 < (entryLoop cap P es st).ov →
      ∀ p ∈ P, cap p - dayUsed (entryLoop cap P es st).sched p ≤ 0 := by
  intro es
  induction es with
  | nil =>
    intro st _ _ _ _ _ _ hove hpos
    exact absurd hpos (not_lt.mpr (le_trans hove (le_of_eq used_nil)))
  | cons e es ih =>
    intro st hP hknd hgs hns hes hov hove hpos
    have hee := hes e (List.mem_cons_self e es)
    have hest : ∀ b ∈ es, onGrid b.hours ∧ 0 ≤ b.hours :=
      fun b hb => hes b (List.mem_cons_of_mem e hb)
    simp only [entryLoop] at hpos ⊢
    by_cases h1 : st.ov ≤ 0
    · rw [if_pos h1] at hpos ⊢
      intro p hp
      exfalso
      simp only at hpos
      linarith
    · rw [if_neg h1] at hpos ⊢
      have hov0 : 0 < st.ov := not_le.mp h1
      by_cases h2 : e.hours ≤ 1/1000
      · rw [if_pos h2] at hpos ⊢
        have he0 : e.hours = 0 := le_antisymm ((grid_le_milli hee.1).mp h2) hee.2
        have hove2 : st.ov ≤ used es := by
          rw [used_cons, he0] at hove
          linarith
        exact ih ⟨st.sched, st.ov, st.blocks ++ [e], st.moved⟩
          hP hknd hgs hns hest hov hove2 hpos
      · rw [if_neg h2] at hpos ⊢
        obtain ⟨g1, g2, g3, g4, g5, g6, g7, g8, g9, g10, g11, g12, g13, g14, g15, g16⟩ :=
          moveLoop_grid cap e.subject hcap P
            ⟨st.sched, e.hours, min e.hours st.ov, st.ov, true, st.moved⟩
            hPnd hP hknd hgs hns hee.1 (onGrid_min hee.1 hov) hov
            (le_min hee.2 (le_of_lt hov0)) (min_le_left _ _) (min_le_right _ _)
            (by intro hc; simp at hc)
        have hmfst := moveLoop_map_fst cap e.subject P
          ⟨st.sched, e.hours, min e.hours st.ov, st.ov, true, st.moved⟩
        have hpost := moveLoop_post cap e.subject hcap P
          ⟨st.sched, e.hours, min e.hours st.ov, st.ov, true, st.moved⟩
          hP hgs hee.1 (onGrid_min hee.1 hov) hov
        generalize hgen : moveLoop cap e.subject P
          ⟨st.sched, e.hours, min e.hours st.ov, st.ov, true, st.moved⟩ = r
          at g1 g2 g5 g6 g16 hmfst hpost hpos ⊢
        by_cases hro : r.ov ≤ 0
        · rw [entryLoop_ov_nonpos cap P es _ hro] at hpos
          intro p hp
          exfalso
          simp only at hpos
          linarith
        · rcases hpost (not_le.mp hro) with hma0 | hfull
          · have hmaz : r.ma = 0 := le_antisymm hma0 g6
            rw [hmaz] at g16
            rcases le_total e.hours st.ov with hc | hc
            · have hove2 : r.ov ≤ used es := by
                have hmineq : min e.hours st.ov = e.hours := min_eq_left hc
                rw [used_cons] at hove
                linarith [hmineq]
              have hP2 : ∀ p ∈ P, p ∈ List.map Prod.fst r.sched := by
                rw [hmfst]
                exact hP
              have hknd2 : (List.map Prod.fst r.sched).Nodup := by
                rw [hmfst]
                exact hknd
              exact ih _ hP2 hknd2 g1 g2 hest g5 hove2 hpos
            · exfalso
              have hmineq : min e.hours st.ov = st.ov := min_eq_right hc
              linarith [hmineq]
          · intro p hp
            have hmono := entryLoop_dayUsed_mono cap P es
              ⟨r.sched, r.ov,
                st.blocks ++ (cond r.live [⟨e.subject, r.h⟩] []), r.moved⟩ p
            simp only at hmono
            linarith [hfull p hp]


theorem mem_prevs_iff {keys : List ℤ} {day p : ℤ} :
    p ∈ (keys.filter (fun q => decide (q < day))).reverse ↔ p ∈ keys ∧ p < day := by
  rw [List.mem_reverse, List.mem_filter]
  simp

/-- After one day is processed it is settled: within capacity, or all
earlier days are full. -/
theorem processDay_resolved (cap : ℤ → ℚ) (hcap : ∀ d, onGrid (cap d))
    (hcap0 : ∀ d, 0 ≤ cap d) (keys : List ℤ) (hknodup : keys.Nodup)
    (s : Sched) (day : ℤ)
    (hsub : ∀ p ∈ keys, p ∈ s.map Prod.fst) (hday : day ∈ s.map Prod.fst)
    (hknd : (s.map Prod.fst).Nodup) (hgs : GridSched s) (hns : NonnegSched s) :
    ResolvedAt cap keys (processDay cap keys s day).1 day := by
  have hPnd : ((keys.filter (fun p => decide (p < day))).reverse).Nodup :=
    List.nodup_reverse.mpr (hknodup.filter _)
  have hPsub : ∀ p ∈ (keys.filter (fun p => decide (p < day))).reverse,
      p ∈ s.map Prod.fst := fun p hp => hsub p (mem_prevs hp).1
  have hdaynot : day ∉ (keys.filter (fun p => decide (p < day))).reverse := by
    intro hc
    exact absurd (mem_prevs hc).2 (lt_irrefl day)
  have hbsg : ∀ b ∈ getBlocks s day, onGrid b.hours ∧ 0 ≤ b.hours :=
    fun b hb => ⟨gridSched_getBlocks hgs day b hb, nonnegSched_getBlocks hns day b hb⟩
  have hovg : onGrid (used (getBlocks s day) - cap day) :=
    onGrid_sub (onGrid_used (gridSched_getBlocks hgs day)) (hcap day)
  simp only [processDay]
  rw [round6_onGrid hovg]
  by_cases h1 : used (getBlocks s day) - cap day ≤ 1 / 10000
  · rw [if_pos h1]
    left
    have h0 := (grid_le_tenthou hovg).mp h1
    simp only [dayUsed]
    linarith
  · rw [if_neg h1]
    have hovpos : 0 < used (getBlocks s day) - cap day :=
      (grid_tenthou_lt hovg).mp (not_le.mp h1)
    have hove : used (getBlocks s day) - cap day ≤ used (getBlocks s day) := by
      have := hcap0 day
      linarith
    by_cases h2 : 0 < (entryLoop cap ((keys.filter (fun p => decide (p < day))).reverse)
        (getBlocks s day) ⟨s, used (getBlocks s day) - cap day, [], 0⟩).ov
    · right
      intro p hp hplt
      have hfull := entryLoop_post cap hcap
        ((keys.filter (fun p => decide (p < day))).reverse) hPnd
        (getBlocks s day) ⟨s, used (getBlocks s day) - cap day, [], 0⟩
        hPsub hknd hgs hns hbsg hovg hove h2 p (mem_prevs_iff.mpr ⟨hp, hplt⟩)
      rw [dayUsed_modifyAt_ne _ (ne_of_lt hplt)]
      exact hfull
    · left
      obtain ⟨e1, e2, e3, e4, e5, e6, e7, e8, e9, e10, e11⟩ :=
        entryLoop_grid cap hcap ((keys.filter (fun p => decide (p < day))).reverse) hPnd
          (getBlocks s day)
          ⟨s, used (getBlocks s day) - cap day, [], 0⟩ hPsub hknd hgs hns hbsg
          (by intro b hb; simp at hb) hovg (le_of_lt hovpos)
      have hkeq := entryLoop_map_fst cap
        ((keys.filter (fun p => decide (p < day))).reverse) (getBlocks s day)
        ⟨s, used (getBlocks s day) - cap day, [], 0⟩
      have hdaymem : day ∈ (entryLoop cap
          ((keys.filter (fun p => decide (p < day))).reverse) (getBlocks s day)
          ⟨s, used (getBlocks s day) - cap day, [], 0⟩).sched.map Prod.fst := by
        rw [hkeq]
        exact hday
      rw [dayUsed_modifyAt_self _ hdaymem]
      simp only [used_nil, subjSum_nil] at e8
      have hro : (entryLoop cap ((keys.filter (fun p => decide (p < day))).reverse)
          (getBlocks s day) ⟨s, used (getBlocks s day) - cap day, [], 0⟩).ov ≤ 0 :=
        not_lt.mp h2
      linarith

theorem resolvedAt_step {cap : ℤ → ℚ} {keys : List ℤ} {s s' : Sched} {d : ℤ}
    (h4 : ∀ q, dayUsed s' q ≤ max (dayUsed s q) (cap q))
    (h7 : ∀ q, max (cap q - dayUsed s' q) 0 ≤ max (cap q - dayUsed s q) 0)
    (hres : ResolvedAt cap keys s d) : ResolvedAt cap keys s' d := by
  rcases hres with hres | hres
  · left
    have hd := h4 d
    rw [max_eq_right (by linarith)] at hd
    linarith
  · right
    intro p hp hplt
    have h2 := hres p hp hplt
    have h1 := h7 p
    rw [max_eq_right h2] at h1
    have h3 : cap p - dayUsed s' p ≤ max (cap p - dayUsed s' p) 0 := le_max_left _ _
    linarith

/-- The outer loop settles every day it processes, and settled days stay
settled. -/
theorem redisMain_establishes (cap : ℤ → ℚ) (hcap : ∀ d, onGrid (cap d))
    (hcap0 : ∀ d, 0 ≤ cap d) (keys : List ℤ) (hknodup : keys.Nodup) :
    ∀ (ds : List ℤ) (s : Sched) (mv : ℚ),
      (∀ p ∈ keys, p ∈ s.map Prod.fst) →
      (∀ d ∈ ds, d ∈ s.map Prod.fst) →
      ((s.map Prod.fst).Nodup) →
      GridSched s → NonnegSched s →
      (∀ d ∈ keys, d ∉ ds → ResolvedAt cap keys s d) →
      ∀ d ∈ keys, ResolvedAt cap keys (redisMain cap keys ds s mv).1 d := by
  intro ds
  induction ds with
  | nil =>
    intro s mv _ _ _ _ _ hre d hd
    exact hre d hd (List.not_mem_nil d)
  | cons e rest ih =>
    intro s mv hkeys hds hnd hgs hns hre
    obtain ⟨p1, p2, p3, p4, p5, p6, p7, p8⟩ :=
      processDay_grid cap hcap keys hknodup s e hkeys
        (hds e (List.mem_cons_self e rest)) hnd hgs hns
    have hmfst := processDay_map_fst cap keys s e
    have hkeys2 : ∀ p ∈ keys, p ∈ (processDay cap keys s e).1.map Prod.fst := by
      intro p hp
      rw [hmfst]
      exact hkeys p hp
    have hds2 : ∀ q ∈ rest, q ∈ (processDay cap keys s e).1.map Prod.fst := by
      intro q hq
      rw [hmfst]
      exact hds q (List.mem_cons_of_mem e hq)
    have hnd2 : ((processDay cap keys s e).1.map Prod.fst).Nodup := by
      rw [hmfst]
      exact hnd
    have hre2 : ∀ d ∈ keys, d ∉ rest →
        ResolvedAt cap keys (processDay cap keys s e).1 d := by
      intro d hd hdr
      by_cases hde : d = e
      · subst hde
        exact processDay_resolved cap hcap hcap0 keys hknodup s d hkeys
          (hds d (List.mem_cons_self d rest)) hnd hgs hns
      · exact resolvedAt_step p4 p7
          (hre d hd (fun hc => (List.mem_cons.mp hc).elim hde hdr))
    simp only [redisMain]
    exact ih _ _ hkeys2 hds2 hnd2 p1 p2 hre2


theorem capOf_nonneg {a : Avail} (h : ∀ p ∈ a, 0 ≤ p.2) (d : ℤ) : 0 ≤ capOf a d := by
  unfold StudyPlanner.capOf availGet
  cases hl : a.lookup (weekdayName d) with
  | none => simp
  | some q =>
    have hm : (weekdayName d, q) ∈ a := mem_of_lookup_eq_some hl
    simpa using h _ hm

/-- On the grid, a second redistribution pass is the identity. -/
theorem redistribute_idem (s : Sched) (a : Avail)
    (hnd : (s.map Prod.fst).Nodup) (hgs : GridSched s) (hns : NonnegSched s)
    (hga : GridAvail a) (hna : ∀ p ∈ a, 0 ≤ p.2) :
    detect_and_redistribute_clashes (detect_and_redistribute_clashes s a) a
      = detect_and_redistribute_clashes s a := by
  by_cases hemp : s.isEmpty
  · have h1 : detect_and_redistribute_clashes s a = s := by
      simp only [detect_and_redistribute_clashes, if_pos hemp]
    rw [h1, h1]
  · have hcapg : ∀ d, onGrid (capOf a d) := fun d => hga.capOf d
    have hcap0 : ∀ d, 0 ≤ capOf a d := fun d => capOf_nonneg hna d
    obtain ⟨q1, q2, q3, q4, q5, q6⟩ :=
      redisMain_grid (capOf a) hcapg (s.map Prod.fst) hnd (s.map Prod.fst) s 0
        (fun p hp => hp) (fun d hd => hd) hnd hgs hns
    have hres : ∀ d ∈ s.map Prod.fst,
        ResolvedAt (capOf a) (s.map Prod.fst)
          (redisMain (capOf a) (s.map Prod.fst) (s.map Prod.fst) s 0).1 d :=
      redisMain_establishes (capOf a) hcapg hcap0 (s.map Prod.fst) hnd
        (s.map Prod.fst) s 0 (fun p hp => hp) (fun d hd => hd) hnd hgs hns
        (fun d hd hnd2 => absurd hd hnd2)
    have hmfst1 : (redisMain (capOf a) (s.map Prod.fst)
        (s.map Prod.fst) s 0).1.map Prod.fst = s.map Prod.fst :=
      redisMain_map_fst _ _ _ _ _
    have hclean := cleanup_blocks_grid q1
    have hgs1 : GridSched (cleanup
        (redisMain (capOf a) (s.map Prod.fst) (s.map Prod.fst) s 0).1) :=
      fun p hp b hb => (hclean p hp b hb).1
    have hns1 : NonnegSched (cleanup
        (redisMain (capOf a) (s.map Prod.fst) (s.map Prod.fst) s 0).1) :=
      fun p hp b hb =>
        le_of_lt (lt_trans (by norm_num) (hclean p hp b hb).2.1)
    have hmfstc : (cleanup (redisMain (capOf a) (s.map Prod.fst)
        (s.map Prod.fst) s 0).1).map Prod.fst = s.map Prod.fst := by
      rw [cleanup_map_fst, hmfst1]
    have hnd1 : ((cleanup (redisMain (capOf a) (s.map Prod.fst)
        (s.map Prod.fst) s 0).1).map Prod.fst).Nodup := by
      rw [hmfstc]
      exact hnd
    have hdu : ∀ d, dayUsed (cleanup (redisMain (capOf a) (s.map Prod.fst)
        (s.map Prod.fst) s 0).1) d
        = dayUsed (redisMain (capOf a) (s.map Prod.fst)
          (s.map Prod.fst) s 0).1 d := cleanup_dayUsed q1 q2
    have hres1 : ∀ d ∈ (cleanup (redisMain (capOf a) (s.map Prod.fst)
          (s.map Prod.fst) s 0).1).map Prod.fst,
        ResolvedAt (capOf a) ((cleanup (redisMain (capOf a) (s.map Prod.fst)
          (s.map Prod.fst) s 0).1).map Prod.fst)
          (cleanup (redisMain (capOf a) (s.map Prod.fst)
            (s.map Prod.fst) s 0).1) d := by
      rw [hmfstc]
      intro d hd
      rcases hres d hd with h | h
      · left
        rw [hdu d]
        exact h
      · right
        intro p hp hplt
        rw [hdu p]
        exact h p hp hplt
    have hemp1 : ¬ (cleanup (redisMain (capOf a) (s.map Prod.fst)
        (s.map Prod.fst) s 0).1).isEmpty = true := by
      intro hc
      rw [List.isEmpty_iff] at hc
      apply hemp
      rw [List.isEmpty_iff]
      have hm2 := hmfstc
      rw [hc] at hm2
      cases s with
      | nil => rfl
      | cons p t => simp at hm2
    have hD1 : detect_and_redistribute_clashes s a
        = cleanup (redisMain (capOf a) (s.map Prod.fst)
          (s.map Prod.fst) s 0).1 := by
      simp only [detect_and_redistribute_clashes, if_neg hemp]
    rw [hD1]
    simp only [detect_and_redistribute_clashes, if_neg hemp1]
    rw [redisMain_noop (capOf a) hcapg _ _ _ 0 hnd1 hgs1 hres1]
    exact cleanup_id (fun p hp b hb =>
      ⟨(hclean p hp b hb).2.1, (hclean p hp b hb).2.2⟩)


theorem mem_dateList {start endd d : ℤ} :
    d ∈ dateList start endd ↔ start ≤ d ∧ d ≤ endd := by
  simp only [dateList, List.mem_map, List.mem_range]
  constructor
  · rintro ⟨i, hi, rfl⟩
    omega
  · intro h
    exact ⟨(d - start).toNat, by omega, by omega⟩

theorem dateList_nodup (start endd : ℤ) : (dateList start endd).Nodup := by
  simp only [dateList]
  refine List.Nodup.map ?_ (List.nodup_range _)
  intro i j hij
  simp only at hij
  omega

theorem build_calendar_slots_cap {a : Avail} {start endd : ℤ} :
    ∀ p ∈ build_calendar_slots a start endd,
      p.2 = availGet a (weekdayName p.1) := by
  intro p hp
  simp only [build_calendar_slots, List.mem_map] at hp
  obtain ⟨d, hd, rfl⟩ := hp
  rfl

theorem build_calendar_slots_keys (a : Avail) (start endd : ℤ) :
    (build_calendar_slots a start endd).map Prod.fst = dateList start endd := by
  simp only [build_calendar_slots, List.map_map]
  exact List.map_id _


/-- Without any grid hypothesis: the inner loop keeps every stored block
nonnegative, and keeps `0 ≤ ma ≤ h`. -/
theorem moveLoop_nonneg (cap : ℤ → ℚ) (subject : String) :
    ∀ (P : List ℤ) (st : MoveSt),
      NonnegSched st.sched → 0 ≤ st.ma → st.ma ≤ st.h →
      NonnegSched (moveLoop cap subject P st).sched ∧
      0 ≤ (moveLoop cap subject P st).ma ∧
      (moveLoop cap subject P st).ma ≤ (moveLoop cap subject P st).h := by
  intro P
  induction P with
  | nil =>
    intro st hns hma0 hmah
    exact ⟨hns, hma0, hmah⟩
  | cons p ps ih =>
    intro st hns hma0 hmah
    simp only [moveLoop]
    by_cases h1 : round6 (cap p - used (getBlocks st.sched p)) ≤ 1 / 10000
    · rw [if_pos h1]
      exact ih st hns hma0 hmah
    · rw [if_neg h1]
      by_cases h2 : min (round6 (cap p - used (getBlocks st.sched p))) st.ma ≤ 0
      · rw [if_pos h2]
        exact ih st hns hma0 hmah
      · rw [if_neg h2]
        push_neg at h2
        have hns2 : NonnegSched (modifyAt st.sched p (fun bs => bs ++
            [⟨subject, round2 (min (round6 (cap p
              - used (getBlocks st.sched p))) st.ma)⟩])) := by
          refine blockPres_modifyAt ?_ hns
          intro bs hbs b hb
          rcases List.mem_append.mp hb with hx | hx
          · exact hbs b hx
          · rw [List.mem_singleton.mp hx]
            exact round2_nonneg (le_of_lt h2)
        have hma2 : 0 ≤ round2 (st.ma
            - min (round6 (cap p - used (getBlocks st.sched p))) st.ma) :=
          round2_nonneg (by simp [min_le_right])
        have hmah2 : round2 (st.ma
              - min (round6 (cap p - used (getBlocks st.sched p))) st.ma)
            ≤ round2 (st.h
              - min (round6 (cap p - used (getBlocks st.sched p))) st.ma) :=
          round2_le_round2 (by linarith)
        by_cases h3 : round2 (st.ov
            - min (round6 (cap p - used (getBlocks st.sched p))) st.ma) ≤ 0
        · rw [if_pos h3]
          exact ⟨hns2, hma2, hmah2⟩
        · rw [if_neg h3]
          exact ih _ hns2 hma2 hmah2

/-- Without any grid hypothesis: the entry loop keeps the schedule and the
rebuilt block list nonnegative. -/
theorem entryLoop_nonneg (cap : ℤ → ℚ) (P : List ℤ) :
    ∀ (es : List Block) (st : EntrySt),
      NonnegSched st.sched →
      (∀ b ∈ es, 0 ≤ b.hours) →
      (∀ b ∈ st.blocks, 0 ≤ b.hours) →
      NonnegSched (entryLoop cap P es st).sched ∧
      (∀ b ∈ (entryLoop cap P es st).blocks, 0 ≤ b.hours) := by
  intro es
  induction es with
  | nil =>
    intro st hns _ hbl
    exact ⟨hns, hbl⟩
  | cons e es ih =>
    intro st hns hes hbl
    have hee : 0 ≤ e.hours := hes e (List.mem_cons_self e es)
    have hest : ∀ b ∈ es, 0 ≤ b.hours := fun b hb => hes b (List.mem_cons_of_mem e hb)
    simp only [entryLoop]
    by_cases h1 : st.ov ≤ 0
    · rw [if_pos h1]
      refine ⟨hns, ?_⟩
      intro b hb
      rcases List.mem_append.mp hb with hx | hx
      · exact hbl b hx
      · exact hes b hx
    · rw [if_neg h1]
      by_cases h2 : e.hours ≤ 1/1000
      · rw [if_pos h2]
        refine ih _ hns hest ?_
        intro b hb
        rcases List.mem_append.mp hb with hx | hx
        · exact hbl b hx
        · rw [List.mem_singleton.mp hx]
          exact hee
      · rw [if_neg h2]
        obtain ⟨m1, m2, m3⟩ := moveLoop_nonneg cap e.subject P
          ⟨st.sched, e.hours, min e.hours st.ov, st.ov, true, st.moved⟩
          hns (le_min hee (le_of_lt (not_le.mp h1))) (min_le_left _ _)
        refine ih _ m1 hest ?_
        intro b hb
        rcases List.mem_append.mp hb with hx | hx
        · exact hbl b hx
        · cases hlive : (moveLoop cap e.subject P
              ⟨st.sched, e.hours, min e.hours st.ov, st.ov, true, st.moved⟩).live
          · rw [hlive] at hx
            simp at hx
          · rw [hlive] at hx
            simp only [Bool.cond_true, List.mem_singleton] at hx
            rw [hx]
            exact le_trans m2 m3

theorem processDay_nonneg (cap : ℤ → ℚ) (keys : List ℤ) (s : Sched) (day : ℤ)
    (hns : NonnegSched s) : NonnegSched (processDay cap keys s day).1 := by
  simp only [processDay]
  split_ifs
  · exact hns
  · obtain ⟨m1, m2⟩ := entryLoop_nonneg cap
      ((keys.filter (fun p => decide (p < day))).reverse) (getBlocks s day)
      ⟨s, round6 (used (getBlocks s day) - cap day), [], 0⟩
      hns (nonnegSched_getBlocks hns day) (by intro b hb; simp at hb)
    simp only
    refine blockPres_modifyAt ?_ m1
    intro bs _ b hb
    exact m2 b hb

theorem redisMain_nonneg (cap : ℤ → ℚ) (keys : List ℤ) :
    ∀ (ds : List ℤ) (s : Sched) (mv : ℚ), NonnegSched s →
      NonnegSched (redisMain cap keys ds s mv).1 := by
  intro ds
  induction ds with
  | nil =>
    intro s mv hns
    exact hns
  | cons d rest ih =>
    intro s mv hns
    simp only [redisMain]
    exact ih _ _ (processDay_nonneg cap keys s d hns)

/-- Every block of the cleaned-up schedule is nonnegative, with no grid
hypothesis: surviving entries have positive hours and `round` preserves
the sign bound. -/
theorem cleanup_nonneg (s : Sched) : NonnegSched (cleanup s) := by
  intro p hp b hb
  simp only [cleanup, List.mem_map] at hp
  obtain ⟨q, hq, hqe⟩ := hp
  rw [← hqe] at hb
  simp only [List.mem_map, List.mem_filter] at hb
  obtain ⟨e, ⟨he1, he2⟩, he3⟩ := hb
  rw [← he3]
  simp only
  have hpos : (1:ℚ)/1000 < e.hours := by simpa using he2
  exact round2_nonneg (le_of_lt (lt_trans (by norm_num) hpos))

/-- The redistribution output never stores negative hours, for any input. -/
theorem redistribute_nonneg (s : Sched) (a : Avail) :
    NonnegSched (detect_and_redistribute_clashes s a) := by
  simp only [detect_and_redistribute_clashes]
  split_ifs with h
  · intro p hp
    rw [List.isEmpty_iff] at h
    rw [h] at hp
    simp at hp
  · exact cleanup_nonneg _


/-! ### Top-level redistribution facts on the grid -/

theorem redistribute_taskSum (s : Sched) (a : Avail)
    (hnd : (s.map Prod.fst).Nodup) (hgs : GridSched s) (hns : NonnegSched s)
    (hga : GridAvail a) :
    ∀ m, taskSum (detect_and_redistribute_clashes s a) m = taskSum s m := by
  intro m
  simp only [detect_and_redistribute_clashes]
  split_ifs with h
  · rfl
  · obtain ⟨q1, q2, q3, q4, q5, q6⟩ :=
      redisMain_grid (capOf a) hga.capOf (s.map Prod.fst) hnd (s.map Prod.fst) s 0
        (fun p hp => hp) (fun d hd => hd) hnd hgs hns
    rw [cleanup_taskSum q1 q2 m, q3 m]

theorem redistribute_dayUsed_le (s : Sched) (a : Avail)
    (hnd : (s.map Prod.fst).Nodup) (hgs : GridSched s) (hns : NonnegSched s)
    (hga : GridAvail a) :
    ∀ d, dayUsed (detect_and_redistribute_clashes s a) d
      ≤ max (dayUsed s d) (capOf a d) := by
  intro d
  simp only [detect_and_redistribute_clashes]
  split_ifs with h
  · exact le_max_left _ _
  · obtain ⟨q1, q2, q3, q4, q5, q6⟩ :=
      redisMain_grid (capOf a) hga.capOf (s.map Prod.fst) hnd (s.map Prod.fst) s 0
        (fun p hp => hp) (fun e he => he) hnd hgs hns
    rw [cleanup_dayUsed q1 q2 d]
    exact q4 d

theorem movedTotal_bounds (s : Sched) (a : Avail)
    (hnd : (s.map Prod.fst).Nodup) (hgs : GridSched s) (hns : NonnegSched s)
    (hga : GridAvail a) :
    0 ≤ movedTotal s a ∧ movedTotal s a ≤ ovSum (capOf a) (s.map Prod.fst) s := by
  simp only [movedTotal]
  split_ifs with h
  · rw [List.isEmpty_iff] at h
    subst h
    exact ⟨le_refl 0, le_of_eq (ovSum_nil _ _).symm⟩
  · obtain ⟨q1, q2, q3, q4, q5, q6⟩ :=
      redisMain_grid (capOf a) hga.capOf (s.map Prod.fst) hnd (s.map Prod.fst) s 0
        (fun p hp => hp) (fun e he => he) hnd hgs hns
    constructor
    · exact q5
    · linarith [q6]

theorem redistribute_resid (s : Sched) (a : Avail)
    (hnd : (s.map Prod.fst).Nodup) (hgs : GridSched s) (hns : NonnegSched s)
    (hga : GridAvail a) (d : ℤ) (hd : d ∈ s.map Prod.fst) :
    dayUsed (detect_and_redistribute_clashes s a) d - capOf a d
      ≥ (dayUsed s d - capOf a d)
        - prevFreeSum (capOf a)
            (((s.map Prod.fst).filter (fun p => decide (p < d))).reverse) s := by
  simp only [detect_and_redistribute_clashes]
  split_ifs with h
  · have hpfs := prevFreeSum_nonneg (capOf a)
      (((s.map Prod.fst).filter (fun p => decide (p < d))).reverse) s
    linarith
  · obtain ⟨q1, q2, q3, q4, q5, q6⟩ :=
      redisMain_grid (capOf a) hga.capOf (s.map Prod.fst) hnd (s.map Prod.fst) s 0
        (fun p hp => hp) (fun e he => he) hnd hgs hns
    rw [cleanup_dayUsed q1 q2 d]
    exact redisMain_resid (capOf a) hga.capOf (s.map Prod.fst) hnd (s.map Prod.fst)
      s 0 d hd hnd (fun p hp => hp) (fun e he => he) hnd hgs hns

theorem redistribute_blocks_grid (s : Sched) (a : Avail)
    (hnd : (s.map Prod.fst).Nodup) (hgs : GridSched s) (hns : NonnegSched s)
    (hga : GridAvail a) :
    ∀ p ∈ detect_and_redistribute_clashes s a, ∀ b ∈ p.2,
      onGrid b.hours ∧ (1:ℚ)/1000 < b.hours ∧ round2 b.hours = b.hours := by
  simp only [detect_and_redistribute_clashes]
  split_ifs with h
  · rw [List.isEmpty_iff] at h
    intro p hp
    rw [h] at hp
    simp at hp
  · obtain ⟨q1, q2, q3, q4, q5, q6⟩ :=
      redisMain_grid (capOf a) hga.capOf (s.map Prod.fst) hnd (s.map Prod.fst) s 0
        (fun p hp => hp) (fun e he => he) hnd hgs hns
    exact cleanup_blocks_grid q1


/-! ### The claims -/

/-- C9: `allocate_hours_to_schedule` is a total function of its inputs in
this model (it has no failure path), and on an empty task set it returns an
empty schedule and an empty remainder map. -/
theorem claim_C9_empty_input (a : Avail) (start : ℤ) :
    allocate_hours_to_schedule [] a start = ([], []) := rfl

/-- C10: redistribution preserves the schedule's day structure: the returned
schedule has exactly the key list of the input, in the same order — days are
never inserted or deleted (a fully pruned day keeps its entry with an empty
block list). -/
theorem claim_C10_frame (s : Sched) (a : Avail) :
    (detect_and_redistribute_clashes s a).map Prod.fst = s.map Prod.fst :=
  redistribute_map_fst s a

/-- C3: the allocator's task order is (deadline ascending, priority
descending): the sorted list it walks is a permutation of the input that is
pairwise so ordered; and on Scenario C (X: 2h, deadline day 0, priority 5;
Y: 3h, deadline day 0, priority 1; Sunday capacity 3, start day 0 a Sunday)
X is placed first with 2 hours, Y gets the remaining 1 hour, and Y's
remainder is 2. -/
theorem claim_C3_ordering (subjects : List (String × Subject)) :
    (sortPairs sortLe subjects).Perm subjects ∧
    (sortPairs sortLe subjects).Pairwise (fun x y =>
      x.2.deadline < y.2.deadline ∨
        (x.2.deadline = y.2.deadline ∧ y.2.priority ≤ x.2.priority)) ∧
    allocate_hours_to_schedule [("X", ⟨0, 2, 5⟩), ("Y", ⟨0, 3, 1⟩)] [("Sun", 3)] 0
      = ([(0, [⟨"X", 2⟩, ⟨"Y", 1⟩])], [("X", 0), ("Y", 2)]) := by
  refine ⟨sortPairs_perm sortLe subjects, ?_, ?_⟩
  · refine (sortPairs_pairwise sortLe_trans sortLe_total subjects).imp ?_
    intro x y hxy
    simp only [sortLe, decide_eq_true_eq] at hxy
    omega
  · have hcap : capOf [("Sun", 3)] 0 = 3 := rfl
    have hb1 : ("Y" == "X") = false := rfl
    have hb2 : ("X" == "X") = true := rfl
    have hb3 : ("Y" == "Y") = true := rfl
    have hb4 : ("X" == "Y") = false := rfl
    have hn1 : ("X" = "Y") = False := eq_false (by decide)
    have hn2 : ("Y" = "X") = False := eq_false (by decide)
    norm_num [allocate_hours_to_schedule, maxDeadline, dateList, hcap, hb1, hb2,
      hb3, hb4, hn1, hn2, sortPairs, insertSorted, sortLe, pass1, pass2,
      allocDays1, allocDays2, remLookup, setRem, used, round2, round_eq,
      List.lookup, getBlocks]


/-- C2: in the allocator's output no block for a task sits on a date after
that task's deadline (unique task names); and redistribution preserves any
deadline invariant, because it only moves hours to strictly earlier days. -/
theorem claim_C2_deadline (subjects : List (String × Subject)) (a : Avail)
    (start : ℤ) (hnd : (subjects.map Prod.fst).Nodup) :
    (∀ p ∈ (allocate_hours_to_schedule subjects a start).1, ∀ b ∈ p.2,
      ∀ v, (b.subject, v) ∈ subjects → p.1 ≤ v.deadline) ∧
    (∀ (dl : String → ℤ) (s : Sched) (a2 : Avail),
      DeadlineOK dl s → DeadlineOK dl (detect_and_redistribute_clashes s a2)) :=
  ⟨allocate_deadline subjects a start hnd,
   fun dl s a2 hs => redistribute_deadlineOK s a2 dl hs⟩

theorem claim_C2_witness :
    (([("A", (⟨0, 1, 1⟩ : Subject))].map Prod.fst).Nodup) ∧
    ((∀ p ∈ (allocate_hours_to_schedule
          [("A", (⟨0, 1, 1⟩ : Subject))] [("Sun", 2)] 0).1, ∀ b ∈ p.2,
        ∀ v, (b.subject, v) ∈ [("A", (⟨0, 1, 1⟩ : Subject))] → p.1 ≤ v.deadline) ∧
     (∀ (dl : String → ℤ) (s : Sched) (a2 : Avail),
        DeadlineOK dl s → DeadlineOK dl (detect_and_redistribute_clashes s a2))) := by
  have h1 : (([("A", (⟨0, 1, 1⟩ : Subject))].map Prod.fst).Nodup) := by simp
  exact ⟨h1, claim_C2_deadline [("A", ⟨0, 1, 1⟩)] [("Sun", 2)] 0 h1⟩

/-- C7: for a nonempty task set whose maximum deadline is on or after the
start date, the allocator's schedule has exactly one entry per calendar date
from the start date to the maximum deadline inclusive (in order, no
duplicates), and the calendar builder assigns each day the capacity table's
value for its weekday, a missing weekday giving zero (the `getD 0` in
`availGet`). -/
theorem claim_C7_calendar (subjects : List (String × Subject)) (a : Avail)
    (start : ℤ) (hne : subjects ≠ [])
    (hdl : start ≤ maxDeadline subjects) :
    (allocate_hours_to_schedule subjects a start).1.map Prod.fst
        = dateList start (maxDeadline subjects) ∧
    (dateList start (maxDeadline subjects)).Nodup ∧
    (∀ d, d ∈ dateList start (maxDeadline subjects)
        ↔ start ≤ d ∧ d ≤ maxDeadline subjects) ∧
    (∀ p ∈ build_calendar_slots a start (maxDeadline subjects),
        p.2 = availGet a (weekdayName p.1)) ∧
    (build_calendar_slots a start (maxDeadline subjects)).map Prod.fst
        = dateList start (maxDeadline subjects) :=
  ⟨allocate_sched_keys subjects a start hne, dateList_nodup _ _,
    fun d => mem_dateList, build_calendar_slots_cap,
    build_calendar_slots_keys a _ _⟩

theorem claim_C7_witness :
    ([("A", (⟨1, 2, 1⟩ : Subject))] ≠ []) ∧
    ((0:ℤ) ≤ maxDeadline [("A", (⟨1, 2, 1⟩ : Subject))]) ∧
    ((allocate_hours_to_schedule [("A", (⟨1, 2, 1⟩ : Subject))] [("Sun", 2)] 0).1.map
          Prod.fst
        = dateList 0 (maxDeadline [("A", (⟨1, 2, 1⟩ : Subject))]) ∧
      (dateList 0 (maxDeadline [("A", (⟨1, 2, 1⟩ : Subject))])).Nodup ∧
      (∀ d, d ∈ dateList 0 (maxDeadline [("A", (⟨1, 2, 1⟩ : Subject))])
          ↔ 0 ≤ d ∧ d ≤ maxDeadline [("A", (⟨1, 2, 1⟩ : Subject))]) ∧
      (∀ p ∈ build_calendar_slots [("Sun", 2)] 0
            (maxDeadline [("A", (⟨1, 2, 1⟩ : Subject))]),
          p.2 = availGet [("Sun", 2)] (weekdayName p.1)) ∧
      (build_calendar_slots [("Sun", 2)] 0
            (maxDeadline [("A", (⟨1, 2, 1⟩ : Subject))])).map Prod.fst
          = dateList 0 (maxDeadline [("A", (⟨1, 2, 1⟩ : Subject))])) := by
  have h1 : [("A", (⟨1, 2, 1⟩ : Subject))] ≠ [] := by simp
  have h2 : (0:ℤ) ≤ maxDeadline [("A", (⟨1, 2, 1⟩ : Subject))] := by decide
  exact ⟨h1, h2, claim_C7_calendar [("A", ⟨1, 2, 1⟩)] [("Sun", 2)] 0 h1 h2⟩


/-- C1 (amended to the 0.01 grid): when every required-hours figure and
every availability value is a multiple of 0.01, conservation is exact — for
every task, required hours equal the hours placed for it plus its recorded
remainder, both right after allocation and after redistribution of the
allocator's schedule. -/
theorem claim_C1_conservation (subjects : List (String × Subject)) (a : Avail)
    (start : ℤ) (hnd : (subjects.map Prod.fst).Nodup)
    (hgr : ∀ p ∈ subjects, onGrid p.2.required_hours ∧ 0 ≤ p.2.required_hours)
    (hga : GridAvail a) :
    ∀ p ∈ subjects,
      p.2.required_hours
        = taskSum (allocate_hours_to_schedule subjects a start).1 p.1
          + remLookup (allocate_hours_to_schedule subjects a start).2 p.1 ∧
      p.2.required_hours
        = taskSum (detect_and_redistribute_clashes
            (allocate_hours_to_schedule subjects a start).1 a) p.1
          + remLookup (allocate_hours_to_schedule subjects a start).2 p.1 := by
  intro p hp
  have h1 := allocate_conservation subjects a start hnd hgr hga p hp
  refine ⟨h1, ?_⟩
  have hne : subjects ≠ [] := List.ne_nil_of_mem hp
  have hkeys := allocate_sched_keys subjects a start hne
  have hnds : ((allocate_hours_to_schedule subjects a start).1.map Prod.fst).Nodup := by
    rw [hkeys]
    exact dateList_nodup _ _
  have hts := redistribute_taskSum (allocate_hours_to_schedule subjects a start).1 a
    hnds (allocate_gridSched subjects a start) (allocate_nonneg subjects a start) hga
  rw [hts p.1]
  exact h1

theorem claim_C1_witness :
    (([("A", (⟨0, 1, 1⟩ : Subject))].map Prod.fst).Nodup) ∧
    (∀ p ∈ [("A", (⟨0, 1, 1⟩ : Subject))],
      onGrid p.2.required_hours ∧ 0 ≤ p.2.required_hours) ∧
    GridAvail [("Sun", 2)] ∧
    (∀ p ∈ [("A", (⟨0, 1, 1⟩ : Subject))],
      p.2.required_hours
        = taskSum (allocate_hours_to_schedule
            [("A", (⟨0, 1, 1⟩ : Subject))] [("Sun", 2)] 0).1 p.1
          + remLookup (allocate_hours_to_schedule
            [("A", (⟨0, 1, 1⟩ : Subject))] [("Sun", 2)] 0).2 p.1 ∧
      p.2.required_hours
        = taskSum (detect_and_redistribute_clashes
            (allocate_hours_to_schedule
              [("A", (⟨0, 1, 1⟩ : Subject))] [("Sun", 2)] 0).1 [("Sun", 2)]) p.1
          + remLookup (allocate_hours_to_schedule
            [("A", (⟨0, 1, 1⟩ : Subject))] [("Sun", 2)] 0).2 p.1) := by
  have h1 : (([("A", (⟨0, 1, 1⟩ : Subject))].map Prod.fst).Nodup) := by simp
  have h2 : ∀ p ∈ [("A", (⟨0, 1, 1⟩ : Subject))],
      onGrid p.2.required_hours ∧ 0 ≤ p.2.required_hours := by
    intro p hp
    rw [List.mem_singleton] at hp
    subst hp
    exact ⟨⟨100, by norm_num⟩, by norm_num⟩
  have h3 : GridAvail [("Sun", 2)] := by
    intro p hp
    rw [List.mem_singleton] at hp
    subst hp
    exact ⟨200, by norm_num⟩
  exact ⟨h1, h2, h3, claim_C1_conservation _ _ 0 h1 h2 h3⟩

/-- C1 as stated fails off the grid: a task of 0.004 required hours is
stored as a rounded 0.0-hour block with remainder 0, so required hours and
placed-plus-remainder differ by 0.004, more than the claimed 0.001
tolerance. -/
theorem claim_C1_counterexample :
    ¬ (|(1:ℚ)/250
        - (taskSum (allocate_hours_to_schedule
              [("A", (⟨0, 1/250, 1⟩ : Subject))] [("Sun", 10)] 0).1 "A"
          + remLookup (allocate_hours_to_schedule
              [("A", (⟨0, 1/250, 1⟩ : Subject))] [("Sun", 10)] 0).2 "A")|
      ≤ 1/1000) := by
  have hcap : capOf [("Sun", 10)] 0 = 10 := rfl
  have hb : ("A" == "A") = true := rfl
  have heval : allocate_hours_to_schedule
      [("A", (⟨0, 1/250, 1⟩ : Subject))] [("Sun", 10)] 0
      = ([(0, [⟨"A", 0⟩])], [("A", 0)]) := by
    norm_num [allocate_hours_to_schedule, maxDeadline, dateList, hcap, hb,
      sortPairs, insertSorted, sortLe, pass1, pass2, allocDays1, allocDays2,
      remLookup, setRem, used, round2, round_eq, List.lookup, getBlocks]
  rw [heval]
  norm_num [taskSum, subjSum, remLookup, List.lookup, hb]
  rw [abs_of_nonneg (by norm_num : (0:ℚ) ≤ 1/250)]
  norm_num


/-- C5 (amended to the 0.01 grid): redistribution never worsens any day's
overload, and the total hours it moves never exceed the total overload
present before the pass. -/
theorem claim_C5_nonworsening (s : Sched) (a : Avail)
    (hnd : (s.map Prod.fst).Nodup) (hgs : GridSched s) (hns : NonnegSched s)
    (hga : GridAvail a) :
    (∀ d, max (dayUsed (detect_and_redistribute_clashes s a) d - capOf a d) 0
        ≤ max (dayUsed s d - capOf a d) 0) ∧
    0 ≤ movedTotal s a ∧
    movedTotal s a ≤ ovSum (capOf a) (s.map Prod.fst) s := by
  refine ⟨?_, movedTotal_bounds s a hnd hgs hns hga⟩
  intro d
  exact max_sub_le_max_sub (redistribute_dayUsed_le s a hnd hgs hns hga d)

theorem claim_C5_witness :
    (([((0:ℤ), ([] : List Block))].map Prod.fst).Nodup) ∧
    GridSched [((0:ℤ), ([] : List Block))] ∧
    NonnegSched [((0:ℤ), ([] : List Block))] ∧
    GridAvail [("Sun", 1)] ∧
    ((∀ d, max (dayUsed (detect_and_redistribute_clashes
          [((0:ℤ), ([] : List Block))] [("Sun", 1)]) d - capOf [("Sun", 1)] d) 0
        ≤ max (dayUsed [((0:ℤ), ([] : List Block))] d - capOf [("Sun", 1)] d) 0) ∧
      0 ≤ movedTotal [((0:ℤ), ([] : List Block))] [("Sun", 1)] ∧
      movedTotal [((0:ℤ), ([] : List Block))] [("Sun", 1)]
        ≤ ovSum (capOf [("Sun", 1)]) ([((0:ℤ), ([] : List Block))].map Prod.fst)
            [((0:ℤ), ([] : List Block))]) := by
  have h1 : (([((0:ℤ), ([] : List Block))].map Prod.fst).Nodup) := by simp
  have h2 : GridSched [((0:ℤ), ([] : List Block))] := by
    intro p hp b hb
    rw [List.mem_singleton] at hp
    subst hp
    simp at hb
  have h3 : NonnegSched [((0:ℤ), ([] : List Block))] := by
    intro p hp b hb
    rw [List.mem_singleton] at hp
    subst hp
    simp at hb
  have h4 : GridAvail [("Sun", 1)] := by
    intro p hp
    rw [List.mem_singleton] at hp
    subst hp
    exact ⟨100, by norm_num⟩
  exact ⟨h1, h2, h3, h4, claim_C5_nonworsening _ _ h1 h2 h3 h4⟩

/-- C5 as stated fails off the grid: moving 0.006 hours onto an empty day
with capacity 0.006 stores `round(0.006, 2) = 0.01` hours, so the target
day ends 0.004 hours over capacity although it started with no overload. -/
theorem claim_C5_counterexample :
    ¬ (max (dayUsed (detect_and_redistribute_clashes
          [(0, ([] : List Block)), (1, [⟨"A", 1/100⟩])]
          [("Sun", 3/500), ("Mon", 0)]) 0
        - capOf [("Sun", 3/500), ("Mon", 0)] 0) 0
      ≤ max (dayUsed [(0, ([] : List Block)), (1, [⟨"A", 1/100⟩])] 0
        - capOf [("Sun", 3/500), ("Mon", 0)] 0) 0) := by
  have hcap0 : capOf [("Sun", 3/500), ("Mon", 0)] 0 = 3/500 := rfl
  have hcap1 : capOf [("Sun", 3/500), ("Mon", 0)] 1 = 0 := rfl
  have hd1 : decide ((0:ℚ) ≤ 1/10000) = true := by
    rw [decide_eq_true_eq]
    norm_num
  have hi1 : ((1:ℤ) == 0) = false := rfl
  have hi2 : ((0:ℤ) == 0) = true := rfl
  have hi3 : ((0:ℤ) == 1) = false := rfl
  have hi4 : ((1:ℤ) == 1) = true := rfl
  have heval : detect_and_redistribute_clashes
      [(0, ([] : List Block)), (1, [⟨"A", 1/100⟩])]
      [("Sun", 3/500), ("Mon", 0)]
      = [(0, [⟨"A", 1/100⟩]), (1, [])] := by
    norm_num [detect_and_redistribute_clashes, redisMain, processDay, entryLoop,
      moveLoop, cleanup, modifyAt, getBlocks, used, round2, round6, round_eq,
      List.lookup, hcap0, hcap1, hd1, hi1, hi2, hi3, hi4, prevFreeSum, dayUsed]
  rw [heval]
  norm_num [dayUsed, getBlocks, used, List.lookup, hcap0]


/-- C4 (amended to the 0.01 grid): with grid block hours and capacities and
nonnegative capacities, a second redistribution pass returns its input
schedule unchanged. -/
theorem claim_C4_idempotent (s : Sched) (a : Avail)
    (hnd : (s.map Prod.fst).Nodup) (hgs : GridSched s) (hns : NonnegSched s)
    (hga : GridAvail a) (hna : ∀ p ∈ a, 0 ≤ p.2) :
    detect_and_redistribute_clashes (detect_and_redistribute_clashes s a) a
      = detect_and_redistribute_clashes s a :=
  redistribute_idem s a hnd hgs hns hga hna

theorem claim_C4_witness :
    (([((0:ℤ), ([] : List Block))].map Prod.fst).Nodup) ∧
    GridSched [((0:ℤ), ([] : List Block))] ∧
    NonnegSched [((0:ℤ), ([] : List Block))] ∧
    GridAvail [("Sun", 1)] ∧
    (∀ p ∈ [("Sun", (1:ℚ))], 0 ≤ p.2) ∧
    detect_and_redistribute_clashes
        (detect_and_redistribute_clashes [((0:ℤ), ([] : List Block))] [("Sun", 1)])
        [("Sun", 1)]
      = detect_and_redistribute_clashes [((0:ℤ), ([] : List Block))] [("Sun", 1)] := by
  have h1 : (([((0:ℤ), ([] : List Block))].map Prod.fst).Nodup) := by simp
  have h2 : GridSched [((0:ℤ), ([] : List Block))] := by
    intro p hp b hb
    rw [List.mem_singleton] at hp
    subst hp
    simp at hb
  have h3 : NonnegSched [((0:ℤ), ([] : List Block))] := by
    intro p hp b hb
    rw [List.mem_singleton] at hp
    subst hp
    simp at hb
  have h4 : GridAvail [("Sun", 1)] := by
    intro p hp
    rw [List.mem_singleton] at hp
    subst hp
    exact ⟨100, by norm_num⟩
  have h5 : ∀ p ∈ [("Sun", (1:ℚ))], 0 ≤ p.2 := by
    intro p hp
    rw [List.mem_singleton] at hp
    subst hp
    norm_num
  exact ⟨h1, h2, h3, h4, h5, claim_C4_idempotent _ _ h1 h2 h3 h4 h5⟩

/-- C4 as stated fails off the grid: a 0.002-hour block survives the first
pass (it exceeds the 0.001 pruning threshold) but is stored rounded to 0.0,
and the second pass then prunes it, so the second run changes the
schedule. -/
theorem claim_C4_counterexample :
    detect_and_redistribute_clashes
        (detect_and_redistribute_clashes [((0:ℤ), [⟨"A", 1/500⟩])] [("Sun", 1)])
        [("Sun", 1)]
      ≠ detect_and_redistribute_clashes [((0:ℤ), [⟨"A", 1/500⟩])] [("Sun", 1)] := by
  have hcap : capOf [("Sun", 1)] 0 = 1 := rfl
  have hdq1 : decide ((1:ℚ)/1000 < 1/500) = true := by
    rw [decide_eq_true_eq]
    norm_num
  have hdq2 : decide ((1:ℚ)/1000 < 0) = false := by
    rw [decide_eq_false_iff_not]
    norm_num
  have heval1 : detect_and_redistribute_clashes
      [((0:ℤ), [⟨"A", 1/500⟩])] [("Sun", 1)] = [((0:ℤ), [⟨"A", 0⟩])] := by
    norm_num [detect_and_redistribute_clashes, redisMain, processDay, entryLoop,
      moveLoop, cleanup, modifyAt, getBlocks, used, round2, round6, round_eq,
      List.lookup, hcap, hdq1, hdq2]
  have heval2 : detect_and_redistribute_clashes
      [((0:ℤ), [⟨"A", 0⟩])] [("Sun", 1)] = [((0:ℤ), [])] := by
    norm_num [detect_and_redistribute_clashes, redisMain, processDay, entryLoop,
      moveLoop, cleanup, modifyAt, getBlocks, used, round2, round6, round_eq,
      List.lookup, hcap, hdq1, hdq2]
  rw [heval1, heval2]
  simp

/-- C6 (amended to the 0.01 grid): the redistribution pass is a total
function (it cannot fail), and whenever a day's overload strictly exceeds
the total free capacity of all earlier days of the schedule, that day is
still over capacity in the returned schedule. -/
theorem claim_C6_residual (s : Sched) (a : Avail)
    (hnd : (s.map Prod.fst).Nodup) (hgs : GridSched s) (hns : NonnegSched s)
    (hga : GridAvail a) :
    ∀ d ∈ s.map Prod.fst,
      prevFreeSum (capOf a)
          (((s.map Prod.fst).filter (fun p => decide (p < d))).reverse) s
        < dayUsed s d - capOf a d →
      0 < dayUsed (detect_and_redistribute_clashes s a) d - capOf a d := by
  intro d hd hlt
  have h := redistribute_resid s a hnd hgs hns hga d hd
  linarith

theorem claim_C6_witness :
    (([((0:ℤ), ([] : List Block))].map Prod.fst).Nodup) ∧
    GridSched [((0:ℤ), ([] : List Block))] ∧
    NonnegSched [((0:ℤ), ([] : List Block))] ∧
    GridAvail [("Sun", 1)] ∧
    (∀ d ∈ [((0:ℤ), ([] : List Block))].map Prod.fst,
      prevFreeSum (capOf [("Sun", 1)])
          ((([((0:ℤ), ([] : List Block))].map Prod.fst).filter
            (fun p => decide (p < d))).reverse) [((0:ℤ), ([] : List Block))]
        < dayUsed [((0:ℤ), ([] : List Block))] d - capOf [("Sun", 1)] d →
      0 < dayUsed (detect_and_redistribute_clashes
          [((0:ℤ), ([] : List Block))] [("Sun", 1)]) d - capOf [("Sun", 1)] d) := by
  have h1 : (([((0:ℤ), ([] : List Block))].map Prod.fst).Nodup) := by simp
  have h2 : GridSched [((0:ℤ), ([] : List Block))] := by
    intro p hp b hb
    rw [List.mem_singleton] at hp
    subst hp
    simp at hb
  have h3 : NonnegSched [((0:ℤ), ([] : List Block))] := by
    intro p hp b hb
    rw [List.mem_singleton] at hp
    subst hp
    simp at hb
  have h4 : GridAvail [("Sun", 1)] := by
    intro p hp
    rw [List.mem_singleton] at hp
    subst hp
    exact ⟨100, by norm_num⟩
  exact ⟨h1, h2, h3, h4, claim_C6_residual _ _ h1 h2 h3 h4⟩

/-- C6 as stated fails off the grid: a day holding 1.004 hours against
capacity 1 has overload 0.004 and no earlier day at all, yet the final
rounding stores 1.0 hours, so the returned schedule does not leave the day
over capacity. -/
theorem claim_C6_counterexample :
    prevFreeSum (capOf [("Sun", 1)])
        (((([((0:ℤ), [⟨"A", 251/250⟩])] : Sched).map Prod.fst).filter
          (fun p => decide (p < (0:ℤ)))).reverse) [((0:ℤ), [⟨"A", 251/250⟩])]
      < dayUsed [((0:ℤ), [⟨"A", 251/250⟩])] 0 - capOf [("Sun", 1)] 0 ∧
    ¬ (0 < dayUsed (detect_and_redistribute_clashes
        [((0:ℤ), [⟨"A", 251/250⟩])] [("Sun", 1)]) 0 - capOf [("Sun", 1)] 0) := by
  have hcap : capOf [("Sun", 1)] 0 = 1 := rfl
  have hdq1 : decide ((1:ℚ)/1000 < 251/250) = true := by
    rw [decide_eq_true_eq]
    norm_num
  have heval : detect_and_redistribute_clashes
      [((0:ℤ), [⟨"A", 251/250⟩])] [("Sun", 1)] = [((0:ℤ), [⟨"A", 1⟩])] := by
    norm_num [detect_and_redistribute_clashes, redisMain, processDay, entryLoop,
      moveLoop, cleanup, modifyAt, getBlocks, used, round2, round6, round_eq,
      List.lookup, hcap, hdq1]
  constructor
  · norm_num [prevFreeSum, dayUsed, getBlocks, used, List.lookup, hcap]
  · rw [heval]
    norm_num [dayUsed, getBlocks, used, List.lookup, hcap]

/-- C8 (amended): no block stored by the allocator or by the redistributor
is ever negative, for any input; and on the 0.01 grid, every block of the
redistributor's output is strictly above the 0.001 pruning threshold and is
a fixed point of 2-decimal rounding. -/
theorem claim_C8_blocks (subjects : List (String × Subject)) (a : Avail)
    (start : ℤ) (s : Sched) (a2 : Avail)
    (hnd : (s.map Prod.fst).Nodup) (hgs : GridSched s) (hns : NonnegSched s)
    (hga : GridAvail a2) :
    (∀ p ∈ (allocate_hours_to_schedule subjects a start).1, ∀ b ∈ p.2,
      0 ≤ b.hours) ∧
    (∀ (s2 : Sched) (a3 : Avail),
      NonnegSched (detect_and_redistribute_clashes s2 a3)) ∧
    (∀ p ∈ detect_and_redistribute_clashes s a2, ∀ b ∈ p.2,
      (1:ℚ)/1000 < b.hours ∧ round2 b.hours = b.hours) := by
  refine ⟨allocate_nonneg subjects a start,
    fun s2 a3 => redistribute_nonneg s2 a3, ?_⟩
  intro p hp b hb
  exact ⟨(redistribute_blocks_grid s a2 hnd hgs hns hga p hp b hb).2.1,
    (redistribute_blocks_grid s a2 hnd hgs hns hga p hp b hb).2.2⟩

theorem claim_C8_witness :
    (([((0:ℤ), ([] : List Block))].map Prod.fst).Nodup) ∧
    GridSched [((0:ℤ), ([] : List Block))] ∧
    NonnegSched [((0:ℤ), ([] : List Block))] ∧
    GridAvail [("Sun", 1)] ∧
    ((∀ p ∈ (allocate_hours_to_schedule
          [("A", (⟨0, 1, 1⟩ : Subject))] [("Sun", 2)] 0).1, ∀ b ∈ p.2,
        0 ≤ b.hours) ∧
      (∀ (s2 : Sched) (a3 : Avail),
        NonnegSched (detect_and_redistribute_clashes s2 a3)) ∧
      (∀ p ∈ detect_and_redistribute_clashes
          [((0:ℤ), ([] : List Block))] [("Sun", 1)], ∀ b ∈ p.2,
        (1:ℚ)/1000 < b.hours ∧ round2 b.hours = b.hours)) := by
  have h1 : (([((0:ℤ), ([] : List Block))].map Prod.fst).Nodup) := by simp
  have h2 : GridSched [((0:ℤ), ([] : List Block))] := by
    intro p hp b hb
    rw [List.mem_singleton] at hp
    subst hp
    simp at hb
  have h3 : NonnegSched [((0:ℤ), ([] : List Block))] := by
    intro p hp b hb
    rw [List.mem_singleton] at hp
    subst hp
    simp at hb
  have h4 : GridAvail [("Sun", 1)] := by
    intro p hp
    rw [List.mem_singleton] at hp
    subst hp
    exact ⟨100, by norm_num⟩
  exact ⟨h1, h2, h3, h4,
    claim_C8_blocks [("A", ⟨0, 1, 1⟩)] [("Sun", 2)] 0 _ _ h1 h2 h3 h4⟩

/-- C8 as stated fails off the grid: a 0.002-hour block passes the pruning
filter but is stored as `round(0.002, 2) = 0.0`, which is not strictly
above the 0.001 threshold. -/
theorem claim_C8_counterexample :
    ¬ (∀ p ∈ detect_and_redistribute_clashes
          [((0:ℤ), [⟨"B", 1/500⟩])] [("Sun", 1)], ∀ b ∈ p.2,
        (1:ℚ)/1000 < b.hours) := by
  have hcap : capOf [("Sun", 1)] 0 = 1 := rfl
  have hdq1 : decide ((1:ℚ)/1000 < 1/500) = true := by
    rw [decide_eq_true_eq]
    norm_num
  have heval : detect_and_redistribute_clashes
      [((0:ℤ), [⟨"B", 1/500⟩])] [("Sun", 1)] = [((0:ℤ), [⟨"B", 0⟩])] := by
    norm_num [detect_and_redistribute_clashes, redisMain, processDay, entryLoop,
      moveLoop, cleanup, modifyAt, getBlocks, used, round2, round6, round_eq,
      List.lookup, hcap, hdq1]
  intro h
  have hb := h ((0:ℤ), [⟨"B", 0⟩])
    (by rw [heval]; exact List.mem_singleton.mpr rfl)
    ⟨"B", 0⟩ (List.mem_singleton.mpr rfl)
  norm_num at hb


end StudyPlanner
